import Mathlib

/-!
# fcl.h: a shallow embedding of the FCL codec

`fcl.h` is a single-header LZ77-style codec: `fcl_compress` scans the input
with a 4096-entry table of last-seen positions and emits token records,
`fcl_decompress` replays them.

Modelling conventions.

* A byte (`unsigned char`) is a `Fin 256`. A caller buffer is the list of the
  bytes its declared size covers: `input_size` is `input.length` and
  `output_capacity` is `output.length`. Every buffer access goes through `rd`,
  `rdInt` or `wr`; an access at an index outside the list is the outcome
  `Res.oob`.
* `return 1` is the outcome `Res.ret1`, carrying the output buffer as it is at
  that moment; `return 0` is `Res.ok`, carrying the output buffer and the value
  stored to `*output_size`.
* `unsigned long` arithmetic comes in two forms. The functions `fcl_compress`,
  `fcl_decompress` and their parts take the sums and differences of positions
  and sizes in the natural numbers; the one product that wraps whatever the
  sizes, in `fcl_hash`, is reduced modulo `2 ^ w`, where `w` is the width of
  `unsigned long`. The functions in `Wrap` follow the same source lines and
  reduce every `unsigned long` sum and difference modulo `2 ^ w`. The two forms
  coincide as long as no sum reaches `2 ^ w`: for the encoder on inputs of at
  most `2 ^ w - 5` bytes (`wrap_fcl_compress_eq`), for the decoder on streams
  of at most `2 ^ w - 16` bytes and capacities of at most `2 ^ w - 20`
  (`wrap_fcl_decompress_eq`). The statements about bounds and termination are
  made on the functions in `Wrap`.
* A `while`/`for` loop is `loopN body fuel`, where `body` tests the loop
  condition and runs one iteration; running out of fuel is `Res.nofuel`.
-/

namespace Fcl

abbrev Byte := Fin 256

/-- The cast `(unsigned char)v`. -/
def toByte (v : Nat) : Byte := ⟨v % 256, Nat.mod_lt v (by decide)⟩

/-- Outcome of a computation over the buffers. -/
inductive Res (α : Type) where
  | ok (a : α)
  | ret1 (output : List Byte)
  | oob
  | nofuel
deriving DecidableEq

/-- Sequencing of outcomes: the first outcome that is not `ok` ends the run. -/
def Res.bind {α β : Type} (r : Res α) (f : α → Res β) : Res β :=
  match r with
  | .ok a => f a
  | .ret1 o => .ret1 o
  | .oob => .oob
  | .nofuel => .nofuel

instance : Monad Res where
  pure := Res.ok
  bind := Res.bind

/-- One pass through a loop either goes round again or leaves the loop. -/
inductive Step (σ : Type) where
  | next (s : σ)
  | done (s : σ)
deriving DecidableEq

/-- A loop: `body` is run until it leaves the loop, at most `fuel` times. -/
def loopN {σ : Type} (body : σ → Res (Step σ)) : Nat → σ → Res σ
  | 0, _ => .nofuel
  | fuel + 1, s =>
    match body s with
    | .ok (.next s') => loopN body fuel s'
    | .ok (.done s') => .ok s'
    | .ret1 o => .ret1 o
    | .oob => .oob
    | .nofuel => .nofuel

/-- The read `buf[i]`. -/
def rd (buf : List Byte) (i : Nat) : Res Byte :=
  match buf[i]? with
  | some b => .ok b
  | none => .oob

/-- The read `buf[i]` at a signed index. -/
def rdInt (buf : List Byte) (i : Int) : Res Byte :=
  if 0 ≤ i then rd buf i.toNat else .oob

/-- The write `buf[i] = v`. -/
def wr (buf : List Byte) (i : Nat) (v : Byte) : Res (List Byte) :=
  if i < buf.length then .ok (buf.set i v) else .oob

def FCL_MIN_MATCH : Nat := 4
def FCL_HASH_LOG : Nat := 12
def FCL_HASH_SIZE : Nat := 1 <<< FCL_HASH_LOG
def FCL_MAX_DISTANCE : Nat := 65535
def FCL_MAX_LITERAL : Nat := 15
def FCL_MAX_MATCH : Nat := 19

/-- `FCL_READ_U32(&p[i])`: four bytes, little-endian. -/
def FCL_READ_U32 (p : List Byte) (i : Nat) : Res Nat := do
  let b0 ← rd p i
  let b1 ← rd p (i + 1)
  let b2 ← rd p (i + 2)
  let b3 ← rd p (i + 3)
  pure (b0.val ||| (b1.val <<< 8) ||| (b2.val <<< 16) ||| (b3.val <<< 24))

/-- `FCL_WRITE_U16(&p[i], v)`. -/
def FCL_WRITE_U16 (p : List Byte) (i : Nat) (v : Nat) : Res (List Byte) := do
  let p0 ← wr p i (toByte v)
  wr p0 (i + 1) (toByte (v >>> 8))

/-- The assignment `(dst)[k] = (src)[k]`: `src` reads the source byte `k` from
the memory as it is now (the source may lie in the destination buffer), `dst`
is the offset of the destination in `buf`. -/
def copy_byte (src : List Byte → Nat → Res Byte) (dst : Nat) (buf : List Byte) (k : Nat) :
    Res (List Byte) := do
  let b ← src buf k
  wr buf (dst + k) b

/-- `FCL_COPY4(dst + i, src + i)`. -/
def FCL_COPY4 (src : List Byte → Nat → Res Byte) (dst : Nat) (buf : List Byte) (i : Nat) :
    Res (List Byte) := do
  let b0 ← copy_byte src dst buf (i + 0)
  let b1 ← copy_byte src dst b0 (i + 1)
  let b2 ← copy_byte src dst b1 (i + 2)
  copy_byte src dst b2 (i + 3)

/-- First loop of `FCL_COPY_BYTES`: `while (_i + 4 <= count)`. -/
def copy_bytes_body4 (src : List Byte → Nat → Res Byte) (dst count : Nat)
    (s : Nat × List Byte) : Res (Step (Nat × List Byte)) :=
  if s.1 + 4 ≤ count then do
    let buf ← FCL_COPY4 src dst s.2 s.1
    pure (.next (s.1 + 4, buf))
  else pure (.done s)

/-- Second loop of `FCL_COPY_BYTES`: `while (_i < count)`. -/
def copy_bytes_body1 (src : List Byte → Nat → Res Byte) (dst count : Nat)
    (s : Nat × List Byte) : Res (Step (Nat × List Byte)) :=
  if s.1 < count then do
    let buf ← copy_byte src dst s.2 s.1
    pure (.next (s.1 + 1, buf))
  else pure (.done s)

/-- `FCL_COPY_BYTES(dst, src, count)`. -/
def FCL_COPY_BYTES (src : List Byte → Nat → Res Byte) (dst : Nat) (buf : List Byte)
    (count : Nat) : Res (List Byte) := do
  let s1 ← loopN (copy_bytes_body4 src dst count) (count + 1) (0, buf)
  let s2 ← loopN (copy_bytes_body1 src dst count) (count + 1) s1
  pure s2.2

/-- `fcl_hash`, with `unsigned long` of `w` bits. -/
def fcl_hash (w : Nat) (seq : Nat) : Nat :=
  (((seq * 2654435761) % 2 ^ w) >>> (32 - FCL_HASH_LOG)) &&& (FCL_HASH_SIZE - 1)

/-- Local variables of `fcl_compress`. -/
structure CState where
  hash_table : Nat → Nat
  ip : Nat
  anchor : Nat
  op : Nat
  output : List Byte

/-- State of the match-extension loop. -/
def match_extend_body (input : List Byte) (ip mtch : Nat) (match_len : Nat) :
    Res (Step Nat) :=
  if ip + match_len < input.length then do
    let a ← rd input (mtch + match_len)
    let b ← rd input (ip + match_len)
    if a = b then
      if match_len + 1 = FCL_MAX_MATCH then pure (.done (match_len + 1))
      else pure (.next (match_len + 1))
    else pure (.done match_len)
  else pure (.done match_len)

/-- The branch of the scan loop taken when a match root was found, from the
declaration of `literal_len` to `anchor = ip`. The statement between the token
store and `op += literal_len` is the expression
`(&output[op], &input[anchor], literal_len);`, which has no effect. -/
def fcl_compress_match (input : List Byte) (output_capacity : Nat)
    (hash_table : Nat → Nat) (ref : Nat) (s : CState) : Res (Step CState) := do
  let literal_len := s.ip - s.anchor
  let mtch := ref
  let match_len ← loopN (match_extend_body input s.ip mtch)
    (FCL_MAX_MATCH - FCL_MIN_MATCH + 1) FCL_MIN_MATCH
  if s.op + 1 + literal_len + 2 > output_capacity then .ret1 s.output
  else do
    let lit : Byte :=
      if literal_len < FCL_MAX_LITERAL then toByte literal_len else toByte FCL_MAX_LITERAL
    let mat : Byte :=
      if match_len - FCL_MIN_MATCH < FCL_MAX_LITERAL then toByte (match_len - FCL_MIN_MATCH)
      else toByte FCL_MAX_LITERAL
    let token : Byte := toByte ((lit.val <<< 4) ||| mat.val)
    let out1 ← wr s.output s.op token
    let op := s.op + 1
    let op := op + literal_len
    let out2 ← FCL_WRITE_U16 out1 op (s.ip - mtch)
    let op := op + 2
    pure (.next
      { hash_table := hash_table, ip := s.ip + match_len, anchor := s.ip + match_len,
        op := op, output := out2 })

/-- One pass of `while (ip + FCL_MIN_MATCH < input_size)` in `fcl_compress`. -/
def fcl_compress_body (w : Nat) (input : List Byte) (output_capacity : Nat) (s : CState) :
    Res (Step CState) :=
  if s.ip + FCL_MIN_MATCH < input.length then do
    let seq ← FCL_READ_U32 input s.ip
    let hash := fcl_hash w seq
    let ref := s.hash_table hash
    let hash_table : Nat → Nat := fun h => if h = hash then s.ip % 65536 else s.hash_table h
    if ref < s.ip ∧ s.ip - ref ≤ FCL_MAX_DISTANCE then do
      let seq_ref ← FCL_READ_U32 input ref
      if seq_ref = seq then
        fcl_compress_match input output_capacity hash_table ref s
      else pure (.next { s with hash_table := hash_table, ip := s.ip + 1 })
    else pure (.next { s with hash_table := hash_table, ip := s.ip + 1 })
  else pure (.done s)

/-- The part of `fcl_compress` after the scan loop: the final record. -/
def fcl_compress_final (input : List Byte) (output_capacity : Nat) (s : CState) :
    Res (List Byte × Nat) := do
  let literal_len := input.length - s.anchor
  if s.op + 1 + literal_len > output_capacity then .ret1 s.output
  else do
    let out1 ← wr s.output s.op (toByte (literal_len <<< 4))
    let op := s.op + 1
    let out2 ← FCL_COPY_BYTES (fun _ k => rd input (s.anchor + k)) op out1 literal_len
    let op := op + literal_len
    pure (out2, op)

/-- `fcl_compress(input, input.length, output, &output_size, output.length)`, with
`unsigned long` of `w` bits. -/
def fcl_compress (w : Nat) (input output : List Byte) : Res (List Byte × Nat) := do
  let s ← loopN (fcl_compress_body w input output.length) (input.length + 1)
    { hash_table := fun _ => 0, ip := 0, anchor := 0, op := 0, output := output }
  fcl_compress_final input output.length s

/-- Local variables of `fcl_decompress` that live across iterations. -/
structure DState where
  ip : Nat
  op : Nat
  output : List Byte
deriving DecidableEq

/-- The loop `for (i = 0; i < match_len; ++i) dst[i] = src[i];`. -/
def match_copy_body (src : List Byte → Nat → Res Byte) (dst match_len : Nat)
    (s : Nat × List Byte) : Res (Step (Nat × List Byte)) :=
  if s.1 < match_len then do
    let buf ← copy_byte src dst s.2 s.1
    pure (.next (s.1 + 1, buf))
  else pure (.done s)

/-- The match copy of `fcl_decompress`: `dst = &output[op]`,
`src = &output[op - offset]`, then one of the two copy paths. -/
def fcl_decompress_copy (output : List Byte) (op offset match_len : Nat) :
    Res (List Byte) :=
  let dst := op
  let src : List Byte → Nat → Res Byte := fun buf k => rdInt buf ((op : Int) - offset + k)
  if offset ≥ match_len then
    FCL_COPY_BYTES src dst output match_len
  else do
    let s ← loopN (match_copy_body src dst match_len) (match_len + 1) (0, output)
    pure s.2

/-- One pass of `while (ip < input_size)` in `fcl_decompress`. -/
def fcl_decompress_body (input : List Byte) (output_capacity : Nat) (s : DState) :
    Res (Step DState) :=
  if s.ip < input.length then do
    let token ← rd input s.ip
    let ip := s.ip + 1
    let literal_len := token.val >>> 4
    let match_len := (token.val &&& 0x0F) + FCL_MIN_MATCH
    if ip + literal_len > input.length ∨ s.op + literal_len > output_capacity then
      .ret1 s.output
    else do
      let out1 ← FCL_COPY_BYTES (fun _ k => rd input (ip + k)) s.op s.output literal_len
      let ip := ip + literal_len
      let op := s.op + literal_len
      if ip ≥ input.length then pure (.done { ip := ip, op := op, output := out1 })
      else if ip + 2 > input.length then .ret1 out1
      else do
        let lo ← rd input ip
        let hi ← rd input (ip + 1)
        let offset := lo.val ||| (hi.val <<< 8)
        let ip := ip + 2
        if offset = 0 ∨ offset > op ∨ op + match_len > output_capacity then .ret1 out1
        else do
          let out2 ← fcl_decompress_copy out1 op offset match_len
          let op := op + match_len
          pure (.next { ip := ip, op := op, output := out2 })
  else pure (.done s)

/-- `fcl_decompress(input, input.length, output, &output_size, output.length)`. -/
def fcl_decompress (input output : List Byte) : Res (List Byte × Nat) := do
  let s ← loopN (fcl_decompress_body input output.length) (input.length + 1)
    { ip := 0, op := 0, output := output }
  pure (s.output, s.op)

/-! ## Auxiliary definitions used in the statements -/

/-- Outcome after `k` sequential assignments `(dst)[j] = (src)[j]`, `j < k`,
where `srcv` gives the source byte. -/
def copyN (srcv : List Byte → Nat → Byte) (dst : Nat) (buf : List Byte) : Nat → List Byte
  | 0 => buf
  | k + 1 => (copyN srcv dst buf k).set (dst + k) (srcv (copyN srcv dst buf k) k)

/-- The source of a copy can be read at every index below `count`, whatever
the destination buffer holds. -/
def SrcOk (src : List Byte → Nat → Res Byte) (srcv : List Byte → Nat → Byte)
    (len count : Nat) : Prop :=
  ∀ k, k < count → ∀ b : List Byte, b.length = len → src b k = .ok (srcv b k)

/-- The state after `k` passes of a loop that all went round again, from `s`. -/
def runN {σ : Type} (body : σ → Res (Step σ)) : Nat → σ → Option σ
  | 0, s => some s
  | k + 1, s =>
    match body s with
    | .ok (.next s') => runN body k s'
    | _ => none

/-- An outcome is in bounds and within fuel, yields a value satisfying `P` when
it is `ok`, and leaves a buffer satisfying `F` when it is `return 1`. -/
def Res.sat {α : Type} (r : Res α) (P : α → Prop) (F : List Byte → Prop) : Prop :=
  match r with
  | .ok a => P a
  | .ret1 o => F o
  | .oob => False
  | .nofuel => False

/-- Little-endian value of the four bytes of `p` from index `i`. -/
def u32 (p : List Byte) (i : Nat) : Nat :=
  (p.getD i 0).val ||| ((p.getD (i + 1) 0).val <<< 8) ||| ((p.getD (i + 2) 0).val <<< 16) |||
    ((p.getD (i + 3) 0).val <<< 24)

/-- Invariant of the scan loop of `fcl_compress`: the anchor does not pass the
cursor, the cursor does not pass the end of the input, and the output buffer
keeps its size. -/
def CInv (input : List Byte) (output_capacity : Nat) (s : CState) : Prop :=
  s.anchor ≤ s.ip ∧ s.ip ≤ input.length ∧ s.output.length = output_capacity

/-- Initial local variables of `fcl_compress`. -/
def cinit (output : List Byte) : CState :=
  { hash_table := fun _ => 0, ip := 0, anchor := 0, op := 0, output := output }

/-- Invariant of the loop of `fcl_decompress`: both positions stay inside their
buffers and the output buffer keeps its size. -/
def DInv (input : List Byte) (output_capacity : Nat) (s : DState) : Prop :=
  s.ip ≤ input.length ∧ s.op ≤ output_capacity ∧ s.output.length = output_capacity

/-- Initial local variables of `fcl_decompress`. -/
def dinit (output : List Byte) : DState := { ip := 0, op := 0, output := output }

/-- Literal length announced by the token at the decoder's input position. -/
def recLiteralLen (input : List Byte) (s : DState) : Nat := (input.getD s.ip 0).val >>> 4

/-- Match length announced by the token at the decoder's input position. -/
def recMatchLen (input : List Byte) (s : DState) : Nat :=
  ((input.getD s.ip 0).val &&& 0x0F) + 4

/-- Output buffer once the literals of the record at the decoder's input
position have been copied. -/
def recLiterals (input : List Byte) (s : DState) : List Byte :=
  copyN (fun _ k => input.getD (s.ip + 1 + k) 0) s.op s.output (recLiteralLen input s)

/-- The 2-byte little-endian distance field of the record at the decoder's
input position. -/
def recOffset (input : List Byte) (s : DState) : Nat :=
  (input.getD (s.ip + 1 + recLiteralLen input s) 0).val |||
    ((input.getD (s.ip + 1 + recLiteralLen input s + 1) 0).val <<< 8)

/-- Source byte `k` of a match copy at output position `op` with distance
`offset`, read from the buffer as it is now. -/
def selfSrc (op offset : Nat) : List Byte → Nat → Byte :=
  fun buf k => buf.getD (op - offset + k) 0

/-- The test of the scan loop that decides whether a match is taken at cursor
`ip`: the table candidate lies before the cursor, at a distance of at most
`FCL_MAX_DISTANCE`, and its four bytes equal the four bytes at the cursor. -/
def matchRoot (w : Nat) (input : List Byte) (table : Nat → Nat) (ip : Nat) : Prop :=
  table (fcl_hash w (u32 input ip)) < ip ∧
  ip - table (fcl_hash w (u32 input ip)) ≤ FCL_MAX_DISTANCE ∧
  u32 input (table (fcl_hash w (u32 input ip))) = u32 input ip

instance (w : Nat) (input : List Byte) (table : Nat → Nat) (ip : Nat) :
    Decidable (matchRoot w input table ip) := by
  unfold matchRoot
  infer_instance

/-- The match table once the cursors `0 .. k - 1` have been visited. -/
def scanTable (w : Nat) (input : List Byte) : Nat → Nat → Nat
  | 0 => fun _ => 0
  | k + 1 => fun h => if h = fcl_hash w (u32 input k) then k % 65536 else scanTable w input k h

/-- Local variables of `fcl_compress` at cursor `k` when no match was taken
before `k`. -/
def scanState (w : Nat) (input output : List Byte) (k : Nat) : CState :=
  { hash_table := scanTable w input k, ip := k, anchor := 0, op := 0, output := output }

/-- The encoder finds no match at any cursor below `m`. -/
def NoMatchBelow (w : Nat) (input : List Byte) (m : Nat) : Prop :=
  ∀ k, k < m → ¬ matchRoot w input (scanTable w input k) k

/-- The encoder finds no match on `input`: the match test fails at every cursor
the scan loop visits. -/
def NoMatch (w : Nat) (input : List Byte) : Prop :=
  ∀ k, k + 4 < input.length → ¬ matchRoot w input (scanTable w input k) k

/-- The token byte of a match record, as `fcl_compress` computes it from
`literal_len` and `match_len`. -/
def matchToken (literal_len match_len : Nat) : Byte :=
  toByte (((if literal_len < FCL_MAX_LITERAL then toByte literal_len
      else toByte FCL_MAX_LITERAL).val <<< 4) |||
    (if match_len - FCL_MIN_MATCH < FCL_MAX_LITERAL then toByte (match_len - FCL_MIN_MATCH)
      else toByte FCL_MAX_LITERAL).val)

/-- Local variables of `fcl_compress` after a match record for a match of
length `match_len` at root `ref` has been emitted from state `s`; `table` is
the updated match table. -/
def afterMatch (table : Nat → Nat) (ref match_len : Nat) (s : CState) : CState :=
  { hash_table := table, ip := s.ip + match_len, anchor := s.ip + match_len,
    op := s.op + 1 + (s.ip - s.anchor) + 2,
    output :=
      ((s.output.set s.op (matchToken (s.ip - s.anchor) match_len)).set
        (s.op + 1 + (s.ip - s.anchor)) (toByte (s.ip - ref))).set
        (s.op + 1 + (s.ip - s.anchor) + 1) (toByte ((s.ip - ref) >>> 8)) }

/-- Number of consecutive positions `k, k + 1, ...` with `c + k` inside the
input and `input[r + k] = input[c + k]`, counted over at most `fuel`
positions. -/
def agreeFrom (input : List Byte) (r c : Nat) : Nat → Nat → Nat
  | 0, _ => 0
  | fuel + 1, k =>
    if c + k < input.length ∧ input[r + k]? = input[c + k]? then
      1 + agreeFrom input r c fuel (k + 1)
    else 0

/-- The number `e` of consecutive positions `k ≥ 4` with `c + k < input_size`
and `input[r + k] = input[c + k]`. -/
def agreeCount (input : List Byte) (r c : Nat) : Nat := agreeFrom input r c input.length 4

/-- The table candidate `ref` read at the cursor of state `s`. -/
def candidate (w : Nat) (input : List Byte) (s : CState) : Nat :=
  s.hash_table (fcl_hash w (u32 input s.ip))

/-- The match table after the pass at the cursor of state `s`:
`hash_table[hash] = (unsigned short)ip`. -/
def tableAfter (w : Nat) (input : List Byte) (s : CState) : Nat → Nat :=
  fun h => if h = fcl_hash w (u32 input s.ip) then s.ip % 65536 else s.hash_table h

/-- The match length found at the cursor of state `s`. -/
def matchLen (w : Nat) (input : List Byte) (s : CState) : Nat :=
  min 19 (4 + agreeCount input (candidate w input s) s.ip)

/-- The state after a pass of the scan loop that takes no match. -/
def noMatchStep (w : Nat) (input : List Byte) (s : CState) : CState :=
  { s with hash_table := tableAfter w input s, ip := s.ip + 1 }

/-- The state after a pass of the scan loop that emits a match record. -/
def matchStep (w : Nat) (input : List Byte) (s : CState) : CState :=
  afterMatch (tableAfter w input s) (candidate w input s) (matchLen w input s) s

/-- Invariant of the scan loop of `fcl_compress` with the bound on the output
position: `CInv`, and the output position does not pass the anchor. -/
def CInvOp (input : List Byte) (output_capacity : Nat) (s : CState) : Prop :=
  CInv input output_capacity s ∧ s.op ≤ s.anchor

/-- Follows the scan loop of `fcl_compress` from state `s` and tells whether
every literal run of the encoding is at most 15 bytes long: `ip - anchor ≤ 15`
at every pass that takes a match and `input_size - anchor ≤ 15` when the loop
ends. A run that ends with `return 1` has no encoding. -/
def litRunsOk (w : Nat) (input : List Byte) (output_capacity : Nat) : Nat → CState → Bool
  | 0, _ => false
  | fuel + 1, s =>
    match fcl_compress_body w input output_capacity s with
    | .ok (.next s') =>
      (if matchRoot w input s.hash_table s.ip then decide (s.ip - s.anchor ≤ 15) else true) &&
        litRunsOk w input output_capacity fuel s'
    | .ok (.done s') => decide (input.length - s'.anchor ≤ 15)
    | _ => false

/-- No literal run of the encoding of `input` into `output` is longer than 15
bytes. -/
def LitRunsOk (w : Nat) (input output : List Byte) : Prop :=
  litRunsOk w input output.length (input.length + 1) (cinit output) = true

/-! ## The same functions with wrapping index arithmetic

The definitions above take the sums and differences of `unsigned long`
positions and sizes in the natural numbers. The definitions below follow the
same source lines and reduce every `unsigned long` sum and difference modulo
`2 ^ w`, as the C operators do; a pointer plus an index (`&output[op]`,
`(dst) + _i`, `(p)[1]`) is not reduced. -/

/-- The `unsigned long` sum `a + b`, with `unsigned long` of `w` bits. -/
def uadd (w a b : Nat) : Nat := (a + b) % 2 ^ w

/-- The `unsigned long` difference `a - b`, with `unsigned long` of `w` bits. -/
def usub (w a b : Nat) : Nat := (a + (2 ^ w - b % 2 ^ w)) % 2 ^ w

/-- First loop of `FCL_COPY_BYTES`, `while (_i + 4 <= count)`, with the
`unsigned long` index `_i` wrapping. -/
def Wrap.copy_bytes_body4 (w : Nat) (src : List Byte → Nat → Res Byte) (dst count : Nat)
    (s : Nat × List Byte) : Res (Step (Nat × List Byte)) :=
  if uadd w s.1 4 ≤ count then do
    let buf ← FCL_COPY4 src dst s.2 s.1
    pure (.next (uadd w s.1 4, buf))
  else pure (.done s)

/-- Second loop of `FCL_COPY_BYTES`, `while (_i < count)`, with the
`unsigned long` index `_i` wrapping. -/
def Wrap.copy_bytes_body1 (w : Nat) (src : List Byte → Nat → Res Byte) (dst count : Nat)
    (s : Nat × List Byte) : Res (Step (Nat × List Byte)) :=
  if s.1 < count then do
    let buf ← copy_byte src dst s.2 s.1
    pure (.next (uadd w s.1 1, buf))
  else pure (.done s)

/-- `FCL_COPY_BYTES(dst, src, count)` with wrapping index arithmetic. -/
def Wrap.FCL_COPY_BYTES (w : Nat) (src : List Byte → Nat → Res Byte) (dst : Nat)
    (buf : List Byte) (count : Nat) : Res (List Byte) := do
  let s1 ← loopN (Wrap.copy_bytes_body4 w src dst count) (count + 1) (0, buf)
  let s2 ← loopN (Wrap.copy_bytes_body1 w src dst count) (count + 1) s1
  pure s2.2

/-- One pass of the match-extension loop of `fcl_compress`, with wrapping index
arithmetic. -/
def Wrap.match_extend_body (w : Nat) (input : List Byte) (ip mtch : Nat) (match_len : Nat) :
    Res (Step Nat) :=
  if uadd w ip match_len < input.length then do
    let a ← rd input (uadd w mtch match_len)
    let b ← rd input (uadd w ip match_len)
    if a = b then
      if uadd w match_len 1 = FCL_MAX_MATCH then pure (.done (uadd w match_len 1))
      else pure (.next (uadd w match_len 1))
    else pure (.done match_len)
  else pure (.done match_len)

/-- The branch of the scan loop taken when a match root was found, with
wrapping index arithmetic. -/
def Wrap.fcl_compress_match (w : Nat) (input : List Byte) (output_capacity : Nat)
    (hash_table : Nat → Nat) (ref : Nat) (s : CState) : Res (Step CState) := do
  let literal_len := usub w s.ip s.anchor
  let mtch := ref
  let match_len ← loopN (Wrap.match_extend_body w input s.ip mtch)
    (FCL_MAX_MATCH - FCL_MIN_MATCH + 1) FCL_MIN_MATCH
  if uadd w (uadd w (uadd w s.op 1) literal_len) 2 > output_capacity then .ret1 s.output
  else do
    let lit : Byte :=
      if literal_len < FCL_MAX_LITERAL then toByte literal_len else toByte FCL_MAX_LITERAL
    let mat : Byte :=
      if usub w match_len FCL_MIN_MATCH < FCL_MAX_LITERAL then
        toByte (usub w match_len FCL_MIN_MATCH)
      else toByte FCL_MAX_LITERAL
    let token : Byte := toByte ((lit.val <<< 4) ||| mat.val)
    let out1 ← wr s.output s.op token
    let op := uadd w s.op 1
    let op := uadd w op literal_len
    let out2 ← FCL_WRITE_U16 out1 op (usub w s.ip mtch)
    let op := uadd w op 2
    pure (.next
      { hash_table := hash_table, ip := uadd w s.ip match_len,
        anchor := uadd w s.ip match_len, op := op, output := out2 })

/-- One pass of `while (ip + FCL_MIN_MATCH < input_size)` in `fcl_compress`,
with wrapping index arithmetic. -/
def Wrap.fcl_compress_body (w : Nat) (input : List Byte) (output_capacity : Nat)
    (s : CState) : Res (Step CState) :=
  if uadd w s.ip FCL_MIN_MATCH < input.length then do
    let seq ← FCL_READ_U32 input s.ip
    let hash := fcl_hash w seq
    let ref := s.hash_table hash
    let hash_table : Nat → Nat := fun h => if h = hash then s.ip % 65536 else s.hash_table h
    if ref < s.ip ∧ usub w s.ip ref ≤ FCL_MAX_DISTANCE then do
      let seq_ref ← FCL_READ_U32 input ref
      if seq_ref = seq then
        Wrap.fcl_compress_match w input output_capacity hash_table ref s
      else pure (.next { s with hash_table := hash_table, ip := uadd w s.ip 1 })
    else pure (.next { s with hash_table := hash_table, ip := uadd w s.ip 1 })
  else pure (.done s)

/-- The part of `fcl_compress` after the scan loop, with wrapping index
arithmetic. -/
def Wrap.fcl_compress_final (w : Nat) (input : List Byte) (output_capacity : Nat)
    (s : CState) : Res (List Byte × Nat) := do
  let literal_len := usub w input.length s.anchor
  if uadd w (uadd w s.op 1) literal_len > output_capacity then .ret1 s.output
  else do
    let out1 ← wr s.output s.op (toByte ((literal_len <<< 4) % 2 ^ w))
    let op := uadd w s.op 1
    let out2 ← Wrap.FCL_COPY_BYTES w (fun _ k => rd input (s.anchor + k)) op out1 literal_len
    let op := uadd w op literal_len
    pure (out2, op)

/-- `fcl_compress(input, input.length, output, &output_size, output.length)`
with `unsigned long` of `w` bits and wrapping index arithmetic. -/
def Wrap.fcl_compress (w : Nat) (input output : List Byte) : Res (List Byte × Nat) := do
  let s ← loopN (Wrap.fcl_compress_body w input output.length) (input.length + 1)
    { hash_table := fun _ => 0, ip := 0, anchor := 0, op := 0, output := output }
  Wrap.fcl_compress_final w input output.length s

/-- The loop `for (i = 0; i < match_len; ++i) dst[i] = src[i];` with the
`unsigned long` index `i` wrapping. -/
def Wrap.match_copy_body (w : Nat) (src : List Byte → Nat → Res Byte) (dst match_len : Nat)
    (s : Nat × List Byte) : Res (Step (Nat × List Byte)) :=
  if s.1 < match_len then do
    let buf ← copy_byte src dst s.2 s.1
    pure (.next (uadd w s.1 1, buf))
  else pure (.done s)

/-- The match copy of `fcl_decompress` with wrapping index arithmetic:
`dst = &output[op]`, `src = &output[op - offset]`, then one of the two copy
paths. -/
def Wrap.fcl_decompress_copy (w : Nat) (output : List Byte) (op offset match_len : Nat) :
    Res (List Byte) :=
  let dst := op
  let src : List Byte → Nat → Res Byte := fun buf k => rd buf (usub w op offset + k)
  if offset ≥ match_len then
    Wrap.FCL_COPY_BYTES w src dst output match_len
  else do
    let s ← loopN (Wrap.match_copy_body w src dst match_len) (match_len + 1) (0, output)
    pure s.2

/-- One pass of `while (ip < input_size)` in `fcl_decompress`, with wrapping
index arithmetic. -/
def Wrap.fcl_decompress_body (w : Nat) (input : List Byte) (output_capacity : Nat)
    (s : DState) : Res (Step DState) :=
  if s.ip < input.length then do
    let token ← rd input s.ip
    let ip := uadd w s.ip 1
    let literal_len := token.val >>> 4
    let match_len := (token.val &&& 0x0F) + FCL_MIN_MATCH
    if uadd w ip literal_len > input.length ∨ uadd w s.op literal_len > output_capacity then
      .ret1 s.output
    else do
      let out1 ← Wrap.FCL_COPY_BYTES w (fun _ k => rd input (ip + k)) s.op s.output literal_len
      let ip := uadd w ip literal_len
      let op := uadd w s.op literal_len
      if ip ≥ input.length then pure (.done { ip := ip, op := op, output := out1 })
      else if uadd w ip 2 > input.length then .ret1 out1
      else do
        let lo ← rd input ip
        let hi ← rd input (uadd w ip 1)
        let offset := lo.val ||| (hi.val <<< 8)
        let ip := uadd w ip 2
        if offset = 0 ∨ offset > op ∨ uadd w op match_len > output_capacity then .ret1 out1
        else do
          let out2 ← Wrap.fcl_decompress_copy w out1 op offset match_len
          let op := uadd w op match_len
          pure (.next { ip := ip, op := op, output := out2 })
  else pure (.done s)

/-- `fcl_decompress(input, input.length, output, &output_size, output.length)`
with `unsigned long` of `w` bits and wrapping index arithmetic. -/
def Wrap.fcl_decompress (w : Nat) (input output : List Byte) : Res (List Byte × Nat) := do
  let s ← loopN (Wrap.fcl_decompress_body w input output.length) (input.length + 1)
    { ip := 0, op := 0, output := output }
  pure (s.output, s.op)

/-- The bytes `i / 2 mod 256` at the even positions `i` and `i / 512 mod 256`
at the odd positions, `n` bytes in all: a 16-bit counter, low byte first. -/
def counterBytes (n : Nat) : List Byte :=
  (List.range n).map fun i => toByte (if i % 2 = 0 then i / 2 else i / 512)

/-- The record `1F 07 01 00` (one literal, then a match of length 19 at
distance 1) over and over, `n` bytes in all. -/
def recordBytes (n : Nat) : List Byte :=
  (List.range n).map fun i =>
    if i % 4 = 0 then (0x1F : Byte) else if i % 4 = 1 then 0x07 else if i % 4 = 2 then 0x01
    else 0x00

/-! ## Basic lemmas -/
@[simp] theorem Res.ok_bind {α β : Type} (a : α) (f : α → Res β) :
    (Res.ok a >>= f) = f a := rfl

@[simp] theorem Res.ret1_bind {α β : Type} (o : List Byte) (f : α → Res β) :
    ((Res.ret1 o : Res α) >>= f) = Res.ret1 o := rfl

@[simp] theorem Res.oob_bind {α β : Type} (f : α → Res β) :
    ((Res.oob : Res α) >>= f) = Res.oob := rfl

@[simp] theorem Res.nofuel_bind {α β : Type} (f : α → Res β) :
    ((Res.nofuel : Res α) >>= f) = Res.nofuel := rfl

@[simp] theorem Res.pure_eq {α : Type} (a : α) : (pure a : Res α) = Res.ok a := rfl

theorem rd_eq {buf : List Byte} {i : Nat} (h : i < buf.length) : rd buf i = .ok buf[i] := by
  simp [rd, List.getElem?_eq_getElem h]

theorem rd_of_getElem? {buf : List Byte} {i : Nat} {b : Byte} (h : buf[i]? = some b) :
    rd buf i = .ok b := by
  simp [rd, h]

theorem wr_eq {buf : List Byte} {i : Nat} (v : Byte) (h : i < buf.length) :
    wr buf i v = .ok (buf.set i v) := by
  simp [wr, h]

theorem rdInt_natCast (buf : List Byte) (k : Nat) : rdInt buf (k : Int) = rd buf k := by
  simp [rdInt]

theorem rdInt_sub {buf : List Byte} {op offset k : Nat} (h : offset ≤ op) :
    rdInt buf ((op : Int) - offset + k) = rd buf (op - offset + k) := by
  have : ((op : Int) - offset + k) = ((op - offset + k : Nat) : Int) := by omega
  rw [this, rdInt_natCast]

@[simp] theorem copyN_length (srcv : List Byte → Nat → Byte) (dst : Nat) (buf : List Byte)
    (k : Nat) : (copyN srcv dst buf k).length = buf.length := by
  induction k with
  | zero => rfl
  | succ k ih => simp [copyN, ih]

theorem copy_byte_eq {src : List Byte → Nat → Res Byte} {srcv : List Byte → Nat → Byte}
    {dst count : Nat} {buf : List Byte} (hs : SrcOk src srcv buf.length count)
    (hd : dst + count ≤ buf.length) (k : Nat) (hk : k < count) :
    copy_byte src dst (copyN srcv dst buf k) k = .ok (copyN srcv dst buf (k + 1)) := by
  unfold copy_byte
  rw [hs k hk _ (copyN_length _ _ _ _)]
  simp only [Res.ok_bind]
  rw [wr_eq _ (by simp; omega)]
  rfl

theorem FCL_COPY4_eq {src : List Byte → Nat → Res Byte} {srcv : List Byte → Nat → Byte}
    {dst count : Nat} {buf : List Byte} (hs : SrcOk src srcv buf.length count)
    (hd : dst + count ≤ buf.length) (i : Nat) (hi : i + 4 ≤ count) :
    FCL_COPY4 src dst (copyN srcv dst buf i) i = .ok (copyN srcv dst buf (i + 4)) := by
  unfold FCL_COPY4
  rw [Nat.add_zero, copy_byte_eq hs hd i (by omega)]
  simp only [Res.ok_bind]
  rw [copy_byte_eq hs hd (i + 1) (by omega)]
  simp only [Res.ok_bind]
  rw [copy_byte_eq hs hd (i + 2) (by omega)]
  simp only [Res.ok_bind]
  rw [copy_byte_eq hs hd (i + 3) (by omega)]

theorem loop_body4 {src : List Byte → Nat → Res Byte} {srcv : List Byte → Nat → Byte}
    {dst count : Nat} {buf : List Byte} (hs : SrcOk src srcv buf.length count)
    (hd : dst + count ≤ buf.length) :
    ∀ fuel i, count < fuel + i → i ≤ count →
      ∃ i', i' ≤ count ∧
        loopN (copy_bytes_body4 src dst count) fuel (i, copyN srcv dst buf i)
          = .ok (i', copyN srcv dst buf i') := by
  intro fuel
  induction fuel with
  | zero => intro i h1 h2; omega
  | succ f ih =>
    intro i h1 h2
    by_cases h : i + 4 ≤ count
    · obtain ⟨i', hi', e⟩ := ih (i + 4) (by omega) h
      refine ⟨i', hi', ?_⟩
      simp [loopN, copy_bytes_body4, h, FCL_COPY4_eq hs hd i h, e]
    · exact ⟨i, h2, by simp [loopN, copy_bytes_body4, h]⟩

theorem loop_body1 {src : List Byte → Nat → Res Byte} {srcv : List Byte → Nat → Byte}
    {dst count : Nat} {buf : List Byte} (hs : SrcOk src srcv buf.length count)
    (hd : dst + count ≤ buf.length) :
    ∀ fuel i, count < fuel + i → i ≤ count →
      loopN (copy_bytes_body1 src dst count) fuel (i, copyN srcv dst buf i)
        = .ok (count, copyN srcv dst buf count) := by
  intro fuel
  induction fuel with
  | zero => intro i h1 h2; omega
  | succ f ih =>
    intro i h1 h2
    by_cases h : i < count
    · simp [loopN, copy_bytes_body1, h, copy_byte_eq hs hd i h, ih (i + 1) (by omega) h]
    · have : i = count := by omega
      subst this
      simp [loopN, copy_bytes_body1]

theorem loop_match_copy {src : List Byte → Nat → Res Byte} {srcv : List Byte → Nat → Byte}
    {dst count : Nat} {buf : List Byte} (hs : SrcOk src srcv buf.length count)
    (hd : dst + count ≤ buf.length) :
    ∀ fuel i, count < fuel + i → i ≤ count →
      loopN (match_copy_body src dst count) fuel (i, copyN srcv dst buf i)
        = .ok (count, copyN srcv dst buf count) := by
  intro fuel
  induction fuel with
  | zero => intro i h1 h2; omega
  | succ f ih =>
    intro i h1 h2
    by_cases h : i < count
    · simp [loopN, match_copy_body, h, copy_byte_eq hs hd i h, ih (i + 1) (by omega) h]
    · have : i = count := by omega
      subst this
      simp [loopN, match_copy_body]

theorem FCL_COPY_BYTES_eq {src : List Byte → Nat → Res Byte} {srcv : List Byte → Nat → Byte}
    {dst count : Nat} {buf : List Byte} (hs : SrcOk src srcv buf.length count)
    (hd : dst + count ≤ buf.length) :
    FCL_COPY_BYTES src dst buf count = .ok (copyN srcv dst buf count) := by
  unfold FCL_COPY_BYTES
  obtain ⟨i', hi', e⟩ := loop_body4 hs hd (count + 1) 0 (by omega) (by omega)
  have e' : loopN (copy_bytes_body4 src dst count) (count + 1) (0, buf)
      = .ok (i', copyN srcv dst buf i') := e
  rw [e']
  simp only [Res.ok_bind]
  rw [loop_body1 hs hd (count + 1) i' (by omega) hi']
  rfl

theorem Res.sat_bind {α β : Type} {r : Res α} {f : α → Res β} {P : α → Prop}
    {Q : β → Prop} {F : List Byte → Prop} (h1 : r.sat P F)
    (h2 : ∀ a, P a → (f a).sat Q F) : (r >>= f).sat Q F := by
  cases r with
  | ok a => exact h2 a h1
  | ret1 o => exact h1
  | oob => exact h1
  | nofuel => exact h1

theorem Res.sat_mono {α : Type} {r : Res α} {P Q : α → Prop} {F G : List Byte → Prop}
    (h : r.sat P F) (hP : ∀ a, P a → Q a) (hF : ∀ o, F o → G o) : r.sat Q G := by
  cases r with
  | ok a => exact hP a h
  | ret1 o => exact hF o h
  | oob => exact h
  | nofuel => exact h

theorem Res.sat_of_eq_ok {α : Type} {r : Res α} {a : α} {P : α → Prop}
    {F : List Byte → Prop} (h : r.sat P F) (e : r = .ok a) : P a := by
  subst e; exact h

/-- Loop rule: an invariant kept by every pass that goes round again, a
measure that decreases on those passes, and enough fuel. -/
theorem loopN_sat {σ : Type} (body : σ → Res (Step σ)) (Inv Post : σ → Prop)
    (F : List Byte → Prop) (μ : σ → Nat)
    (hbody : ∀ s, Inv s → (body s).sat
      (fun st => match st with
        | .next s' => Inv s' ∧ μ s' < μ s
        | .done s' => Post s') F) :
    ∀ fuel s, Inv s → μ s < fuel → (loopN body fuel s).sat Post F := by
  intro fuel
  induction fuel with
  | zero => intro s _ h; omega
  | succ f ih =>
    intro s hI hμ
    have hb := hbody s hI
    unfold loopN
    cases hbs : body s with
    | ok st =>
      rw [hbs] at hb
      cases st with
      | next s' => exact ih s' hb.1 (by have := hb.2; omega)
      | done s' => exact hb
    | ret1 o => rw [hbs] at hb; exact hb
    | oob => rw [hbs] at hb; exact hb
    | nofuel => rw [hbs] at hb; exact hb

theorem loopN_runN {σ : Type} (body : σ → Res (Step σ)) :
    ∀ k s0 s, runN body k s0 = some s → ∀ f, loopN body (k + f) s0 = loopN body f s := by
  intro k
  induction k with
  | zero => intro s0 s h f; simp [runN] at h; subst h; simp
  | succ k ih =>
    intro s0 s h f
    have e : k + 1 + f = (k + f) + 1 := by omega
    rw [e]
    unfold runN at h
    cases hb : body s0 with
    | ok st =>
      rw [hb] at h
      cases st with
      | next s' =>
        have e' : loopN body (k + f + 1) s0 = loopN body (k + f) s' := by simp [loopN, hb]
        rw [e']
        exact ih s' s h f
      | done s' => simp at h
    | ret1 o => rw [hb] at h; simp at h
    | oob => rw [hb] at h; simp at h
    | nofuel => rw [hb] at h; simp at h

theorem runN_inv {σ : Type} (body : σ → Res (Step σ)) (Inv : σ → Prop)
    (F : List Byte → Prop) (μ : σ → Nat)
    (hbody : ∀ s, Inv s → (body s).sat
      (fun st => match st with
        | .next s' => Inv s' ∧ μ s < μ s'
        | .done _ => True) F) :
    ∀ k s0 s, Inv s0 → runN body k s0 = some s → Inv s ∧ μ s0 + k ≤ μ s := by
  intro k
  induction k with
  | zero => intro s0 s hI h; simp [runN] at h; subst h; exact ⟨hI, by omega⟩
  | succ k ih =>
    intro s0 s hI h
    have hb := hbody s0 hI
    unfold runN at h
    cases hbs : body s0 with
    | ok st =>
      rw [hbs] at h hb
      cases st with
      | next s' =>
        have := ih s' s hb.1 h
        exact ⟨this.1, by have := hb.2; omega⟩
      | done s' => simp at h
    | ret1 o => rw [hbs] at h; simp at h
    | oob => rw [hbs] at h; simp at h
    | nofuel => rw [hbs] at h; simp at h

theorem rd_eq_getD {buf : List Byte} {i : Nat} (h : i < buf.length) :
    rd buf i = .ok (buf.getD i 0) := by
  simp [rd, List.getD, List.getElem?_eq_getElem h]

theorem FCL_READ_U32_eq {p : List Byte} {i : Nat} (h : i + 3 < p.length) :
    FCL_READ_U32 p i = .ok (u32 p i) := by
  unfold FCL_READ_U32 u32
  rw [rd_eq_getD (by omega : i < p.length), rd_eq_getD (by omega : i + 1 < p.length),
    rd_eq_getD (by omega : i + 2 < p.length), rd_eq_getD h]
  rfl

/-- The match-extension loop: it ends with a length between 4 and 19 that stays
inside the input, over which root and cursor agree, and it is maximal below
19. -/
theorem match_extend_spec (input : List Byte) (ip mtch : Nat) (hm : mtch < ip)
    (hip : ip + 4 ≤ input.length) :
    (loopN (match_extend_body input ip mtch) (FCL_MAX_MATCH - FCL_MIN_MATCH + 1)
        FCL_MIN_MATCH).sat
      (fun ml => 4 ≤ ml ∧ ml ≤ 19 ∧ ip + ml ≤ input.length ∧
        (∀ k, 4 ≤ k → k < ml → input[mtch + k]? = input[ip + k]?) ∧
        (ml < 19 → ip + ml < input.length → input[mtch + ml]? ≠ input[ip + ml]?))
      (fun _ => False) := by
  apply loopN_sat (match_extend_body input ip mtch)
    (fun ml => 4 ≤ ml ∧ ml ≤ 18 ∧ ip + ml ≤ input.length ∧
        (∀ k, 4 ≤ k → k < ml → input[mtch + k]? = input[ip + k]?))
    _ _ (fun ml => 19 - ml)
  · intro ml ⟨h4, h18, hn, hk⟩
    unfold match_extend_body
    by_cases hc : ip + ml < input.length
    · have e1 : rd input (mtch + ml) = .ok input[mtch + ml] := rd_eq (by omega)
      have e2 : rd input (ip + ml) = .ok input[ip + ml] := rd_eq (by omega)
      have g1 : input[mtch + ml]? = some input[mtch + ml] := List.getElem?_eq_getElem (by omega)
      have g2 : input[ip + ml]? = some input[ip + ml] := List.getElem?_eq_getElem (by omega)
      simp only [hc, if_true, e1, e2, Res.ok_bind]
      by_cases heq : input[mtch + ml] = input[ip + ml]
      · have hk' : ∀ k, 4 ≤ k → k < ml + 1 → input[mtch + k]? = input[ip + k]? := by
          intro k h1 h2
          by_cases hkm : k = ml
          · subst hkm; rw [g1, g2, heq]
          · exact hk k h1 (by omega)
        by_cases h19 : ml + 1 = FCL_MAX_MATCH
        · simp only [heq, if_true, h19, Res.pure_eq, Res.sat]
          simp only [FCL_MAX_MATCH] at h19 ⊢
          refine ⟨by omega, by omega, by omega, ?_, by omega⟩
          intro k h1 h2
          exact hk' k h1 (by omega)
        · simp only [heq, if_true, h19, if_false, Res.pure_eq, Res.sat]
          simp only [FCL_MAX_MATCH] at h19
          exact ⟨⟨by omega, by omega, by omega, hk'⟩, by omega⟩
      · simp only [heq, if_false, Res.pure_eq, Res.sat]
        refine ⟨h4, by omega, hn, hk, ?_⟩
        intro _ _
        rw [g1, g2]
        simpa using heq
    · simp only [hc, if_false, Res.pure_eq, Res.sat]
      exact ⟨h4, by omega, hn, hk, fun _ h => h.elim⟩
  · simp only [FCL_MIN_MATCH]
    exact ⟨by omega, by omega, by omega, fun k h1 h2 => by omega⟩
  · simp only [FCL_MAX_MATCH, FCL_MIN_MATCH]; omega

theorem FCL_WRITE_U16_eq {p : List Byte} {i : Nat} (v : Nat) (h : i + 1 < p.length) :
    FCL_WRITE_U16 p i v = .ok ((p.set i (toByte v)).set (i + 1) (toByte (v >>> 8))) := by
  unfold FCL_WRITE_U16
  rw [wr_eq _ (by omega)]
  simp only [Res.ok_bind]
  rw [wr_eq _ (by simp; omega)]

theorem fcl_compress_match_sat (input : List Byte) (cap : Nat) (ht : Nat → Nat) (ref : Nat)
    (s : CState) (hI : CInv input cap s) (h4 : s.ip + 4 < input.length) (hr : ref < s.ip) :
    (fcl_compress_match input cap ht ref s).sat
      (fun st => match st with
        | .next s' => CInv input cap s' ∧ s.ip < s'.ip
        | .done _ => False)
      (fun o => o = s.output ∧ s.op + 1 + (s.ip - s.anchor) + 2 > cap) := by
  obtain ⟨ha, hn, hl⟩ := hI
  unfold fcl_compress_match
  simp only []
  refine Res.sat_bind
    (Res.sat_mono (match_extend_spec input s.ip ref hr (by omega)) (fun a h => h)
      (fun o h => h.elim)) ?_
  intro ml ⟨m4, m19, mn, _, _⟩
  by_cases hc : s.op + 1 + (s.ip - s.anchor) + 2 > cap
  · simp only [hc, if_true, Res.sat]
    exact ⟨trivial, trivial⟩
  · simp only [hc, if_false]
    rw [wr_eq _ (by omega)]
    simp only [Res.ok_bind]
    rw [FCL_WRITE_U16_eq _ (by simp; omega)]
    simp only [Res.ok_bind, Res.pure_eq, Res.sat, CInv, List.length_set]
    exact ⟨⟨by omega, by omega, hl⟩, by omega⟩

theorem fcl_compress_body_sat (w : Nat) (input : List Byte) (cap : Nat) (s : CState)
    (hI : CInv input cap s) :
    (fcl_compress_body w input cap s).sat
      (fun st => match st with
        | .next s' => CInv input cap s' ∧ s.ip < s'.ip
        | .done s' => s' = s ∧ ¬ s.ip + 4 < input.length)
      (fun o => o = s.output) := by
  have hI' := hI
  obtain ⟨ha, hn, hl⟩ := hI
  unfold fcl_compress_body
  by_cases h4 : s.ip + FCL_MIN_MATCH < input.length
  · simp only [h4, if_true]
    simp only [FCL_MIN_MATCH] at h4
    rw [FCL_READ_U32_eq (by omega)]
    simp only [Res.ok_bind]
    split
    · rename_i hc
      rw [FCL_READ_U32_eq (by omega)]
      simp only [Res.ok_bind]
      split
      · exact Res.sat_mono (fcl_compress_match_sat input cap _ _ s hI' h4 hc.1)
          (fun a h => by
            cases a with
            | next s' => exact h
            | done s' => exact h.elim)
          (fun o h => h.1)
      · simp only [Res.pure_eq, Res.sat, CInv]
        exact ⟨⟨by omega, by omega, hl⟩, by omega⟩
    · simp only [Res.pure_eq, Res.sat, CInv]
      exact ⟨⟨by omega, by omega, hl⟩, by omega⟩
  · simp only [h4, if_false, Res.pure_eq, Res.sat]
    simp only [FCL_MIN_MATCH] at h4
    exact ⟨trivial, h4⟩

theorem srcOk_input (input : List Byte) (a len count : Nat) (h : a + count ≤ input.length) :
    SrcOk (fun _ k => rd input (a + k)) (fun _ k => input.getD (a + k) 0) len count := by
  intro k hk b _
  exact rd_eq_getD (by omega)

theorem fcl_compress_final_eq (input : List Byte) (cap : Nat) (s : CState)
    (ha : s.anchor ≤ input.length) (hl : s.output.length = cap)
    (hc : s.op + 1 + (input.length - s.anchor) ≤ cap) :
    fcl_compress_final input cap s =
      .ok (copyN (fun _ k => input.getD (s.anchor + k) 0) (s.op + 1)
          (s.output.set s.op (toByte ((input.length - s.anchor) <<< 4)))
          (input.length - s.anchor),
        s.op + 1 + (input.length - s.anchor)) := by
  unfold fcl_compress_final
  have hc' : ¬ s.op + 1 + (input.length - s.anchor) > cap := by omega
  simp only [hc', if_false]
  rw [wr_eq _ (by omega)]
  simp only [Res.ok_bind]
  rw [FCL_COPY_BYTES_eq (srcOk_input input s.anchor _ _ (by omega)) (by simp; omega)]
  rfl

theorem fcl_compress_final_sat (input : List Byte) (cap : Nat) (s : CState)
    (hI : CInv input cap s) :
    (fcl_compress_final input cap s).sat
      (fun r => r.1.length = cap ∧ r.2 ≤ cap)
      (fun o => o = s.output) := by
  obtain ⟨ha, hn, hl⟩ := hI
  by_cases hc : s.op + 1 + (input.length - s.anchor) ≤ cap
  · rw [fcl_compress_final_eq input cap s (by omega) hl hc]
    simp only [Res.sat, copyN_length, List.length_set]
    exact ⟨hl, hc⟩
  · unfold fcl_compress_final
    have hc' : s.op + 1 + (input.length - s.anchor) > cap := by omega
    simp only [hc', if_true, Res.sat]

theorem cinit_inv (input output : List Byte) : CInv input output.length (cinit output) := by
  simp [CInv, cinit]

theorem fcl_compress_loop_sat (w : Nat) (input output : List Byte) :
    (loopN (fcl_compress_body w input output.length) (input.length + 1) (cinit output)).sat
      (fun s => CInv input output.length s) (fun o => o.length = output.length) := by
  apply loopN_sat (fcl_compress_body w input output.length) (CInv input output.length)
    _ _ (fun s => input.length - s.ip)
  · intro s hI
    refine Res.sat_mono (fcl_compress_body_sat w input output.length s hI) ?_ ?_
    · intro st h
      cases st with
      | next s' => exact ⟨h.1, by have := h.2; have := h.1.2.1; omega⟩
      | done s' => simp only at h ⊢; rw [h.1]; exact hI
    · intro o h; rw [h]; exact hI.2.2
  · exact cinit_inv input output
  · simp [cinit]

theorem fcl_compress_unfold (w : Nat) (input output : List Byte) :
    fcl_compress w input output =
      (loopN (fcl_compress_body w input output.length) (input.length + 1) (cinit output)
        >>= fcl_compress_final input output.length) := rfl

theorem fcl_compress_sat (w : Nat) (input output : List Byte) :
    (fcl_compress w input output).sat
      (fun r => r.1.length = output.length ∧ r.2 ≤ output.length)
      (fun o => o.length = output.length) := by
  rw [fcl_compress_unfold]
  refine Res.sat_bind (fcl_compress_loop_sat w input output) ?_
  intro s hI
  exact Res.sat_mono (fcl_compress_final_sat input output.length s hI) (fun a h => h)
    (fun o h => by rw [h]; exact hI.2.2)

theorem fcl_compress_runN (w : Nat) (input output : List Byte) (k : Nat) (s : CState)
    (h : runN (fcl_compress_body w input output.length) k (cinit output) = some s) :
    CInv input output.length s ∧ k ≤ s.ip := by
  have := runN_inv (fcl_compress_body w input output.length) (CInv input output.length)
    (fun _ => True) (fun s => s.ip)
    (fun s hI => Res.sat_mono (fcl_compress_body_sat w input output.length s hI)
      (fun st h => by
        cases st with
        | next s' => exact h
        | done s' => trivial)
      (fun _ _ => trivial))
    k (cinit output) s (cinit_inv input output) h
  exact ⟨this.1, by have := this.2; simp [cinit] at this; omega⟩

theorem Res.exists_of_sat {α : Type} {r : Res α} {P : α → Prop}
    (h : r.sat P (fun _ => False)) : ∃ a, r = .ok a ∧ P a := by
  cases r with
  | ok a => exact ⟨a, rfl, h⟩
  | ret1 o => exact h.elim
  | oob => exact h.elim
  | nofuel => exact h.elim

theorem loopN_ret1 {σ : Type} (body : σ → Res (Step σ)) (k fuel : Nat) (s0 s : σ)
    (o : List Byte) (hrun : runN body k s0 = some s) (hk : k < fuel)
    (hb : body s = .ret1 o) : loopN body fuel s0 = .ret1 o := by
  obtain ⟨f, rfl⟩ : ∃ f, fuel = k + (f + 1) := ⟨fuel - k - 1, by omega⟩
  rw [loopN_runN body k s0 s hrun]
  simp [loopN, hb]

theorem fcl_compress_match_ret1 (input : List Byte) (cap : Nat) (ht : Nat → Nat) (ref : Nat)
    (s : CState) (h4 : s.ip + 4 < input.length) (hr : ref < s.ip)
    (hc : s.op + 1 + (s.ip - s.anchor) + 2 > cap) :
    fcl_compress_match input cap ht ref s = .ret1 s.output := by
  obtain ⟨ml, e, _⟩ := Res.exists_of_sat (match_extend_spec input s.ip ref hr (by omega))
  unfold fcl_compress_match
  simp only [e, Res.ok_bind, hc, if_true]

theorem fcl_compress_body_match (w : Nat) (input : List Byte) (cap : Nat) (s : CState)
    (h4 : s.ip + 4 < input.length)
    (hr : s.hash_table (fcl_hash w (u32 input s.ip)) < s.ip)
    (hd : s.ip - s.hash_table (fcl_hash w (u32 input s.ip)) ≤ 65535)
    (heq : u32 input (s.hash_table (fcl_hash w (u32 input s.ip))) = u32 input s.ip) :
    fcl_compress_body w input cap s =
      fcl_compress_match input cap
        (fun h => if h = fcl_hash w (u32 input s.ip) then s.ip % 65536 else s.hash_table h)
        (s.hash_table (fcl_hash w (u32 input s.ip))) s := by
  unfold fcl_compress_body
  have h4' : s.ip + FCL_MIN_MATCH < input.length := h4
  simp only [h4', if_true]
  rw [FCL_READ_U32_eq (by omega)]
  simp only [Res.ok_bind]
  have hc : s.hash_table (fcl_hash w (u32 input s.ip)) < s.ip ∧
      s.ip - s.hash_table (fcl_hash w (u32 input s.ip)) ≤ FCL_MAX_DISTANCE := ⟨hr, hd⟩
  simp only [hc, and_self, if_true]
  rw [FCL_READ_U32_eq (by omega)]
  simp only [Res.ok_bind, heq, if_true]

/-- Over the natural numbers `fcl_compress` stays inside both buffers and
within its fuel; a success reports a size of at most the capacity; a match
record that does not fit, and a final record that does not fit, make the call
return 1 with the output buffer as it was before that record. -/
theorem fcl_compress_guards (w : Nat) (input output : List Byte) :
    (match fcl_compress w input output with
      | .ok r => r.1.length = output.length ∧ r.2 ≤ output.length
      | .ret1 o => o.length = output.length
      | .oob => False
      | .nofuel => False) ∧
    (∀ (k : Nat) (s : CState),
      runN (fcl_compress_body w input output.length) k (cinit output) = some s →
      s.ip + 4 < input.length →
      s.hash_table (fcl_hash w (u32 input s.ip)) < s.ip →
      s.ip - s.hash_table (fcl_hash w (u32 input s.ip)) ≤ 65535 →
      u32 input (s.hash_table (fcl_hash w (u32 input s.ip))) = u32 input s.ip →
      s.op + 1 + (s.ip - s.anchor) + 2 > output.length →
      fcl_compress w input output = .ret1 s.output) ∧
    (∀ s : CState,
      loopN (fcl_compress_body w input output.length) (input.length + 1) (cinit output)
        = .ok s →
      s.op + 1 + (input.length - s.anchor) > output.length →
      fcl_compress w input output = .ret1 s.output) := by
  refine ⟨?_, ?_, ?_⟩
  · have h := fcl_compress_sat w input output
    cases hr : fcl_compress w input output with
    | ok r => rw [hr] at h; exact h
    | ret1 o => rw [hr] at h; exact h
    | oob => rw [hr] at h; exact h
    | nofuel => rw [hr] at h; exact h
  · intro k s hrun h4 hr hd heq hc
    have hk := (fcl_compress_runN w input output k s hrun).2
    have hb : fcl_compress_body w input output.length s = .ret1 s.output := by
      rw [fcl_compress_body_match w input output.length s h4 hr hd heq]
      exact fcl_compress_match_ret1 input output.length _ _ s h4 hr hc
    rw [fcl_compress_unfold,
      loopN_ret1 _ k (input.length + 1) (cinit output) s s.output hrun (by omega) hb]
    rfl
  · intro s hl hc
    rw [fcl_compress_unfold, hl]
    simp only [Res.ok_bind]
    unfold fcl_compress_final
    simp only [hc, if_true]

theorem srcOk_self (op offset len count : Nat) (h0 : 0 < offset) (h1 : offset ≤ op)
    (h2 : op + count ≤ len) :
    SrcOk (fun buf k => rdInt buf ((op : Int) - offset + k)) (selfSrc op offset) len count := by
  intro k hk b hb
  simp only []
  rw [rdInt_sub h1]
  exact rd_eq_getD (by omega)

theorem fcl_decompress_copy_eq (output : List Byte) (op offset match_len : Nat)
    (h0 : 0 < offset) (h1 : offset ≤ op) (h2 : op + match_len ≤ output.length) :
    fcl_decompress_copy output op offset match_len =
      .ok (copyN (selfSrc op offset) op output match_len) := by
  have hs := srcOk_self op offset output.length match_len h0 h1 h2
  unfold fcl_decompress_copy
  simp only []
  split
  · exact FCL_COPY_BYTES_eq hs h2
  · have := loop_match_copy hs h2 (match_len + 1) 0 (by omega) (by omega)
    simp only [copyN] at this
    rw [this]
    rfl

/-- One pass of the decoder loop, as a case distinction on the record at the
input position. -/
theorem fcl_decompress_body_eq (input : List Byte) (cap : Nat) (s : DState)
    (hip : s.ip < input.length) (hl : s.output.length = cap) :
    fcl_decompress_body input cap s =
      if s.ip + 1 + recLiteralLen input s > input.length ∨
          s.op + recLiteralLen input s > cap then .ret1 s.output
      else if s.ip + 1 + recLiteralLen input s ≥ input.length then
        .ok (.done { ip := s.ip + 1 + recLiteralLen input s,
                     op := s.op + recLiteralLen input s, output := recLiterals input s })
      else if s.ip + 1 + recLiteralLen input s + 2 > input.length then
        .ret1 (recLiterals input s)
      else if recOffset input s = 0 ∨ recOffset input s > s.op + recLiteralLen input s ∨
          s.op + recLiteralLen input s + recMatchLen input s > cap then
        .ret1 (recLiterals input s)
      else
        .ok (.next { ip := s.ip + 1 + recLiteralLen input s + 2,
                     op := s.op + recLiteralLen input s + recMatchLen input s,
                     output := copyN (selfSrc (s.op + recLiteralLen input s) (recOffset input s))
                       (s.op + recLiteralLen input s) (recLiterals input s)
                       (recMatchLen input s) }) := by
  unfold fcl_decompress_body
  simp only [hip, if_true]
  rw [rd_eq_getD hip]
  simp only [Res.ok_bind, recLiteralLen, recMatchLen, recOffset, recLiterals, FCL_MIN_MATCH]
  generalize (input.getD s.ip 0).val >>> 4 = L
  generalize ((input.getD s.ip 0).val &&& 15) + 4 = M
  by_cases g1 : s.ip + 1 + L > input.length ∨ s.op + L > cap
  · simp only [g1, if_true]
  · simp only [g1, if_false]
    have g1' : s.ip + 1 + L ≤ input.length ∧ s.op + L ≤ cap := by omega
    rw [FCL_COPY_BYTES_eq (srcOk_input input (s.ip + 1) _ _ g1'.1) (by omega)]
    simp only [Res.ok_bind]
    by_cases g2 : s.ip + 1 + L ≥ input.length
    · simp only [g2, if_true]; rfl
    · simp only [g2, if_false]
      by_cases g3 : s.ip + 1 + L + 2 > input.length
      · simp only [g3, if_true]
      · simp only [g3, if_false]
        rw [rd_eq_getD (by omega), rd_eq_getD (by omega)]
        simp only [Res.ok_bind]
        generalize (input.getD (s.ip + 1 + L) 0).val |||
          ((input.getD (s.ip + 1 + L + 1) 0).val <<< 8) = D
        by_cases g4 : D = 0 ∨ D > s.op + L ∨ s.op + L + M > cap
        · simp only [g4, if_true]
        · simp only [g4, if_false]
          rw [fcl_decompress_copy_eq _ (s.op + L) D M (by omega) (by omega)
            (by simp; omega)]
          rfl

theorem recMatchLen_ge (input : List Byte) (s : DState) : 4 ≤ recMatchLen input s := by
  unfold recMatchLen; omega

theorem recLiterals_length (input : List Byte) (s : DState) :
    (recLiterals input s).length = s.output.length := by
  simp [recLiterals]

theorem fcl_decompress_body_sat (input : List Byte) (cap : Nat) (s : DState)
    (hI : DInv input cap s) :
    (fcl_decompress_body input cap s).sat
      (fun st => match st with
        | .next s' => DInv input cap s' ∧ s.ip < s'.ip
        | .done s' => DInv input cap s')
      (fun o => o.length = cap) := by
  obtain ⟨hn, ho, hl⟩ := hI
  by_cases hip : s.ip < input.length
  · rw [fcl_decompress_body_eq input cap s hip hl]
    have hM := recMatchLen_ge input s
    have hL := recLiterals_length input s
    split
    · exact hl
    · split
      · simp only [Res.sat, DInv]
        exact ⟨by omega, by omega, by omega⟩
      · split
        · simp only [Res.sat]; omega
        · split
          · simp only [Res.sat]; omega
          · simp only [Res.sat, DInv, copyN_length]
            exact ⟨⟨by omega, by omega, by omega⟩, by omega⟩
  · unfold fcl_decompress_body
    simp only [hip, if_false, Res.pure_eq, Res.sat]
    exact ⟨hn, ho, hl⟩

theorem dinit_inv (input output : List Byte) : DInv input output.length (dinit output) := by
  simp [DInv, dinit]

theorem fcl_decompress_unfold (input output : List Byte) :
    fcl_decompress input output =
      (loopN (fcl_decompress_body input output.length) (input.length + 1) (dinit output)
        >>= fun s => pure (s.output, s.op)) := rfl

theorem fcl_decompress_loop_sat (input output : List Byte) :
    (loopN (fcl_decompress_body input output.length) (input.length + 1) (dinit output)).sat
      (fun s => DInv input output.length s) (fun o => o.length = output.length) := by
  apply loopN_sat (fcl_decompress_body input output.length) (DInv input output.length)
    _ _ (fun s => input.length - s.ip)
  · intro s hI
    refine Res.sat_mono (fcl_decompress_body_sat input output.length s hI) ?_ (fun o h => h)
    intro st h
    cases st with
    | next s' => exact ⟨h.1, by have := h.2; have := h.1.1; omega⟩
    | done s' => exact h
  · exact dinit_inv input output
  · simp [dinit]

theorem fcl_decompress_sat (input output : List Byte) :
    (fcl_decompress input output).sat
      (fun r => r.1.length = output.length ∧ r.2 ≤ output.length)
      (fun o => o.length = output.length) := by
  rw [fcl_decompress_unfold]
  refine Res.sat_bind (fcl_decompress_loop_sat input output) ?_
  intro s hI
  exact ⟨hI.2.2, hI.2.1⟩

theorem fcl_decompress_runN (input output : List Byte) (k : Nat) (s : DState)
    (h : runN (fcl_decompress_body input output.length) k (dinit output) = some s) :
    DInv input output.length s ∧ k ≤ s.ip := by
  have := runN_inv (fcl_decompress_body input output.length) (DInv input output.length)
    (fun _ => True) (fun s => s.ip)
    (fun s hI => Res.sat_mono (fcl_decompress_body_sat input output.length s hI)
      (fun st h => by
        cases st with
        | next s' => exact h
        | done s' => trivial)
      (fun _ _ => trivial))
    k (dinit output) s (dinit_inv input output) h
  exact ⟨this.1, by have := this.2; simp [dinit] at this; omega⟩

/-- A `return 1` in a pass of the decoder loop that the run reaches is the
outcome of the call. -/
theorem fcl_decompress_ret1_at (input output : List Byte) (k : Nat) (s : DState)
    (o : List Byte)
    (hrun : runN (fcl_decompress_body input output.length) k (dinit output) = some s)
    (hb : fcl_decompress_body input output.length s = .ret1 o) :
    fcl_decompress input output = .ret1 o := by
  have h := fcl_decompress_runN input output k s hrun
  have := h.1.1
  rw [fcl_decompress_unfold,
    loopN_ret1 _ k (input.length + 1) (dinit output) s o hrun (by omega) hb]
  rfl

/-- Over the natural numbers `fcl_decompress` stays inside both buffers and
within its fuel, a success reports a size of at most the capacity, and a record
whose literals do not fit the input or the output, whose distance field is cut,
whose distance reaches below the start of the output or whose match does not
fit the output makes the call return 1 with the buffer as it is before the
offending copy. -/
theorem fcl_decompress_guards (input output : List Byte) :
    (match fcl_decompress input output with
      | .ok r => r.1.length = output.length ∧ r.2 ≤ output.length
      | .ret1 o => o.length = output.length
      | .oob => False
      | .nofuel => False) ∧
    (∀ (k : Nat) (s : DState),
      runN (fcl_decompress_body input output.length) k (dinit output) = some s →
      s.ip < input.length →
      (s.ip + 1 + recLiteralLen input s > input.length ∨
          s.op + recLiteralLen input s > output.length →
        fcl_decompress input output = .ret1 s.output) ∧
      (s.ip + 1 + recLiteralLen input s < input.length →
        s.op + recLiteralLen input s ≤ output.length →
        (s.ip + 1 + recLiteralLen input s + 2 > input.length ∨
          recOffset input s > s.op + recLiteralLen input s ∨
          s.op + recLiteralLen input s + recMatchLen input s > output.length) →
        fcl_decompress input output = .ret1 (recLiterals input s))) := by
  refine ⟨?_, ?_⟩
  · have h := fcl_decompress_sat input output
    cases hr : fcl_decompress input output with
    | ok r => rw [hr] at h; exact h
    | ret1 o => rw [hr] at h; exact h
    | oob => rw [hr] at h; exact h
    | nofuel => rw [hr] at h; exact h
  · intro k s hrun hip
    have hI := (fcl_decompress_runN input output k s hrun).1
    have hb := fcl_decompress_body_eq input output.length s hip hI.2.2
    refine ⟨?_, ?_⟩
    · intro g1
      apply fcl_decompress_ret1_at input output k s _ hrun
      rw [hb]
      simp only [g1, if_true]
    · intro h1 h2 g
      apply fcl_decompress_ret1_at input output k s _ hrun
      rw [hb]
      have g1 : ¬ (s.ip + 1 + recLiteralLen input s > input.length ∨
          s.op + recLiteralLen input s > output.length) := by omega
      have g2 : ¬ (s.ip + 1 + recLiteralLen input s ≥ input.length) := by omega
      simp only [g1, g2, if_false]
      by_cases g3 : s.ip + 1 + recLiteralLen input s + 2 > input.length
      · simp only [g3, if_true]
      · have g4 : recOffset input s = 0 ∨
            recOffset input s > s.op + recLiteralLen input s ∨
            s.op + recLiteralLen input s + recMatchLen input s > output.length := by
          rcases g with g | g | g
          · exact absurd g g3
          · exact Or.inr (Or.inl g)
          · exact Or.inr (Or.inr g)
        simp only [g3, if_false, g4, if_true]

theorem getElem?_eq_getD {l : List Byte} {i : Nat} (h : i < l.length) :
    l[i]? = some (l.getD i 0) := by
  simp [List.getD, List.getElem?_eq_getElem h]

theorem copyN_succ_getElem? (srcv : List Byte → Nat → Byte) (dst : Nat) (buf : List Byte)
    (k j : Nat) (h : dst + k < buf.length) :
    (copyN srcv dst buf (k + 1))[j]? =
      if j = dst + k then some (srcv (copyN srcv dst buf k) k)
      else (copyN srcv dst buf k)[j]? := by
  simp only [copyN, List.getElem?_set, copyN_length]
  by_cases e : j = dst + k
  · subst e
    simp [h]
  · have e' : ¬ dst + k = j := fun h' => e h'.symm
    simp [e, e']

theorem copyN_getElem?_outside (srcv : List Byte → Nat → Byte) (dst : Nat) (buf : List Byte)
    (k j : Nat) (hk : dst + k ≤ buf.length) (hj : j < dst ∨ dst + k ≤ j) :
    (copyN srcv dst buf k)[j]? = buf[j]? := by
  induction k with
  | zero => rfl
  | succ k ih =>
    rw [copyN_succ_getElem? srcv dst buf k j (by omega)]
    have : ¬ j = dst + k := by omega
    simp only [this, if_false]
    exact ih (by omega) (by omega)

theorem copyN_input_getElem? (input : List Byte) (a dst : Nat) (buf : List Byte)
    (k j : Nat) (hk : dst + k ≤ buf.length) (ha : a + k ≤ input.length)
    (hj : dst ≤ j ∧ j < dst + k) :
    (copyN (fun _ i => input.getD (a + i) 0) dst buf k)[j]? = input[a + (j - dst)]? := by
  induction k with
  | zero => omega
  | succ k ih =>
    rw [copyN_succ_getElem? _ dst buf k j (by omega)]
    by_cases e : j = dst + k
    · simp only [e, if_true]
      rw [getElem?_eq_getD (by omega)]
      congr 2
      omega
    · simp only [e, if_false]
      exact ih (by omega) (by omega) (by omega)

theorem copyN_self_back (op d : Nat) (buf : List Byte) (h0 : 0 < d) (h1 : d ≤ op) :
    ∀ k, op + k ≤ buf.length → ∀ i, i < k →
      (copyN (selfSrc op d) op buf k)[op + i]? =
        (copyN (selfSrc op d) op buf k)[op - d + i]? := by
  intro k
  induction k with
  | zero => intro _ i hi; omega
  | succ k ih =>
    intro hk i hi
    rw [copyN_succ_getElem? _ op buf k (op + i) (by omega),
      copyN_succ_getElem? _ op buf k (op - d + i) (by omega)]
    have e2 : ¬ op - d + i = op + k := by omega
    simp only [e2, if_false]
    by_cases e : i = k
    · subst e
      simp only [if_true, selfSrc]
      exact (getElem?_eq_getD (by simp; omega)).symm
    · have e1 : ¬ op + i = op + k := by omega
      simp only [e1, if_false]
      exact ih (by omega) i (by omega)

theorem copyN_self_periodic (op d : Nat) (buf : List Byte) (h0 : 0 < d) (h1 : d ≤ op)
    (k : Nat) (hk : op + k ≤ buf.length) :
    ∀ i, i < k → (copyN (selfSrc op d) op buf k)[op + i]? = buf[op - d + i % d]? := by
  intro i
  induction i using Nat.strong_induction_on with
  | _ i ih =>
    intro hi
    rw [copyN_self_back op d buf h0 h1 k hk i hi]
    by_cases hlt : i < d
    · rw [Nat.mod_eq_of_lt hlt]
      exact copyN_getElem?_outside _ op buf k _ hk (Or.inl (by omega))
    · have e : op - d + i = op + (i - d) := by omega
      rw [e, ih (i - d) (by omega) (by omega)]
      have : i % d = (i - d) % d := by
        conv_lhs => rw [show i = (i - d) + d by omega]
        exact Nat.add_mod_right _ _
      rw [this]

/-- C1 (the code breaks it): six equal bytes compress, into a zeroed buffer, to
a match record whose literal byte was never stored; the decoder accepts the
stream and returns six zero bytes instead of the input. No literal run is
longer than one byte. -/
theorem fcl_roundtrip_literal_lost :
    fcl_compress 64 (List.replicate 6 7) (List.replicate 5 0) = .ok ([0x11, 0, 1, 0, 0x00], 5) ∧
    fcl_compress 32 (List.replicate 6 7) (List.replicate 5 0) = .ok ([0x11, 0, 1, 0, 0x00], 5) ∧
    fcl_decompress [0x11, 0, 1, 0, 0x00] (List.replicate 6 0) = .ok (List.replicate 6 0, 6) ∧
    List.replicate 6 (0 : Byte) ≠ List.replicate 6 7 := by
  refine ⟨by decide, by decide, by decide, by decide⟩

/-- C4: when the run of `fcl_decompress` reaches a record whose literals fit and
whose complete 2-byte distance field is 0 or exceeds the output position after
the literals, the call returns 1; the buffer it leaves is the one after the
literal copy (no match copy) and has the size of the output buffer. -/
theorem fcl_decompress_rejects_distance (input output : List Byte) (k : Nat) (s : DState)
    (hrun : runN (fcl_decompress_body input output.length) k (dinit output) = some s)
    (hfield : s.ip + 1 + recLiteralLen input s + 2 ≤ input.length)
    (hlit : s.op + recLiteralLen input s ≤ output.length)
    (hbad : recOffset input s = 0 ∨ recOffset input s > s.op + recLiteralLen input s) :
    fcl_decompress input output = .ret1 (recLiterals input s) ∧
    (recLiterals input s).length = output.length := by
  have hI := (fcl_decompress_runN input output k s hrun).1
  refine ⟨?_, by rw [recLiterals_length]; exact hI.2.2⟩
  apply fcl_decompress_ret1_at input output k s _ hrun
  rw [fcl_decompress_body_eq input output.length s (by omega) hI.2.2]
  have g1 : ¬ (s.ip + 1 + recLiteralLen input s > input.length ∨
      s.op + recLiteralLen input s > output.length) := by omega
  have g2 : ¬ (s.ip + 1 + recLiteralLen input s ≥ input.length) := by omega
  have g3 : ¬ (s.ip + 1 + recLiteralLen input s + 2 > input.length) := by omega
  have g4 : recOffset input s = 0 ∨
      recOffset input s > s.op + recLiteralLen input s ∨
      s.op + recLiteralLen input s + recMatchLen input s > output.length := by
    rcases hbad with g | g
    · exact Or.inl g
    · exact Or.inr (Or.inl g)
  simp only [g1, g2, g3, if_false, g4, if_true]

/-- Instances of C4: a distance above the output position in the second record,
and a distance of 0 in the first. -/
theorem fcl_decompress_rejects_distance_witness :
    fcl_decompress [0x10, 7, 1, 0, 0x00, 9, 0] (List.replicate 8 0)
        = .ret1 [7, 7, 7, 7, 7, 0, 0, 0] ∧
    fcl_decompress [0x10, 7, 0, 0] (List.replicate 8 0) = .ret1 [7, 0, 0, 0, 0, 0, 0, 0] :=
  ⟨(fcl_decompress_rejects_distance [0x10, 7, 1, 0, 0x00, 9, 0] (List.replicate 8 0) 1
      { ip := 4, op := 5, output := [7, 7, 7, 7, 7, 0, 0, 0] }
      (by decide) (by decide) (by decide) (by decide)).1,
   (fcl_decompress_rejects_distance [0x10, 7, 0, 0] (List.replicate 8 0) 0
      (dinit (List.replicate 8 0)) (by decide) (by decide) (by decide) (by decide)).1⟩

/-- C5: when the run of `fcl_decompress` reaches a token that announces more
literals than the input holds after it, the call returns 1 with the output
buffer as it is before that record; when exactly one byte is left after a
record's literals, the call returns 1 with the buffer as it is after the literal
copy. -/
theorem fcl_decompress_rejects_truncated (input output : List Byte) (k : Nat) (s : DState)
    (hrun : runN (fcl_decompress_body input output.length) k (dinit output) = some s)
    (hip : s.ip < input.length) :
    (s.ip + 1 + recLiteralLen input s > input.length →
      fcl_decompress input output = .ret1 s.output) ∧
    (s.ip + 1 + recLiteralLen input s + 1 = input.length →
      s.op + recLiteralLen input s ≤ output.length →
      fcl_decompress input output = .ret1 (recLiterals input s)) := by
  have hI := (fcl_decompress_runN input output k s hrun).1
  have hb := fcl_decompress_body_eq input output.length s hip hI.2.2
  refine ⟨?_, ?_⟩
  · intro g
    apply fcl_decompress_ret1_at input output k s _ hrun
    rw [hb]
    have g1 : s.ip + 1 + recLiteralLen input s > input.length ∨
      s.op + recLiteralLen input s > output.length := Or.inl g
    simp only [g1, if_true]
  · intro h1 h2
    apply fcl_decompress_ret1_at input output k s _ hrun
    rw [hb]
    have g1 : ¬ (s.ip + 1 + recLiteralLen input s > input.length ∨
        s.op + recLiteralLen input s > output.length) := by omega
    have g2 : ¬ (s.ip + 1 + recLiteralLen input s ≥ input.length) := by omega
    have g3 : s.ip + 1 + recLiteralLen input s + 2 > input.length := by omega
    simp only [g1, g2, if_false, g3, if_true]

/-- Instances of C5: a token announcing three literals with two bytes left, and
a distance field cut after its first byte. -/
theorem fcl_decompress_rejects_truncated_witness :
    fcl_decompress [0x10, 7, 1, 0, 0x30, 8, 9] (List.replicate 8 0)
        = .ret1 [7, 7, 7, 7, 7, 0, 0, 0] ∧
    fcl_decompress [0x10, 7, 1, 0, 0x10, 8, 9] (List.replicate 8 0)
        = .ret1 [7, 7, 7, 7, 7, 8, 0, 0] :=
  ⟨(fcl_decompress_rejects_truncated [0x10, 7, 1, 0, 0x30, 8, 9] (List.replicate 8 0) 1
      { ip := 4, op := 5, output := [7, 7, 7, 7, 7, 0, 0, 0] }
      (by decide) (by decide)).1 (by decide),
   (fcl_decompress_rejects_truncated [0x10, 7, 1, 0, 0x10, 8, 9] (List.replicate 8 0) 1
      { ip := 4, op := 5, output := [7, 7, 7, 7, 7, 0, 0, 0] }
      (by decide) (by decide)).2 (by decide) (by decide)⟩

/-- C6: for every match record the decoder accepts, with output position `op`
after the literals, distance `d` and match length `m` (low nibble plus 4), the
pass succeeds and its new buffer `out` satisfies `out[op + i] = out[op - d + i]`
and `out[op + i] = pre[op - d + i mod d]` for `i < m`, where `pre` is the buffer
before the copy, and agrees with `pre` below `op`. The block path and the byte
loop both yield `out`, whichever of them the comparison of `d` with `m`
selects. -/
theorem fcl_decompress_copy_overlap (input : List Byte) (cap : Nat) (s : DState)
    (hl : s.output.length = cap)
    (hfield : s.ip + 1 + recLiteralLen input s + 2 ≤ input.length)
    (hlit : s.op + recLiteralLen input s ≤ cap)
    (hd0 : 1 ≤ recOffset input s)
    (hd1 : recOffset input s ≤ s.op + recLiteralLen input s)
    (hm : s.op + recLiteralLen input s + recMatchLen input s ≤ cap) :
    ∃ out : List Byte,
      fcl_decompress_body input cap s =
        .ok (.next { ip := s.ip + 1 + recLiteralLen input s + 2,
                     op := s.op + recLiteralLen input s + recMatchLen input s,
                     output := out }) ∧
      out.length = cap ∧
      (∀ i, i < recMatchLen input s →
        out[s.op + recLiteralLen input s + i]? =
          out[s.op + recLiteralLen input s - recOffset input s + i]?) ∧
      (∀ i, i < recMatchLen input s →
        out[s.op + recLiteralLen input s + i]? =
          (recLiterals input s)[s.op + recLiteralLen input s - recOffset input s
            + i % recOffset input s]?) ∧
      (∀ j, j < s.op + recLiteralLen input s → out[j]? = (recLiterals input s)[j]?) ∧
      FCL_COPY_BYTES
          (fun buf k => rdInt buf ((s.op + recLiteralLen input s : Nat) - recOffset input s + k))
          (s.op + recLiteralLen input s) (recLiterals input s) (recMatchLen input s)
        = .ok out ∧
      loopN (match_copy_body
          (fun buf k => rdInt buf ((s.op + recLiteralLen input s : Nat) - recOffset input s + k))
          (s.op + recLiteralLen input s) (recMatchLen input s))
          (recMatchLen input s + 1) (0, recLiterals input s)
        = .ok (recMatchLen input s, out) := by
  have hL := recLiterals_length input s
  have hk : s.op + recLiteralLen input s + recMatchLen input s
      ≤ (recLiterals input s).length := by omega
  have hs := srcOk_self (s.op + recLiteralLen input s) (recOffset input s)
    (recLiterals input s).length (recMatchLen input s) hd0 hd1 hk
  refine ⟨copyN (selfSrc (s.op + recLiteralLen input s) (recOffset input s))
    (s.op + recLiteralLen input s) (recLiterals input s) (recMatchLen input s),
    ?_, ?_, ?_, ?_, ?_, ?_, ?_⟩
  · rw [fcl_decompress_body_eq input cap s (by omega) hl]
    have g1 : ¬ (s.ip + 1 + recLiteralLen input s > input.length ∨
        s.op + recLiteralLen input s > cap) := by omega
    have g2 : ¬ (s.ip + 1 + recLiteralLen input s ≥ input.length) := by omega
    have g3 : ¬ (s.ip + 1 + recLiteralLen input s + 2 > input.length) := by omega
    have g4 : ¬ (recOffset input s = 0 ∨
        recOffset input s > s.op + recLiteralLen input s ∨
        s.op + recLiteralLen input s + recMatchLen input s > cap) := by omega
    simp only [g1, g2, g3, g4, if_false]
  · rw [copyN_length, hL, hl]
  · exact copyN_self_back _ _ _ hd0 hd1 _ hk
  · exact copyN_self_periodic _ _ _ hd0 hd1 _ hk
  · intro j hj
    exact copyN_getElem?_outside _ _ _ _ _ hk (Or.inl hj)
  · exact FCL_COPY_BYTES_eq hs hk
  · exact loop_match_copy hs hk (recMatchLen input s + 1) 0 (by omega) (by omega)

/-- Instance of C6: one literal, then distance 1 and match length 10. -/
theorem fcl_decompress_copy_overlap_witness :
    ∃ out : List Byte,
      fcl_decompress_body [0x16, 7, 1, 0] 11 (dinit (List.replicate 11 0)) =
        .ok (.next { ip := 4, op := 11, output := out }) ∧
      out.length = 11 ∧
      (∀ i, i < 10 → out[1 + i]? = out[0 + i]?) ∧
      (∀ i, i < 10 →
        out[1 + i]? = ([7, 0, 0, 0, 0, 0, 0, 0, 0, 0, 0] : List Byte)[0 + i % 1]?) ∧
      (∀ j, j < 1 → out[j]? = ([7, 0, 0, 0, 0, 0, 0, 0, 0, 0, 0] : List Byte)[j]?) ∧
      FCL_COPY_BYTES (fun buf k => rdInt buf ((1 : Nat) - 1 + k)) 1
          [7, 0, 0, 0, 0, 0, 0, 0, 0, 0, 0] 10 = .ok out ∧
      loopN (match_copy_body (fun buf k => rdInt buf ((1 : Nat) - 1 + k)) 1 10) 11
          (0, [7, 0, 0, 0, 0, 0, 0, 0, 0, 0, 0]) = .ok (10, out) :=
  fcl_decompress_copy_overlap [0x16, 7, 1, 0] 11 (dinit (List.replicate 11 0))
    (by decide) (by decide) (by decide) (by decide) (by decide) (by decide)

/-- C8: on the empty input with a capacity of at least one byte `fcl_compress`
returns 0 with size 1 after storing the token `0x00` at index 0, and
`fcl_decompress` of the stream `[0x00]` returns 0 with size 0 and the output
buffer unchanged. -/
theorem fcl_empty_input (w : Nat) (output : List Byte) (h : 1 ≤ output.length) :
    fcl_compress w [] output = .ok (output.set 0 0x00, 1) ∧
    (∀ out : List Byte, fcl_decompress [0x00] out = .ok (out, 0)) := by
  refine ⟨?_, ?_⟩
  · have hloop : loopN (fcl_compress_body w [] output.length) (([] : List Byte).length + 1)
        (cinit output) = .ok (cinit output) := by
      simp [loopN, fcl_compress_body, FCL_MIN_MATCH]
    rw [fcl_compress_unfold, hloop]
    simp only [Res.ok_bind]
    rw [fcl_compress_final_eq [] output.length (cinit output) (by simp [cinit]) rfl
      (by simp [cinit]; omega)]
    rfl
  · intro out
    have hb : fcl_decompress_body [0x00] out.length (dinit out)
        = .ok (.done { ip := 1, op := 0, output := out }) := by
      rw [fcl_decompress_body_eq [0x00] out.length (dinit out) (by simp [dinit]) rfl]
      simp [recLiteralLen, recLiterals, dinit, copyN]
    rw [fcl_decompress_unfold]
    simp [loopN, hb]

/-- Instance of C8 with a two-byte output buffer. -/
theorem fcl_empty_input_witness :
    fcl_compress 32 [] [9, 9] = .ok ([0x00, 9], 1) ∧
    (∀ out : List Byte, fcl_decompress [0x00] out = .ok (out, 0)) :=
  fcl_empty_input 32 [9, 9] (by decide)

theorem loopN_next {σ : Type} (body : σ → Res (Step σ)) (fuel : Nat) (s s' : σ)
    (h : body s = .ok (.next s')) : loopN body (fuel + 1) s = loopN body fuel s' := by
  simp [loopN, h]

theorem loopN_done {σ : Type} (body : σ → Res (Step σ)) (fuel : Nat) (s s' : σ)
    (h : body s = .ok (.done s')) : loopN body (fuel + 1) s = .ok s' := by
  simp [loopN, h]

theorem runN_succ_right {σ : Type} (body : σ → Res (Step σ)) :
    ∀ k s0 s s', runN body k s0 = some s → body s = .ok (.next s') →
      runN body (k + 1) s0 = some s' := by
  intro k
  induction k with
  | zero =>
    intro s0 s s' h hb
    simp [runN] at h
    subst h
    simp [runN, hb]
  | succ k ih =>
    intro s0 s s' h hb
    unfold runN at h
    rw [runN]
    cases hb0 : body s0 with
    | ok st =>
      rw [hb0] at h
      cases st with
      | next s1 => exact ih s1 s s' h hb
      | done s1 => simp at h
    | ret1 o => rw [hb0] at h; simp at h
    | oob => rw [hb0] at h; simp at h
    | nofuel => rw [hb0] at h; simp at h

theorem u32_eq_sum (p : List Byte) (i : Nat) :
    u32 p i = (p.getD i 0).val + 256 * (p.getD (i + 1) 0).val
      + 65536 * (p.getD (i + 2) 0).val + 16777216 * (p.getD (i + 3) 0).val := by
  unfold u32
  generalize p.getD i 0 = b0
  generalize p.getD (i + 1) 0 = b1
  generalize p.getD (i + 2) 0 = b2
  generalize p.getD (i + 3) 0 = b3
  have h0 := b0.isLt
  have h1 := b1.isLt
  have h2 := b2.isLt
  have h3 := b3.isLt
  simp only [Nat.shiftLeft_eq]
  have e1 : b0.val ||| b1.val * 2 ^ 8 = 2 ^ 8 * b1.val + b0.val := by
    rw [Nat.lor_comm, Nat.mul_comm]
    exact (Nat.mul_add_lt_is_or (by omega) _).symm
  rw [e1]
  have e2 : (2 ^ 8 * b1.val + b0.val) ||| b2.val * 2 ^ 16
      = 2 ^ 16 * b2.val + (2 ^ 8 * b1.val + b0.val) := by
    rw [Nat.lor_comm, Nat.mul_comm]
    exact (Nat.mul_add_lt_is_or (by omega) _).symm
  rw [e2]
  have e3 : (2 ^ 16 * b2.val + (2 ^ 8 * b1.val + b0.val)) ||| b3.val * 2 ^ 24
      = 2 ^ 24 * b3.val + (2 ^ 16 * b2.val + (2 ^ 8 * b1.val + b0.val)) := by
    rw [Nat.lor_comm, Nat.mul_comm]
    exact (Nat.mul_add_lt_is_or (by omega) _).symm
  rw [e3]
  omega

/-- Equal 32-bit reads inside the buffer come from equal 4-byte sequences. -/
theorem u32_inj (p : List Byte) (i j : Nat) (hi : i + 4 ≤ p.length) (hj : j + 4 ≤ p.length)
    (h : u32 p i = u32 p j) : ∀ t, t < 4 → p[i + t]? = p[j + t]? := by
  rw [u32_eq_sum, u32_eq_sum] at h
  have a0 := (p.getD i 0).isLt
  have a1 := (p.getD (i + 1) 0).isLt
  have a2 := (p.getD (i + 2) 0).isLt
  have a3 := (p.getD (i + 3) 0).isLt
  have b0 := (p.getD j 0).isLt
  have b1 := (p.getD (j + 1) 0).isLt
  have b2 := (p.getD (j + 2) 0).isLt
  have b3 := (p.getD (j + 3) 0).isLt
  have e0 : p.getD i 0 = p.getD j 0 := Fin.ext (by omega)
  have e1 : p.getD (i + 1) 0 = p.getD (j + 1) 0 := Fin.ext (by omega)
  have e2 : p.getD (i + 2) 0 = p.getD (j + 2) 0 := Fin.ext (by omega)
  have e3 : p.getD (i + 3) 0 = p.getD (j + 3) 0 := Fin.ext (by omega)
  intro t ht
  rw [getElem?_eq_getD (by omega), getElem?_eq_getD (by omega)]
  have : t = 0 ∨ t = 1 ∨ t = 2 ∨ t = 3 := by omega
  rcases this with rfl | rfl | rfl | rfl
  · simpa using e0
  · simpa using e1
  · simpa using e2
  · simpa using e3

theorem fcl_compress_body_nomatch (w : Nat) (input : List Byte) (cap : Nat) (s : CState)
    (h4 : s.ip + 4 < input.length) (hno : ¬ matchRoot w input s.hash_table s.ip) :
    fcl_compress_body w input cap s =
      .ok (.next { s with
        hash_table :=
          fun h => if h = fcl_hash w (u32 input s.ip) then s.ip % 65536 else s.hash_table h,
        ip := s.ip + 1 }) := by
  unfold fcl_compress_body
  have h4' : s.ip + FCL_MIN_MATCH < input.length := h4
  simp only [h4', if_true]
  rw [FCL_READ_U32_eq (by omega)]
  simp only [Res.ok_bind]
  split
  · rename_i hc
    rw [FCL_READ_U32_eq (by omega)]
    simp only [Res.ok_bind]
    have hne : ¬ u32 input (s.hash_table (fcl_hash w (u32 input s.ip))) = u32 input s.ip :=
      fun e => hno ⟨hc.1, hc.2, e⟩
    simp only [hne, if_false, Res.pure_eq]
  · simp only [Res.pure_eq]

theorem fcl_compress_body_exit (w : Nat) (input : List Byte) (cap : Nat) (s : CState)
    (h4 : ¬ s.ip + 4 < input.length) :
    fcl_compress_body w input cap s = .ok (.done s) := by
  unfold fcl_compress_body
  have h4' : ¬ s.ip + FCL_MIN_MATCH < input.length := h4
  simp only [h4', if_false, Res.pure_eq]

/-- While no match is found the scan loop walks through the states
`scanState`. -/
theorem scan_run (w : Nat) (input output : List Byte) :
    ∀ m, NoMatchBelow w input m → m ≤ input.length - 4 →
      runN (fcl_compress_body w input output.length) m (cinit output)
        = some (scanState w input output m) := by
  intro m
  induction m with
  | zero => intro _ _; rfl
  | succ m ih =>
    intro hno hm
    have h1 := ih (fun k hk => hno k (by omega)) (by omega)
    refine runN_succ_right _ m _ _ _ h1 ?_
    rw [fcl_compress_body_nomatch w input output.length (scanState w input output m)
      (by simp only [scanState]; omega) (hno m (by omega))]
    rfl

theorem toByte_val (v : Nat) : (toByte v).val = v % 256 := rfl

theorem literal_record_eq (input output : List Byte) (tok : Byte)
    (hc : 1 + input.length ≤ output.length) :
    copyN (fun _ k => input.getD (0 + k) 0) (0 + 1) (output.set 0 tok) input.length
      = tok :: (input ++ output.drop (input.length + 1)) := by
  apply List.ext_getElem?
  intro j
  have hlen : (output.set 0 tok).length = output.length := List.length_set _ _ _
  by_cases h0 : j = 0
  · subst h0
    rw [copyN_getElem?_outside _ _ _ _ _ (by omega) (Or.inl (by omega))]
    simp only [List.getElem?_set, List.getElem?_cons_zero, if_true]
    have : 0 < output.length := by omega
    simp [this]
  · obtain ⟨i, rfl⟩ : ∃ i, j = i + 1 := ⟨j - 1, by omega⟩
    rw [List.getElem?_cons_succ, List.getElem?_append]
    by_cases hi : i < input.length
    · rw [copyN_input_getElem? input 0 (0 + 1) _ _ _ (by omega) (by omega) (by omega)]
      simp only [hi, if_true]
      congr 1
      omega
    · rw [copyN_getElem?_outside _ _ _ _ _ (by omega) (Or.inr (by omega))]
      simp only [hi, if_false, List.getElem?_drop]
      rw [List.getElem?_set]
      simp only [show ¬ 0 = i + 1 by omega, if_false]
      congr 1
      omega

/-- Outcome of `fcl_compress` when no match is found. -/
theorem fcl_compress_nomatch_eq (w : Nat) (input output : List Byte)
    (hno : NoMatch w input) (hcap : input.length + 1 ≤ output.length) :
    fcl_compress w input output =
      .ok (toByte (input.length <<< 4) :: (input ++ output.drop (input.length + 1)),
        input.length + 1) := by
  have hrun := scan_run w input output (input.length - 4)
    (fun k hk => hno k (by omega)) (Nat.le_refl _)
  have hloop : loopN (fcl_compress_body w input output.length) (input.length + 1)
      (cinit output) = .ok (scanState w input output (input.length - 4)) := by
    have e : input.length + 1 = (input.length - 4) + ((input.length - (input.length - 4)) + 1) := by
      omega
    rw [e, loopN_runN _ _ _ _ hrun]
    exact loopN_done _ _ _ _
      (fcl_compress_body_exit w input output.length _ (by simp only [scanState]; omega))
  rw [fcl_compress_unfold, hloop]
  simp only [Res.ok_bind]
  rw [fcl_compress_final_eq input output.length _ (by simp [scanState]) rfl
    (by simp only [scanState]; omega)]
  simp only [scanState, Nat.sub_zero]
  rw [literal_record_eq input output _ (by omega)]
  congr 2
  omega

theorem token_nibbles (n : Nat) :
    (toByte (n <<< 4)).val &&& 15 = 0 ∧ (n ≤ 15 → (toByte (n <<< 4)).val >>> 4 = n) := by
  rw [toByte_val, Nat.shiftLeft_eq, Nat.shiftRight_eq_div_pow]
  have e : ∀ x : Nat, x &&& 15 = x % 2 ^ 4 := fun x => Nat.and_pow_two_sub_one_eq_mod x 4
  rw [e]
  constructor
  · omega
  · intro h; omega

theorem fcl_compress_match_eq (input : List Byte) (cap : Nat) (ht : Nat → Nat) (ref : Nat)
    (s : CState) (ml : Nat)
    (hloop : loopN (match_extend_body input s.ip ref) (FCL_MAX_MATCH - FCL_MIN_MATCH + 1)
      FCL_MIN_MATCH = .ok ml)
    (hl : s.output.length = cap) (hc : s.op + 1 + (s.ip - s.anchor) + 2 ≤ cap) :
    fcl_compress_match input cap ht ref s = .ok (.next (afterMatch ht ref ml s)) := by
  unfold fcl_compress_match
  have hc' : ¬ s.op + 1 + (s.ip - s.anchor) + 2 > cap := by omega
  simp only [hloop, Res.ok_bind, hc', if_false]
  rw [wr_eq _ (by omega)]
  simp only [Res.ok_bind]
  rw [FCL_WRITE_U16_eq _ (by simp; omega)]
  rfl

theorem matchToken_nibbles (lit ml : Nat) (h4 : 4 ≤ ml) (h19 : ml ≤ 19) :
    (matchToken lit ml).val &&& 15 = ml - 4 ∧ (matchToken lit ml).val >>> 4 = min lit 15 := by
  unfold matchToken
  simp only [FCL_MAX_LITERAL, FCL_MIN_MATCH, toByte_val, Nat.shiftLeft_eq]
  have e : ∀ x : Nat, x &&& 15 = x % 2 ^ 4 := fun x => Nat.and_pow_two_sub_one_eq_mod x 4
  rw [e, Nat.shiftRight_eq_div_pow]
  have hL : ∃ L, L ≤ 15 ∧ L = min lit 15 ∧
      (if lit < 15 then toByte lit else toByte 15).val = L := by
    by_cases h : lit < 15
    · exact ⟨lit, by omega, by omega, by simp only [h, if_true, toByte_val]; omega⟩
    · exact ⟨15, by omega, by omega, by simp only [h, if_false, toByte_val]⟩
  have hM : (if ml - 4 < 15 then toByte (ml - 4) else toByte 15).val = ml - 4 := by
    by_cases h : ml - 4 < 15
    · simp only [h, if_true, toByte_val]; omega
    · simp only [h, if_false, toByte_val]; omega
  obtain ⟨L, hL15, hLmin, hLe⟩ := hL
  rw [hLe, hM, ← hLmin]
  have e2 : L * 2 ^ 4 ||| (ml - 4) = 2 ^ 4 * L + (ml - 4) := by
    rw [Nat.mul_comm]
    exact (Nat.mul_add_lt_is_or (by omega) _).symm
  rw [e2]
  omega

theorem scanTable_slot (w : Nat) (input : List Byte) (H : Nat) :
    ∀ m, (∀ k, 1 ≤ k → k < m → fcl_hash w (u32 input k) ≠ H) →
      scanTable w input m H = 0 := by
  intro m
  induction m with
  | zero => intro _; rfl
  | succ m ih =>
    intro h
    simp only [scanTable]
    by_cases hm : m = 0
    · subst hm
      simp [scanTable]
    · have : ¬ H = fcl_hash w (u32 input m) := fun e => h m (by omega) (by omega) e.symm
      simp only [this, if_false]
      exact ih (fun k h1 h2 => h k h1 (by omega))

theorem u32_congr (p : List Byte) (i j : Nat) (h : ∀ t, t < 4 → p[i + t]? = p[j + t]?) :
    u32 p i = u32 p j := by
  unfold u32
  have e0 := h 0 (by omega)
  have e1 := h 1 (by omega)
  have e2 := h 2 (by omega)
  have e3 := h 3 (by omega)
  simp only [Nat.add_zero] at e0
  simp only [List.getD_eq_getElem?_getD, e0, e1, e2, e3]

theorem noMatchBelow_of_distinct (w : Nat) (input : List Byte) (m : Nat)
    (hm : m + 4 ≤ input.length)
    (h : ∀ i j, i < j → j < m → ¬ ∀ t, t < 4 → input[i + t]? = input[j + t]?) :
    NoMatchBelow w input m := by
  intro k hk hroot
  obtain ⟨h1, _, h3⟩ := hroot
  exact h _ k h1 hk (u32_inj input _ k (by omega) (by omega) h3)

/-- C9 (as stated, fails): on the 20-byte input `A B C D`, twelve filler bytes,
`A B C D` the encoder finds no match at any cursor it visits (the scan loop
stops before cursor 16), and the output is a single literal record: the token
`0x40` followed by the 20 input bytes, the second `A B C D` included. -/
theorem fcl_minimal_match_missed :
    NoMatch 64 [0x41, 0x42, 0x43, 0x44, 1, 2, 3, 4, 5, 6, 7, 8, 9, 10, 11, 12,
      0x41, 0x42, 0x43, 0x44] ∧
    NoMatch 32 [0x41, 0x42, 0x43, 0x44, 1, 2, 3, 4, 5, 6, 7, 8, 9, 10, 11, 12,
      0x41, 0x42, 0x43, 0x44] ∧
    fcl_compress 64 [0x41, 0x42, 0x43, 0x44, 1, 2, 3, 4, 5, 6, 7, 8, 9, 10, 11, 12,
        0x41, 0x42, 0x43, 0x44] (List.replicate 21 0)
      = .ok ([0x40, 0x41, 0x42, 0x43, 0x44, 1, 2, 3, 4, 5, 6, 7, 8, 9, 10, 11, 12,
        0x41, 0x42, 0x43, 0x44], 21) ∧
    fcl_compress 32 [0x41, 0x42, 0x43, 0x44, 1, 2, 3, 4, 5, 6, 7, 8, 9, 10, 11, 12,
        0x41, 0x42, 0x43, 0x44] (List.replicate 21 0)
      = .ok ([0x40, 0x41, 0x42, 0x43, 0x44, 1, 2, 3, 4, 5, 6, 7, 8, 9, 10, 11, 12,
        0x41, 0x42, 0x43, 0x44], 21) := by
  refine ⟨?_, ?_, by decide, by decide⟩
  · intro k hk
    have hk' : k < 16 := by simp at hk; omega
    interval_cases k <;> decide
  · intro k hk
    have hk' : k < 16 := by simp at hk; omega
    interval_cases k <;> decide

/-- C9 (amended): on a 21-byte input `A B C D`, twelve filler bytes, `A B C D`,
one more byte that differs from the first filler byte, where no 4-byte sequence
occurs twice below position 16 and no position 1..15 shares the table slot of
`A B C D`, `fcl_compress` with capacity at least 21 returns 0 with size 21; the
second `A B C D` is a match record: the token at index 0 has low nibble 0, the
distance field at indices 17 and 18 is 16, and the final record is the token
`0x10` and the last input byte. -/
theorem fcl_compress_minimal_match (w : Nat) (input output : List Byte)
    (hlen : input.length = 21)
    (hrep : ∀ t, t < 4 → input[16 + t]? = input[t]?)
    (hdist : ∀ i j, i < j → j < 16 → ¬ ∀ t, t < 4 → input[i + t]? = input[j + t]?)
    (hslot : ∀ k, 1 ≤ k → k < 16 → fcl_hash w (u32 input k) ≠ fcl_hash w (u32 input 0))
    (hext : input[20]? ≠ input[4]?)
    (hcap : 21 ≤ output.length) :
    ∃ out : List Byte,
      fcl_compress w input output = .ok (out, 21) ∧
      (∃ tok : Byte, out[0]? = some tok ∧ tok.val &&& 15 = 0) ∧
      out[17]? = some 16 ∧ out[18]? = some 0 ∧
      out[19]? = some 0x10 ∧ out[20]? = input[20]? := by
  have hno := noMatchBelow_of_distinct w input 16 (by omega) hdist
  have hrun := scan_run w input output 16 hno (by omega)
  have hU : u32 input 16 = u32 input 0 :=
    u32_congr input 16 0 (fun t ht => by rw [hrep t ht]; simp)
  have hT : scanTable w input 16 (fcl_hash w (u32 input 16)) = 0 := by
    rw [hU]; exact scanTable_slot w input _ 16 hslot
  have hT' : (scanState w input output 16).hash_table
      (fcl_hash w (u32 input (scanState w input output 16).ip)) = 0 := hT
  have hb := fcl_compress_body_match w input output.length (scanState w input output 16)
    (by simp only [scanState]; omega) (by rw [hT']; simp [scanState])
    (by rw [hT']; simp [scanState]) (by rw [hT']; exact hU.symm)
  rw [hT'] at hb
  obtain ⟨ml, hloop, m4, _, _, hagree, _⟩ :=
    Res.exists_of_sat (match_extend_spec input 16 0 (by omega) (by omega))
  have hml : ml = 4 := by
    by_contra hne
    have := hagree 4 (by omega) (by omega)
    simp only [Nat.zero_add] at this
    exact hext this.symm
  subst hml
  rw [fcl_compress_match_eq input output.length _ 0 (scanState w input output 16) 4 hloop rfl
    (by simp only [scanState]; omega)] at hb
  have hloopN : loopN (fcl_compress_body w input output.length) (input.length + 1)
      (cinit output) = .ok (afterMatch
        (fun h => if h = fcl_hash w (u32 input 16) then 16 % 65536
          else scanTable w input 16 h) 0 4 (scanState w input output 16)) := by
    have e : input.length + 1 = 16 + ((4 + 1) + 1) := by omega
    rw [e, loopN_runN _ _ _ _ hrun, loopN_next _ _ _ _ hb]
    exact loopN_done _ _ _ _
      (fcl_compress_body_exit w input output.length _
        (by simp only [afterMatch, scanState]; omega))
  rw [fcl_compress_unfold, hloopN]
  simp only [Res.ok_bind]
  rw [fcl_compress_final_eq input output.length _
    (by simp only [afterMatch, scanState]; omega) (by simp [afterMatch, scanState])
    (by simp only [afterMatch, scanState]; omega)]
  simp only [afterMatch, scanState, hlen]
  refine ⟨_, rfl, ?_, ?_, ?_, ?_, ?_⟩
  · refine ⟨matchToken 16 4, ?_, (matchToken_nibbles 16 4 (by omega) (by omega)).1⟩
    simp [copyN, List.getElem?_set]
    intro h
    rw [h] at hcap
    simp at hcap
  · simp [copyN, List.getElem?_set]
    exact ⟨by omega, by decide⟩
  · simp [copyN, List.getElem?_set]
    exact ⟨by omega, by decide⟩
  · simp [copyN, List.getElem?_set]
    exact ⟨by omega, by decide⟩
  · simp only [copyN, List.getElem?_set, List.length_set, Nat.add_zero, if_true]
    have h20 : 20 < output.length := by omega
    simp only [h20, if_true]
    exact (getElem?_eq_getD (by omega)).symm

/-- Instance of C9 (amended): `A B C D`, the fillers 1..12, `A B C D`, `E`. -/
theorem fcl_compress_minimal_match_witness :
    ∃ out : List Byte,
      fcl_compress 64 [0x41, 0x42, 0x43, 0x44, 1, 2, 3, 4, 5, 6, 7, 8, 9, 10, 11, 12,
          0x41, 0x42, 0x43, 0x44, 0x45] (List.replicate 21 0) = .ok (out, 21) ∧
      (∃ tok : Byte, out[0]? = some tok ∧ tok.val &&& 15 = 0) ∧
      out[17]? = some 16 ∧ out[18]? = some 0 ∧
      out[19]? = some 0x10 ∧ out[20]? = some 0x45 :=
  fcl_compress_minimal_match 64 [0x41, 0x42, 0x43, 0x44, 1, 2, 3, 4, 5, 6, 7, 8, 9, 10, 11, 12,
      0x41, 0x42, 0x43, 0x44, 0x45] (List.replicate 21 0) (by decide)
    (by intro t ht; interval_cases t <;> decide)
    (by
      intro i j hij hj hall
      have h0 := hall 0 (by omega)
      interval_cases j <;> interval_cases i <;> exact absurd h0 (by decide))
    (by intro k h1 h2; interval_cases k <;> decide)
    (by decide) (by decide)

theorem agreeFrom_ge (input : List Byte) (r c : Nat) :
    ∀ fuel k m, k ≤ m →
      (∀ j, k ≤ j → j < m → c + j < input.length ∧ input[r + j]? = input[c + j]?) →
      m - k ≤ fuel → m - k ≤ agreeFrom input r c fuel k := by
  intro fuel
  induction fuel with
  | zero => intro k m _ _ h; simp only [agreeFrom]; omega
  | succ f ih =>
    intro k m hkm hall hf
    by_cases e : k = m
    · omega
    · have hk := hall k (Nat.le_refl _) (by omega)
      simp only [agreeFrom, hk, and_self, if_true]
      have := ih (k + 1) m (by omega) (fun j h1 h2 => hall j (by omega) h2) (by omega)
      omega

theorem agreeFrom_eq (input : List Byte) (r c : Nat) :
    ∀ fuel k m, k ≤ m →
      (∀ j, k ≤ j → j < m → c + j < input.length ∧ input[r + j]? = input[c + j]?) →
      ¬ (c + m < input.length ∧ input[r + m]? = input[c + m]?) →
      m - k < fuel → agreeFrom input r c fuel k = m - k := by
  intro fuel
  induction fuel with
  | zero => intro k m _ _ _ h; omega
  | succ f ih =>
    intro k m hkm hall hstop hf
    by_cases e : k = m
    · subst e
      simp only [agreeFrom, hstop, if_false]
      omega
    · have hk := hall k (Nat.le_refl _) (by omega)
      simp only [agreeFrom, hk, and_self, if_true]
      have := ih (k + 1) m (by omega) (fun j h1 h2 => hall j (by omega) h2) hstop (by omega)
      omega

/-- The match-extension loop returns `min 19 (4 + e)`. -/
theorem match_extend_eq (input : List Byte) (ip mtch : Nat) (hm : mtch < ip)
    (hip : ip + 4 < input.length) :
    loopN (match_extend_body input ip mtch) (FCL_MAX_MATCH - FCL_MIN_MATCH + 1) FCL_MIN_MATCH
      = .ok (min 19 (4 + agreeCount input mtch ip)) := by
  obtain ⟨ml, hloop, m4, m19, mn, hagree, hmax⟩ :=
    Res.exists_of_sat (match_extend_spec input ip mtch hm (by omega))
  rw [hloop]
  congr 1
  have hall : ∀ j, 4 ≤ j → j < ml →
      ip + j < input.length ∧ input[mtch + j]? = input[ip + j]? :=
    fun j h1 h2 => ⟨by omega, hagree j h1 h2⟩
  by_cases h : ml < 19
  · have hstop : ¬ (ip + ml < input.length ∧ input[mtch + ml]? = input[ip + ml]?) :=
      fun ⟨h1, h2⟩ => hmax h h1 h2
    have := agreeFrom_eq input mtch ip input.length 4 ml m4 hall hstop (by omega)
    unfold agreeCount
    omega
  · have := agreeFrom_ge input mtch ip input.length 4 ml m4 hall (by omega)
    unfold agreeCount
    omega

theorem afterMatch_token (ht : Nat → Nat) (ref ml : Nat) (s : CState)
    (h : s.op + 1 + (s.ip - s.anchor) + 2 ≤ s.output.length) :
    (afterMatch ht ref ml s).output[s.op]? = some (matchToken (s.ip - s.anchor) ml) := by
  simp only [afterMatch, List.getElem?_set, List.length_set]
  have e1 : ¬ s.op + 1 + (s.ip - s.anchor) + 1 = s.op := by omega
  have e2 : ¬ s.op + 1 + (s.ip - s.anchor) = s.op := by omega
  have e3 : s.op < s.output.length := by omega
  simp only [e1, e2, e3, if_true, if_false]

theorem afterMatch_distance (ht : Nat → Nat) (ref ml : Nat) (s : CState)
    (h : s.op + 1 + (s.ip - s.anchor) + 2 ≤ s.output.length) :
    (afterMatch ht ref ml s).output[s.op + 1 + (s.ip - s.anchor)]? = some (toByte (s.ip - ref)) ∧
    (afterMatch ht ref ml s).output[s.op + 1 + (s.ip - s.anchor) + 1]?
      = some (toByte ((s.ip - ref) >>> 8)) := by
  simp only [afterMatch, List.getElem?_set, List.length_set]
  have e1 : ¬ s.op + 1 + (s.ip - s.anchor) + 1 = s.op + 1 + (s.ip - s.anchor) := by omega
  have e3 : s.op + 1 + (s.ip - s.anchor) < s.output.length := by omega
  have e4 : s.op + 1 + (s.ip - s.anchor) + 1 < s.output.length := by omega
  simp only [e1, e3, e4, if_true, if_false, and_self]

/-- A pass of the scan loop that finds a match root, with room for the record:
the new state. -/
theorem fcl_compress_body_match_eq (w : Nat) (input : List Byte) (cap : Nat) (s : CState)
    (hl : s.output.length = cap) (h4 : s.ip + 4 < input.length)
    (hroot : matchRoot w input s.hash_table s.ip)
    (hc : s.op + 1 + (s.ip - s.anchor) + 2 ≤ cap) :
    fcl_compress_body w input cap s =
      .ok (.next (afterMatch
        (fun h => if h = fcl_hash w (u32 input s.ip) then s.ip % 65536 else s.hash_table h)
        (s.hash_table (fcl_hash w (u32 input s.ip)))
        (min 19 (4 + agreeCount input (s.hash_table (fcl_hash w (u32 input s.ip))) s.ip))
        s)) := by
  obtain ⟨hr, hd, heq⟩ := hroot
  rw [fcl_compress_body_match w input cap s h4 hr hd heq]
  exact fcl_compress_match_eq input cap _ _ s _ (match_extend_eq input s.ip _ hr h4) hl hc

theorem u32_replicate (b : Byte) (n k : Nat) (hk : k + 4 ≤ n) :
    u32 (List.replicate n b) k = u32 (List.replicate n b) 0 := by
  apply u32_congr
  intro t ht
  rw [List.getElem?_replicate, List.getElem?_replicate]
  have h1 : k + t < n := by omega
  have h2 : 0 + t < n := by omega
  simp only [h1, h2, if_true]

theorem agreeCount_replicate (b : Byte) (n r c : Nat) (hr : r < c) (hc : c + 19 ≤ n) :
    min 19 (4 + agreeCount (List.replicate n b) r c) = 19 := by
  have := agreeFrom_ge (List.replicate n b) r c (List.replicate n b).length 4 19 (by omega)
    (fun j _ h2 => by
      rw [List.getElem?_replicate, List.getElem?_replicate, List.length_replicate]
      have h1 : r + j < n := by omega
      have h3 : c + j < n := by omega
      simp only [h1, h3, if_true, and_self])
    (by rw [List.length_replicate]; omega)
  unfold agreeCount
  omega

/-- A 40-byte input whose 4-byte sequences are all equal and which agrees with
itself at distances 1 and 19: the states the scan loop goes through and the
stream. -/
theorem fcl_compress_forty_aux (w : Nat) (X output : List Byte)
    (hlen : X.length = 40) (hu : ∀ k, k + 4 ≤ 40 → u32 X k = u32 X 0)
    (ha1 : min 19 (4 + agreeCount X 0 1) = 19) (ha2 : min 19 (4 + agreeCount X 1 20) = 19)
    (hcap : 9 ≤ output.length) :
    ∃ out : List Byte,
      fcl_compress w X output = .ok (out, 9) ∧
      out[0]? = some 0x1F ∧ out[2]? = some 1 ∧ out[3]? = some 0 ∧
      out[4]? = some 0x0F ∧ out[5]? = some 19 ∧ out[6]? = some 0 ∧
      out[7]? = some 0x10 ∧ out[8]? = X[39]? := by
  -- cursor 0: the table holds 0, which is not before the cursor
  have hb0 := fcl_compress_body_nomatch w X output.length (cinit output)
    (by rw [hlen]; simp [cinit]) (fun h => Nat.not_lt_zero _ h.1)
  generalize hs1 : ({ cinit output with
      hash_table := fun h =>
        if h = fcl_hash w (u32 X (cinit output).ip) then (cinit output).ip % 65536
        else (cinit output).hash_table h,
      ip := (cinit output).ip + 1 } : CState) = s1 at hb0
  have s1ip : s1.ip = 1 := by rw [← hs1]; rfl
  have s1an : s1.anchor = 0 := by rw [← hs1]; rfl
  have s1op : s1.op = 0 := by rw [← hs1]; rfl
  have s1out : s1.output = output := by rw [← hs1]; rfl
  have s1tab : s1.hash_table (fcl_hash w (u32 X s1.ip)) = 0 := by
    rw [s1ip, hu 1 (by omega), ← hs1]
    simp [cinit]
  -- cursor 1: match at root 0
  have hb1 := fcl_compress_body_match_eq w X output.length s1
    (by rw [s1out]) (by rw [hlen, s1ip]; omega)
    ⟨by rw [s1tab, s1ip]; omega, by rw [s1tab, s1ip]; simp [FCL_MAX_DISTANCE],
      by rw [s1tab, s1ip, hu 1 (by omega)]⟩
    (by rw [s1op, s1ip, s1an]; omega)
  rw [s1tab, s1ip, ha1] at hb1
  generalize hs2 : afterMatch
    (fun h => if h = fcl_hash w (u32 X 1) then 1 % 65536 else s1.hash_table h) 0 19 s1
      = s2 at hb1
  have s2ip : s2.ip = 20 := by rw [← hs2]; simp [afterMatch, s1ip]
  have s2an : s2.anchor = 20 := by rw [← hs2]; simp [afterMatch, s1ip]
  have s2op : s2.op = 4 := by rw [← hs2]; simp [afterMatch, s1ip, s1an, s1op]
  have s2out : s2.output =
      ((output.set 0 (matchToken 1 19)).set 2 (toByte 1)).set 3 (toByte (1 >>> 8)) := by
    rw [← hs2]; simp [afterMatch, s1ip, s1an, s1op, s1out]
  have s2tab : s2.hash_table (fcl_hash w (u32 X s2.ip)) = 1 := by
    rw [s2ip, hu 20 (by omega), ← hs2]
    simp only [afterMatch]
    rw [hu 1 (by omega)]
    simp
  -- cursor 20: match at root 1
  have hb2 := fcl_compress_body_match_eq w X output.length s2
    (by rw [s2out]; simp) (by rw [hlen, s2ip]; omega)
    ⟨by rw [s2tab, s2ip]; omega, by rw [s2tab, s2ip]; simp [FCL_MAX_DISTANCE],
      by rw [s2tab, s2ip, hu 1 (by omega), hu 20 (by omega)]⟩
    (by rw [s2op, s2ip, s2an]; omega)
  rw [s2tab, s2ip, ha2] at hb2
  generalize hs3 : afterMatch
    (fun h => if h = fcl_hash w (u32 X 20) then 20 % 65536 else s2.hash_table h) 1 19 s2
      = s3 at hb2
  have s3ip : s3.ip = 39 := by rw [← hs3]; simp [afterMatch, s2ip]
  have s3an : s3.anchor = 39 := by rw [← hs3]; simp [afterMatch, s2ip]
  have s3op : s3.op = 7 := by rw [← hs3]; simp [afterMatch, s2ip, s2an, s2op]
  have s3out : s3.output =
      ((s2.output.set 4 (matchToken 0 19)).set 5 (toByte 19)).set 6 (toByte (19 >>> 8)) := by
    rw [← hs3]; simp [afterMatch, s2ip, s2an, s2op]
  -- cursor 39: the scan loop ends
  have hb3 := fcl_compress_body_exit w X output.length s3 (by rw [hlen, s3ip]; omega)
  have hloop : loopN (fcl_compress_body w X output.length) (X.length + 1) (cinit output)
      = .ok s3 := by
    rw [hlen]
    rw [loopN_next _ 40 _ _ hb0, loopN_next _ 39 _ _ hb1, loopN_next _ 38 _ _ hb2,
      loopN_done _ 37 _ _ hb3]
  rw [fcl_compress_unfold, hloop]
  simp only [Res.ok_bind]
  rw [fcl_compress_final_eq _ output.length s3 (by rw [hlen, s3an]; omega)
    (by rw [s3out, s2out]; simp) (by rw [hlen, s3op, s3an]; omega)]
  simp only [hlen, s3op, s3an, s3out, s2out]
  have h0 : 0 < output.length := by omega
  have h2 : 2 < output.length := by omega
  have h3 : 3 < output.length := by omega
  have h4 : 4 < output.length := by omega
  have h5 : 5 < output.length := by omega
  have h6 : 6 < output.length := by omega
  have h7 : 7 < output.length := by omega
  have h8 : 8 < output.length := by omega
  refine ⟨_, rfl, ?_, ?_, ?_, ?_, ?_, ?_, ?_, ?_⟩
  all_goals simp only [copyN, List.getElem?_set, List.length_set]
  · simp [h0]; decide
  · simp [h2]; decide
  · simp [h3]; decide
  · simp [h4]; decide
  · simp [h5]; decide
  · simp [h6]; decide
  · simp [h7]; decide
  · simp [h8]
    rw [List.getElem?_eq_getElem (by omega : 39 < X.length)]
    rfl

/-- C10: a pass of the scan loop that takes a match at cursor `c = s.ip` with
root `r` (and has room for the record) stores a token whose low nibble is
`min 19 (4 + e) - 4` and moves cursor and anchor to `c + min 19 (4 + e)`, where
`e` counts the consecutive positions `k ≥ 4` with `c + k < input_size` and
`input[r + k] = input[c + k]`; with `e ≥ 15` the length is 19 and the nibble 15.
For forty equal bytes the stream is a match token with low nibble 15 (distance
1), a match token `0x0F` with distance 19, and a final literal record with the
last byte. -/
theorem fcl_compress_match_clamp (w : Nat) :
    (∀ (input : List Byte) (s : CState),
      s.ip + 4 < input.length →
      matchRoot w input s.hash_table s.ip →
      s.op + 1 + (s.ip - s.anchor) + 2 ≤ s.output.length →
      ∃ (s' : CState) (tok : Byte),
        fcl_compress_body w input s.output.length s = .ok (.next s') ∧
        s'.ip = s.ip +
          min 19 (4 + agreeCount input (s.hash_table (fcl_hash w (u32 input s.ip))) s.ip) ∧
        s'.anchor = s'.ip ∧
        s'.output[s.op]? = some tok ∧
        tok.val &&& 15
          = min 19 (4 + agreeCount input (s.hash_table (fcl_hash w (u32 input s.ip))) s.ip) - 4 ∧
        (15 ≤ agreeCount input (s.hash_table (fcl_hash w (u32 input s.ip))) s.ip →
          s'.ip = s.ip + 19 ∧ tok.val &&& 15 = 15)) ∧
    (∀ (b : Byte) (output : List Byte), 9 ≤ output.length →
      ∃ out : List Byte,
        fcl_compress w (List.replicate 40 b) output = .ok (out, 9) ∧
        out[0]? = some 0x1F ∧ out[2]? = some 1 ∧ out[3]? = some 0 ∧
        out[4]? = some 0x0F ∧ out[5]? = some 19 ∧ out[6]? = some 0 ∧
        out[7]? = some 0x10 ∧ out[8]? = some b) := by
  refine ⟨?_, ?_⟩
  · intro input s h4 hroot hc
    have hb := fcl_compress_body_match_eq w input s.output.length s rfl h4 hroot hc
    have hn := matchToken_nibbles (s.ip - s.anchor)
      (min 19 (4 + agreeCount input (s.hash_table (fcl_hash w (u32 input s.ip))) s.ip))
      (by omega) (by omega)
    refine ⟨_, _, hb, rfl, rfl, afterMatch_token _ _ _ s hc, hn.1, ?_⟩
    intro he
    have hm : min 19 (4 + agreeCount input (s.hash_table (fcl_hash w (u32 input s.ip))) s.ip)
        = 19 := by omega
    constructor
    · show s.ip + _ = s.ip + 19
      rw [hm]
    · rw [hn.1, hm]
  · intro b output hcap
    obtain ⟨out, h, h0, h2, h3, h4, h5, h6, h7, h8⟩ :=
      fcl_compress_forty_aux w (List.replicate 40 b) output (List.length_replicate _ _)
        (fun k hk => u32_replicate b 40 k hk)
        (agreeCount_replicate b 40 0 1 (by omega) (by omega))
        (agreeCount_replicate b 40 1 20 (by omega) (by omega)) hcap
    refine ⟨out, h, h0, h2, h3, h4, h5, h6, h7, ?_⟩
    rw [h8, List.getElem?_replicate]
    simp

/-- Instance of C10: forty bytes `0x61`. -/
theorem fcl_compress_match_clamp_witness :
    ∃ out : List Byte,
      fcl_compress 32 (List.replicate 40 0x61) (List.replicate 9 0) = .ok (out, 9) ∧
      out[0]? = some 0x1F ∧ out[2]? = some 1 ∧ out[3]? = some 0 ∧
      out[4]? = some 0x0F ∧ out[5]? = some 19 ∧ out[6]? = some 0 ∧
      out[7]? = some 0x10 ∧ out[8]? = some 0x61 :=
  (fcl_compress_match_clamp 32).2 0x61 (List.replicate 9 0) (by decide)

theorem high_bits_eq (x : Nat) : x / 2 ^ 20 % 4096 = x % 2 ^ 32 / 2 ^ 20 := by
  have e : (2 : Nat) ^ 32 = 2 ^ 20 * 4096 := by decide
  rw [e, Nat.mod_mul_right_div_self]

theorem fcl_hash_eq (w : Nat) (seq : Nat) :
    fcl_hash w seq = ((seq * 2654435761) % 2 ^ w) / 2 ^ 20 % 4096 := by
  unfold fcl_hash
  have e1 : 32 - FCL_HASH_LOG = 20 := by decide
  have e2 : FCL_HASH_SIZE - 1 = 2 ^ 12 - 1 := by decide
  rw [e1, e2, Nat.and_pow_two_sub_one_eq_mod, Nat.shiftRight_eq_div_pow]

/-- C19: for every 32-bit `seq`, `fcl_hash` is the high 12 bits of the 32-bit
product `seq * 2654435761`, both when `unsigned long` has 32 bits and when it
has 64, and it is below 4096 (for every width and every argument). -/
theorem fcl_hash_high_bits (seq : Nat) (h : seq < 2 ^ 32) :
    fcl_hash 32 seq = ((seq * 2654435761) % 2 ^ 32) / 2 ^ 20 ∧
    fcl_hash 64 seq = ((seq * 2654435761) % 2 ^ 32) / 2 ^ 20 ∧
    (∀ w x : Nat, fcl_hash w x < 4096) := by
  refine ⟨?_, ?_, ?_⟩
  · rw [fcl_hash_eq, high_bits_eq, Nat.mod_mod]
  · rw [fcl_hash_eq]
    have hlt : seq * 2654435761 < 2 ^ 64 := by omega
    rw [Nat.mod_eq_of_lt hlt, high_bits_eq]
  · intro w x
    rw [fcl_hash_eq]
    omega

/-- Instance of C19: the sequence `01 02 03 04` falls into a bucket below 4096. -/
theorem fcl_hash_high_bits_witness :
    fcl_hash 32 0x04030201 = ((0x04030201 * 2654435761) % 2 ^ 32) / 2 ^ 20 ∧
    fcl_hash 64 0x04030201 = ((0x04030201 * 2654435761) % 2 ^ 32) / 2 ^ 20 ∧
    (∀ w x : Nat, fcl_hash w x < 4096) :=
  fcl_hash_high_bits 0x04030201 (by decide)

theorem matchLen_bounds (w : Nat) (input : List Byte) (s : CState)
    (h4 : s.ip + 4 < input.length) (hr : candidate w input s < s.ip) :
    4 ≤ matchLen w input s ∧ matchLen w input s ≤ 19 ∧
    s.ip + matchLen w input s ≤ input.length ∧
    (∀ k, 4 ≤ k → k < matchLen w input s →
      input[candidate w input s + k]? = input[s.ip + k]?) := by
  obtain ⟨ml, hloop, m4, m19, mn, hagree, _⟩ :=
    Res.exists_of_sat (match_extend_spec input s.ip (candidate w input s) hr (by omega))
  have h := match_extend_eq input s.ip (candidate w input s) hr h4
  rw [hloop] at h
  have e : ml = matchLen w input s := by
    injection h
  rw [← e]
  exact ⟨m4, m19, mn, hagree⟩

/-- The four ways a pass of the scan loop can go. -/
theorem fcl_compress_body_cases (w : Nat) (input : List Byte) (s : CState) :
    (¬ s.ip + 4 < input.length ∧
      fcl_compress_body w input s.output.length s = .ok (.done s)) ∨
    (s.ip + 4 < input.length ∧ ¬ matchRoot w input s.hash_table s.ip ∧
      fcl_compress_body w input s.output.length s = .ok (.next (noMatchStep w input s))) ∨
    (s.ip + 4 < input.length ∧ matchRoot w input s.hash_table s.ip ∧
      s.op + 1 + (s.ip - s.anchor) + 2 ≤ s.output.length ∧
      fcl_compress_body w input s.output.length s = .ok (.next (matchStep w input s))) ∨
    (s.ip + 4 < input.length ∧ matchRoot w input s.hash_table s.ip ∧
      ¬ s.op + 1 + (s.ip - s.anchor) + 2 ≤ s.output.length ∧
      fcl_compress_body w input s.output.length s = .ret1 s.output) := by
  by_cases h4 : s.ip + 4 < input.length
  · by_cases hroot : matchRoot w input s.hash_table s.ip
    · by_cases hc : s.op + 1 + (s.ip - s.anchor) + 2 ≤ s.output.length
      · exact Or.inr (Or.inr (Or.inl ⟨h4, hroot, hc,
          fcl_compress_body_match_eq w input s.output.length s rfl h4 hroot hc⟩))
      · refine Or.inr (Or.inr (Or.inr ⟨h4, hroot, hc, ?_⟩))
        rw [fcl_compress_body_match w input s.output.length s h4 hroot.1 hroot.2.1 hroot.2.2]
        exact fcl_compress_match_ret1 input s.output.length _ _ s h4 hroot.1 (by omega)
    · exact Or.inr (Or.inl ⟨h4, hroot,
        fcl_compress_body_nomatch w input s.output.length s h4 hroot⟩)
  · exact Or.inl ⟨h4, fcl_compress_body_exit w input s.output.length s h4⟩

theorem toByte_u16 (d : Nat) (h : d ≤ 65535) :
    (toByte d).val + 256 * (toByte (d >>> 8)).val = d ∧
    (toByte d).val ||| ((toByte (d >>> 8)).val <<< 8) = d := by
  rw [toByte_val, toByte_val, Nat.shiftRight_eq_div_pow, Nat.shiftLeft_eq]
  have e : d % 256 ||| d / 2 ^ 8 % 256 * 2 ^ 8 = 2 ^ 8 * (d / 2 ^ 8 % 256) + d % 256 := by
    rw [Nat.lor_comm, Nat.mul_comm]
    exact (Nat.mul_add_lt_is_or (by omega) _).symm
  rw [e]
  constructor <;> omega

/-- C11: in a pass of the scan loop at cursor `c = s.ip` (`c + 4 < input_size`)
whose table candidate `r` lies before `c` and holds the same four bytes, the
match branch is taken exactly when `c - r ≤ 65535`: then, with room for the
record, the record is emitted and its distance field is `c - r` in two
little-endian bytes (`FF FF` at distance 65535), and without room the call
returns 1; at distance 65536 or more nothing is emitted and the cursor advances
by 1 with the anchor unchanged. -/
theorem fcl_compress_distance_boundary (w : Nat) (input : List Byte) (s : CState)
    (h4 : s.ip + 4 < input.length)
    (hr : candidate w input s < s.ip)
    (heq : u32 input (candidate w input s) = u32 input s.ip) :
    (s.ip - candidate w input s ≤ 65535 →
      s.op + 1 + (s.ip - s.anchor) + 2 ≤ s.output.length →
      fcl_compress_body w input s.output.length s = .ok (.next (matchStep w input s)) ∧
      (matchStep w input s).op = s.op + 1 + (s.ip - s.anchor) + 2 ∧
      (matchStep w input s).output[s.op + 1 + (s.ip - s.anchor)]?
        = some (toByte (s.ip - candidate w input s)) ∧
      (matchStep w input s).output[s.op + 1 + (s.ip - s.anchor) + 1]?
        = some (toByte ((s.ip - candidate w input s) >>> 8)) ∧
      (toByte (s.ip - candidate w input s)).val
        + 256 * (toByte ((s.ip - candidate w input s) >>> 8)).val
        = s.ip - candidate w input s ∧
      (s.ip - candidate w input s = 65535 →
        toByte (s.ip - candidate w input s) = 0xFF ∧
        toByte ((s.ip - candidate w input s) >>> 8) = 0xFF)) ∧
    (s.ip - candidate w input s ≤ 65535 →
      ¬ s.op + 1 + (s.ip - s.anchor) + 2 ≤ s.output.length →
      fcl_compress_body w input s.output.length s = .ret1 s.output) ∧
    (65536 ≤ s.ip - candidate w input s →
      fcl_compress_body w input s.output.length s = .ok (.next (noMatchStep w input s)) ∧
      (noMatchStep w input s).ip = s.ip + 1 ∧
      (noMatchStep w input s).anchor = s.anchor ∧
      (noMatchStep w input s).op = s.op ∧
      (noMatchStep w input s).output = s.output) := by
  refine ⟨?_, ?_, ?_⟩
  · intro hd hc
    have hroot : matchRoot w input s.hash_table s.ip := ⟨hr, hd, heq⟩
    refine ⟨fcl_compress_body_match_eq w input s.output.length s rfl h4 hroot hc, rfl,
      (afterMatch_distance _ _ _ s hc).1, (afterMatch_distance _ _ _ s hc).2,
      (toByte_u16 _ hd).1, ?_⟩
    intro e
    rw [e]
    exact ⟨by decide, by decide⟩
  · intro hd hc
    rw [fcl_compress_body_match w input s.output.length s h4 hr hd heq]
    exact fcl_compress_match_ret1 input s.output.length _ _ s h4 hr (by omega)
  · intro hd
    have hroot : ¬ matchRoot w input s.hash_table s.ip := by
      intro h
      have := h.2.1
      simp only [FCL_MAX_DISTANCE] at this
      change s.ip - candidate w input s ≤ 65535 at this
      omega
    exact ⟨fcl_compress_body_nomatch w input s.output.length s h4 hroot, rfl, rfl, rfl, rfl⟩

/-- Instance of C11: cursor 65535 in 65540 equal bytes, candidate 0. -/
theorem fcl_compress_distance_boundary_witness :
    fcl_compress_body 64 (List.replicate 65540 0x61) 3
        { hash_table := fun _ => 0, ip := 65535, anchor := 65535, op := 0,
          output := [0, 0, 0] }
      = .ok (.next (matchStep 64 (List.replicate 65540 0x61)
        { hash_table := fun _ => 0, ip := 65535, anchor := 65535, op := 0,
          output := [0, 0, 0] })) ∧
    (matchStep 64 (List.replicate 65540 0x61)
        { hash_table := fun _ => 0, ip := 65535, anchor := 65535, op := 0,
          output := [0, 0, 0] }).output[1]? = some 0xFF ∧
    (matchStep 64 (List.replicate 65540 0x61)
        { hash_table := fun _ => 0, ip := 65535, anchor := 65535, op := 0,
          output := [0, 0, 0] }).output[2]? = some 0xFF := by
  have h := (fcl_compress_distance_boundary 64 (List.replicate 65540 0x61)
    { hash_table := fun _ => 0, ip := 65535, anchor := 65535, op := 0, output := [0, 0, 0] }
    (by show 65535 + 4 < (List.replicate 65540 (0x61 : Byte)).length
        rw [List.length_replicate]; omega)
    (by show 0 < 65535; omega)
    (by show u32 (List.replicate 65540 (0x61 : Byte)) 0 = u32 _ 65535
        exact (u32_replicate _ 65540 65535 (by omega)).symm)).1
    (by show 65535 - 0 ≤ 65535; omega) (by show 0 + 1 + (65535 - 65535) + 2 ≤ 3; omega)
  obtain ⟨h1, _, h3, h4, _, h6⟩ := h
  have h6' := h6 rfl
  rw [h6'.1] at h3
  rw [h6'.2] at h4
  exact ⟨h1, h3, h4⟩

/-- C15: a pass of the scan loop that emits a match record at cursor `c = s.ip`
(the match test holds and the record fits) uses a distance `d` with
`1 ≤ d ≤ c` and `d ≤ 65535` and a length `m` with `4 ≤ m ≤ 19` and
`c + m ≤ input_size`, stores `d` and `m - 4` in the record, and
`input[c - d + k] = input[c + k]` for every `k < m`; when the four bytes at the
candidate differ from the four bytes at the cursor, no record is emitted. This
holds for every state, whatever the input size and the table content. -/
theorem fcl_compress_match_sound (w : Nat) (input : List Byte) (s : CState)
    (h4 : s.ip + 4 < input.length) :
    (matchRoot w input s.hash_table s.ip →
      s.op + 1 + (s.ip - s.anchor) + 2 ≤ s.output.length →
      ∃ (s' : CState) (d m : Nat) (tok : Byte),
        fcl_compress_body w input s.output.length s = .ok (.next s') ∧
        d = s.ip - candidate w input s ∧ s'.ip = s.ip + m ∧
        1 ≤ d ∧ d ≤ s.ip ∧ d ≤ 65535 ∧
        4 ≤ m ∧ m ≤ 19 ∧ s.ip + m ≤ input.length ∧
        (∀ k, k < m → input[s.ip - d + k]? = input[s.ip + k]?) ∧
        s'.output[s.op]? = some tok ∧ tok.val &&& 15 = m - 4 ∧
        s'.output[s.op + 1 + (s.ip - s.anchor)]? = some (toByte d) ∧
        s'.output[s.op + 1 + (s.ip - s.anchor) + 1]? = some (toByte (d >>> 8)) ∧
        (toByte d).val + 256 * (toByte (d >>> 8)).val = d) ∧
    (u32 input (candidate w input s) ≠ u32 input s.ip →
      fcl_compress_body w input s.output.length s = .ok (.next (noMatchStep w input s)) ∧
      (noMatchStep w input s).output = s.output ∧
      (noMatchStep w input s).op = s.op ∧
      (noMatchStep w input s).anchor = s.anchor) := by
  refine ⟨?_, ?_⟩
  · intro hroot hc
    have hr : candidate w input s < s.ip := hroot.1
    have hd : s.ip - candidate w input s ≤ 65535 := hroot.2.1
    obtain ⟨m4, m19, mn, hagree⟩ := matchLen_bounds w input s h4 hr
    refine ⟨matchStep w input s, s.ip - candidate w input s, matchLen w input s,
      matchToken (s.ip - s.anchor) (matchLen w input s),
      fcl_compress_body_match_eq w input s.output.length s rfl h4 hroot hc, rfl, rfl,
      by omega, by omega, hd, m4, m19, mn, ?_,
      afterMatch_token _ _ _ s hc, (matchToken_nibbles _ _ m4 m19).1,
      (afterMatch_distance _ _ _ s hc).1, (afterMatch_distance _ _ _ s hc).2,
      (toByte_u16 _ hd).1⟩
    intro k hk
    have e : s.ip - (s.ip - candidate w input s) = candidate w input s := by omega
    rw [e]
    by_cases hk4 : k < 4
    · have h3 : u32 input (candidate w input s) = u32 input s.ip := hroot.2.2
      exact u32_inj input (candidate w input s) s.ip (by omega) (by omega) h3 k hk4
    · exact hagree k (by omega) hk
  · intro hne
    exact ⟨fcl_compress_body_nomatch w input s.output.length s h4 (fun h => hne h.2.2),
      rfl, rfl, rfl⟩

/-- Instance of C15: cursor 1 in six equal bytes, candidate 0. -/
theorem fcl_compress_match_sound_witness :
    ∃ (s' : CState) (d m : Nat) (tok : Byte),
      fcl_compress_body 64 [7, 7, 7, 7, 7, 7] 5
          { hash_table := fun _ => 0, ip := 1, anchor := 0, op := 0,
            output := [0, 0, 0, 0, 0] } = .ok (.next s') ∧
      d = 1 - 0 ∧ s'.ip = 1 + m ∧
      1 ≤ d ∧ d ≤ 1 ∧ d ≤ 65535 ∧
      4 ≤ m ∧ m ≤ 19 ∧ 1 + m ≤ 6 ∧
      (∀ k, k < m → ([7, 7, 7, 7, 7, 7] : List Byte)[1 - d + k]?
        = ([7, 7, 7, 7, 7, 7] : List Byte)[1 + k]?) ∧
      s'.output[0]? = some tok ∧ tok.val &&& 15 = m - 4 ∧
      s'.output[0 + 1 + (1 - 0)]? = some (toByte d) ∧
      s'.output[0 + 1 + (1 - 0) + 1]? = some (toByte (d >>> 8)) ∧
      (toByte d).val + 256 * (toByte (d >>> 8)).val = d :=
  (fcl_compress_match_sound 64 [7, 7, 7, 7, 7, 7]
    { hash_table := fun _ => 0, ip := 1, anchor := 0, op := 0, output := [0, 0, 0, 0, 0] }
    (by decide)).1 (by decide) (by decide)

/-- A pass of the scan loop that goes round again, from a state with the
invariant: the next state is one of the two step states. -/
theorem fcl_compress_body_next (w : Nat) (input : List Byte) (cap : Nat) (s s' : CState)
    (hI : CInv input cap s) (h : fcl_compress_body w input cap s = .ok (.next s')) :
    s.ip + 4 < input.length ∧
    ((¬ matchRoot w input s.hash_table s.ip ∧ s' = noMatchStep w input s) ∨
     (matchRoot w input s.hash_table s.ip ∧
      s.op + 1 + (s.ip - s.anchor) + 2 ≤ cap ∧ s' = matchStep w input s)) := by
  have hl := hI.2.2
  subst hl
  rcases fcl_compress_body_cases w input s with
    ⟨_, e⟩ | ⟨h4, hno, e⟩ | ⟨h4, hroot, hc, e⟩ |
    ⟨_, _, _, e⟩
  · rw [e] at h; injection h with h; injection h
  · rw [e] at h; injection h with h; injection h with h
    exact ⟨h4, Or.inl ⟨hno, h.symm⟩⟩
  · rw [e] at h; injection h with h; injection h with h
    exact ⟨h4, Or.inr ⟨hroot, hc, h.symm⟩⟩
  · rw [e] at h; injection h

theorem fcl_compress_body_sat_op (w : Nat) (input : List Byte) (cap : Nat) (s : CState)
    (hI : CInvOp input cap s) :
    (fcl_compress_body w input cap s).sat
      (fun st => match st with
        | .next s' => CInvOp input cap s' ∧ s.ip < s'.ip
        | .done s' => s' = s)
      (fun _ => cap < input.length + 1) := by
  obtain ⟨⟨ha, hn, hl⟩, hop⟩ := hI
  subst hl
  rcases fcl_compress_body_cases w input s with
    ⟨_, e⟩ | ⟨h4, hno, e⟩ | ⟨h4, hroot, hc, e⟩ |
    ⟨h4, _, hc, e⟩
  · rw [e]; rfl
  · rw [e]
    simp only [Res.sat, CInvOp, CInv, noMatchStep]
    exact ⟨⟨⟨by omega, by omega, trivial⟩, hop⟩, by omega⟩
  · rw [e]
    have hr : candidate w input s < s.ip := hroot.1
    obtain ⟨m4, _, mn, _⟩ := matchLen_bounds w input s h4 hr
    simp only [Res.sat, CInvOp, CInv, matchStep, afterMatch, List.length_set]
    exact ⟨⟨⟨by omega, by omega, trivial⟩, by omega⟩, by omega⟩
  · rw [e]
    simp only [Res.sat]
    omega

theorem cinit_inv_op (input output : List Byte) :
    CInvOp input output.length (cinit output) :=
  ⟨cinit_inv input output, by simp [cinit]⟩

theorem fcl_compress_loop_sat_op (w : Nat) (input output : List Byte) :
    (loopN (fcl_compress_body w input output.length) (input.length + 1) (cinit output)).sat
      (fun s => CInvOp input output.length s)
      (fun _ => output.length < input.length + 1) := by
  apply loopN_sat (fcl_compress_body w input output.length) (CInvOp input output.length)
    _ _ (fun s => input.length - s.ip)
  · intro s hI
    refine Res.sat_mono (fcl_compress_body_sat_op w input output.length s hI) ?_ (fun o h => h)
    intro st h
    cases st with
    | next s' => exact ⟨h.1, by have := h.2; have := h.1.1.2.1; omega⟩
    | done s' => simp only at h ⊢; rw [h]; exact hI
  · exact cinit_inv_op input output
  · simp [cinit]

theorem fcl_compress_runN_op (w : Nat) (input output : List Byte) (k : Nat) (s : CState)
    (h : runN (fcl_compress_body w input output.length) k (cinit output) = some s) :
    CInvOp input output.length s := by
  have := runN_inv (fcl_compress_body w input output.length) (CInvOp input output.length)
    (fun _ => True) (fun s => s.ip)
    (fun s hI => Res.sat_mono (fcl_compress_body_sat_op w input output.length s hI)
      (fun st h => by
        cases st with
        | next s' => exact h
        | done s' => trivial)
      (fun _ _ => trivial))
    k (cinit output) s (cinit_inv_op input output) h
  exact this.1

theorem Res.ok_or_ret1_of_sat {α : Type} {r : Res α} {P : α → Prop} {F : List Byte → Prop}
    (h : r.sat P F) : (∃ a, r = .ok a) ∨ (∃ o, r = .ret1 o) := by
  cases r with
  | ok a => exact Or.inl ⟨a, rfl⟩
  | ret1 o => exact Or.inr ⟨o, rfl⟩
  | oob => exact h.elim
  | nofuel => exact h.elim

/-- A pass of the match-extension loop that goes round again adds one to
`match_len`, and the sum is not 19. -/
theorem match_extend_body_next (input : List Byte) (ip mtch ml ml' : Nat)
    (h : match_extend_body input ip mtch ml = .ok (.next ml')) :
    ml' = ml + 1 ∧ ml' ≠ FCL_MAX_MATCH := by
  unfold match_extend_body at h
  split at h
  · cases h1 : rd input (mtch + ml) with
    | ok a =>
      cases h2 : rd input (ip + ml) with
      | ok b =>
        simp only [h1, h2, Res.ok_bind, Res.pure_eq] at h
        split at h
        · split at h
          · injection h with h; injection h
          · rename_i hne
            injection h with h; injection h with h
            subst h
            exact ⟨rfl, hne⟩
        · injection h with h; injection h
      | ret1 o => simp [h1, h2] at h
      | oob => simp [h1, h2] at h
      | nofuel => simp [h1, h2] at h
    | ret1 o => simp [h1] at h
    | oob => simp [h1] at h
    | nofuel => simp [h1] at h
  · simp only [Res.pure_eq] at h
    injection h with h; injection h

/-- A pass of the decoder loop that goes round again: the next state. -/
theorem fcl_decompress_body_next (input : List Byte) (cap : Nat) (s s' : DState)
    (hl : s.output.length = cap)
    (h : fcl_decompress_body input cap s = .ok (.next s')) :
    s.ip < input.length ∧
    s'.ip = s.ip + 1 + recLiteralLen input s + 2 ∧
    s'.op = s.op + recLiteralLen input s + recMatchLen input s := by
  by_cases hip : s.ip < input.length
  · rw [fcl_decompress_body_eq input cap s hip hl] at h
    split at h
    · injection h
    · split at h
      · injection h with h; injection h
      · split at h
        · injection h
        · split at h
          · injection h
          · injection h with h; injection h with h
            subst h
            exact ⟨hip, rfl, rfl⟩
  · unfold fcl_decompress_body at h
    simp only [hip, if_false, Res.pure_eq] at h
    injection h with h; injection h

/-- Over the natural numbers `fcl_compress` and `fcl_decompress` end within
the fuel `input_size + 1` with `return 0` or `return 1`; a pass of the scan
loop that goes round again has a pass number of at most the cursor and moves
the cursor by 1 or by a match length between 4 and 19; a pass of the
match-extension loop that goes round again adds 1 to `match_len`, and the loop
ends with a length of at most 19; a pass of the decoder loop that goes round
again moves the input position by at least 3. -/
theorem fcl_progress (w : Nat) (input output : List Byte) :
    ((∃ r, fcl_compress w input output = .ok r) ∨
      (∃ o, fcl_compress w input output = .ret1 o)) ∧
    ((∃ r, fcl_decompress input output = .ok r) ∨
      (∃ o, fcl_decompress input output = .ret1 o)) ∧
    (∀ (k : Nat) (s s' : CState),
      runN (fcl_compress_body w input output.length) k (cinit output) = some s →
      fcl_compress_body w input output.length s = .ok (.next s') →
      k ≤ s.ip ∧ k < input.length ∧
      (s'.ip = s.ip + 1 ∨ (s.ip + 4 ≤ s'.ip ∧ s'.ip ≤ s.ip + 19))) ∧
    (∀ (ip mtch ml ml' : Nat),
      match_extend_body input ip mtch ml = .ok (.next ml') →
      ml' = ml + 1 ∧ ml' ≠ FCL_MAX_MATCH) ∧
    (∀ (ip mtch : Nat), mtch < ip → ip + 4 ≤ input.length →
      ∃ ml, loopN (match_extend_body input ip mtch) (FCL_MAX_MATCH - FCL_MIN_MATCH + 1)
          FCL_MIN_MATCH = .ok ml ∧ 4 ≤ ml ∧ ml ≤ 19) ∧
    (∀ (k : Nat) (s s' : DState),
      runN (fcl_decompress_body input output.length) k (dinit output) = some s →
      fcl_decompress_body input output.length s = .ok (.next s') →
      k ≤ s.ip ∧ k < input.length ∧ s.ip + 3 ≤ s'.ip) := by
  refine ⟨Res.ok_or_ret1_of_sat (fcl_compress_sat w input output),
    Res.ok_or_ret1_of_sat (fcl_decompress_sat input output), ?_,
    fun ip mtch ml ml' h => match_extend_body_next input ip mtch ml ml' h, ?_, ?_⟩
  · intro k s s' hrun hb
    obtain ⟨hI, hk⟩ := fcl_compress_runN w input output k s hrun
    obtain ⟨h4, hcase⟩ := fcl_compress_body_next w input output.length s s' hI hb
    refine ⟨hk, by omega, ?_⟩
    rcases hcase with ⟨_, e⟩ | ⟨hroot, _, e⟩
    · subst e
      exact Or.inl rfl
    · subst e
      have hr : candidate w input s < s.ip := hroot.1
      obtain ⟨m4, m19, _, _⟩ := matchLen_bounds w input s h4 hr
      refine Or.inr ⟨?_, ?_⟩
      · show s.ip + 4 ≤ s.ip + matchLen w input s
        omega
      · show s.ip + matchLen w input s ≤ s.ip + 19
        omega
  · intro ip mtch hm hip
    obtain ⟨ml, e, m4, m19, _⟩ :=
      Res.exists_of_sat (match_extend_spec input ip mtch hm hip)
    exact ⟨ml, e, m4, m19⟩
  · intro k s s' hrun hb
    obtain ⟨hI, hk⟩ := fcl_decompress_runN input output k s hrun
    obtain ⟨hip, e, _⟩ := fcl_decompress_body_next input output.length s s' hI.2.2 hb
    exact ⟨hk, by omega, by omega⟩

theorem afterMatch_literals (ht : Nat → Nat) (ref ml : Nat) (s : CState) (i : Nat)
    (hi : i < s.ip - s.anchor) :
    (afterMatch ht ref ml s).output[s.op + 1 + i]? = s.output[s.op + 1 + i]? := by
  simp only [afterMatch, List.getElem?_set]
  have e1 : ¬ s.op + 1 + (s.ip - s.anchor) + 1 = s.op + 1 + i := by omega
  have e2 : ¬ s.op + 1 + (s.ip - s.anchor) = s.op + 1 + i := by omega
  have e3 : ¬ s.op = s.op + 1 + i := by omega
  simp only [e1, e2, e3, if_false]

/-- C13 (the code breaks it): a pass of the scan loop that emits a match record
stores the token and the distance and advances the output position by
`1 + (c - a) + 2`, but leaves the `c - a` bytes between token and distance as
they were before the pass. For six bytes `0x07` and a zeroed buffer the record
is `11 00 01 00`: index 1 holds `0x00`, not the literal `0x07`. -/
theorem fcl_match_record_literals_missing :
    (∀ (w : Nat) (input : List Byte) (s : CState),
      s.ip + 4 < input.length →
      matchRoot w input s.hash_table s.ip →
      s.op + 1 + (s.ip - s.anchor) + 2 ≤ s.output.length →
      fcl_compress_body w input s.output.length s = .ok (.next (matchStep w input s)) ∧
      (matchStep w input s).op = s.op + 1 + (s.ip - s.anchor) + 2 ∧
      (∀ i, i < s.ip - s.anchor →
        (matchStep w input s).output[s.op + 1 + i]? = s.output[s.op + 1 + i]?)) ∧
    (fcl_compress_body 64 [7, 7, 7, 7, 7, 7] 5
        (noMatchStep 64 [7, 7, 7, 7, 7, 7] (cinit [0, 0, 0, 0, 0]))
      = .ok (.next (matchStep 64 [7, 7, 7, 7, 7, 7]
          (noMatchStep 64 [7, 7, 7, 7, 7, 7] (cinit [0, 0, 0, 0, 0])))) ∧
     (matchStep 64 [7, 7, 7, 7, 7, 7]
        (noMatchStep 64 [7, 7, 7, 7, 7, 7] (cinit [0, 0, 0, 0, 0]))).output
      = [0x11, 0x00, 0x01, 0x00, 0x00] ∧
     fcl_compress 64 [7, 7, 7, 7, 7, 7] [0, 0, 0, 0, 0]
      = .ok ([0x11, 0x00, 0x01, 0x00, 0x00], 5) ∧
     ([0x11, 0x00, 0x01, 0x00, 0x00] : List Byte)[1]?
      ≠ ([7, 7, 7, 7, 7, 7] : List Byte)[0]?) := by
  refine ⟨?_, ?_, by decide, by decide, by decide⟩
  · intro w input s h4 hroot hc
    exact ⟨fcl_compress_body_match_eq w input s.output.length s rfl h4 hroot hc, rfl,
      fun i hi => afterMatch_literals _ _ _ s i hi⟩
  · exact fcl_compress_body_match_eq 64 [7, 7, 7, 7, 7, 7] 5
      (noMatchStep 64 [7, 7, 7, 7, 7, 7] (cinit [0, 0, 0, 0, 0])) rfl (by decide) (by decide)
      (by decide)

/-- C14 (the code breaks it): the final record is the token
`(unsigned char)(literal_len << 4)` followed by the remaining input bytes; the
token's low nibble is 0 and its high nibble is `literal_len mod 16`, not
`min(literal_len, 15)`. For the 17 bytes 0, 1, ..., 16 the token is `0x10`. -/
theorem fcl_final_token_truncates :
    (∀ (input : List Byte) (s : CState),
      s.anchor ≤ input.length →
      s.op + 1 + (input.length - s.anchor) ≤ s.output.length →
      ∃ (out : List Byte) (tok : Byte),
        fcl_compress_final input s.output.length s
          = .ok (out, s.op + 1 + (input.length - s.anchor)) ∧
        out[s.op]? = some tok ∧ tok.val &&& 15 = 0 ∧
        tok.val >>> 4 = (input.length - s.anchor) % 16 ∧
        (∀ i, i < input.length - s.anchor → out[s.op + 1 + i]? = input[s.anchor + i]?)) ∧
    (fcl_compress 64 [0, 1, 2, 3, 4, 5, 6, 7, 8, 9, 10, 11, 12, 13, 14, 15, 16]
        (List.replicate 18 0)
      = .ok ([0x10, 0, 1, 2, 3, 4, 5, 6, 7, 8, 9, 10, 11, 12, 13, 14, 15, 16], 18) ∧
     (0x10 : Byte).val >>> 4 ≠ min 17 15) := by
  refine ⟨?_, by decide, by decide⟩
  intro input s ha hc
  refine ⟨_, toByte ((input.length - s.anchor) <<< 4),
    fcl_compress_final_eq input s.output.length s ha rfl hc, ?_, ?_, ?_, ?_⟩
  · rw [copyN_getElem?_outside _ _ _ _ _ (by simp; omega) (Or.inl (by omega))]
    rw [List.getElem?_set]
    have : s.op < s.output.length := by omega
    simp [this]
  · exact (token_nibbles _).1
  · rw [toByte_val, Nat.shiftLeft_eq, Nat.shiftRight_eq_div_pow]
    omega
  · intro i hi
    rw [copyN_input_getElem? input s.anchor (s.op + 1) _ _ _ (by simp; omega) (by omega)
      (by omega)]
    congr 1
    omega

/-- C16: an input whose length is a positive multiple of 16 and on which the
encoder finds no match compresses (capacity at least `n + 1`) to the token
`0x00` followed by the input; the decoder reads literal length 0 from that
token, takes the first two input bytes as a distance field at output position
0, and returns 1 with its output buffer untouched. -/
theorem fcl_literal_run_boundary (w : Nat) (X output dout : List Byte)
    (hpos : 0 < X.length) (hmul : X.length % 16 = 0) (hno : NoMatch w X)
    (hcap : X.length + 1 ≤ output.length) :
    ∃ out : List Byte,
      fcl_compress w X output = .ok (out, X.length + 1) ∧
      out.take (X.length + 1) = 0x00 :: X ∧
      recLiteralLen (0x00 :: X) (dinit dout) = 0 ∧
      recOffset (0x00 :: X) (dinit dout) = (X.getD 0 0).val ||| ((X.getD 1 0).val <<< 8) ∧
      (dinit dout).op = 0 ∧
      fcl_decompress (out.take (X.length + 1)) dout = .ret1 dout := by
  have htok : toByte (X.length <<< 4) = 0x00 := by
    apply Fin.ext
    rw [toByte_val, Nat.shiftLeft_eq]
    show X.length * 2 ^ 4 % 256 = 0
    omega
  have htake : (toByte (X.length <<< 4) :: (X ++ output.drop (X.length + 1))).take
      (X.length + 1) = 0x00 :: X := by
    rw [htok, List.take_succ_cons, List.take_left']
    rfl
  have hL : recLiteralLen (0x00 :: X) (dinit dout) = 0 := by
    simp [recLiteralLen, dinit]
  have hO : recOffset (0x00 :: X) (dinit dout)
      = (X.getD 0 0).val ||| ((X.getD 1 0).val <<< 8) := by
    simp [recOffset, recLiteralLen, dinit]
  refine ⟨_, fcl_compress_nomatch_eq w X output hno hcap, htake, hL, hO, rfl, ?_⟩
  rw [htake]
  apply fcl_decompress_ret1_at (0x00 :: X) dout 0 (dinit dout) _ rfl
  rw [fcl_decompress_body_eq (0x00 :: X) dout.length (dinit dout)
    (by simp [dinit]) rfl]
  have hlen : (0x00 :: X).length = X.length + 1 := rfl
  have hop : (dinit dout).op = 0 := rfl
  have hip : (dinit dout).ip = 0 := rfl
  have g1 : ¬ ((dinit dout).ip + 1 + recLiteralLen (0x00 :: X) (dinit dout)
      > (0x00 :: X).length ∨
      (dinit dout).op + recLiteralLen (0x00 :: X) (dinit dout) > dout.length) := by
    rw [hL, hlen, hop, hip]; omega
  have g2 : ¬ ((dinit dout).ip + 1 + recLiteralLen (0x00 :: X) (dinit dout)
      ≥ (0x00 :: X).length) := by
    rw [hL, hlen, hip]; omega
  have g3 : ¬ ((dinit dout).ip + 1 + recLiteralLen (0x00 :: X) (dinit dout) + 2
      > (0x00 :: X).length) := by
    rw [hL, hlen, hip]; omega
  have g4 : recOffset (0x00 :: X) (dinit dout) = 0 ∨
      recOffset (0x00 :: X) (dinit dout) >
        (dinit dout).op + recLiteralLen (0x00 :: X) (dinit dout) ∨
      (dinit dout).op + recLiteralLen (0x00 :: X) (dinit dout)
        + recMatchLen (0x00 :: X) (dinit dout) > dout.length := by
    rw [hL, hop]; omega
  simp only [g1, g2, g3, if_false, g4, if_true]
  simp only [recLiterals, hL, copyN]
  rfl

/-- Instance of C16: the sixteen bytes 0, 1, ..., 15. -/
theorem fcl_literal_run_boundary_witness :
    ∃ out : List Byte,
      fcl_compress 64 [0, 1, 2, 3, 4, 5, 6, 7, 8, 9, 10, 11, 12, 13, 14, 15]
        (List.replicate 17 0xAA) = .ok (out, 16 + 1) ∧
      out.take (16 + 1) = 0x00 :: [0, 1, 2, 3, 4, 5, 6, 7, 8, 9, 10, 11, 12, 13, 14, 15] ∧
      recLiteralLen (0x00 :: [0, 1, 2, 3, 4, 5, 6, 7, 8, 9, 10, 11, 12, 13, 14, 15])
        (dinit (List.replicate 16 0xBB)) = 0 ∧
      recOffset (0x00 :: [0, 1, 2, 3, 4, 5, 6, 7, 8, 9, 10, 11, 12, 13, 14, 15])
        (dinit (List.replicate 16 0xBB)) = 0 ||| (1 <<< 8) ∧
      (dinit (List.replicate 16 0xBB)).op = 0 ∧
      fcl_decompress (out.take (16 + 1)) (List.replicate 16 0xBB)
        = .ret1 (List.replicate 16 0xBB) :=
  fcl_literal_run_boundary 64 [0, 1, 2, 3, 4, 5, 6, 7, 8, 9, 10, 11, 12, 13, 14, 15]
    (List.replicate 17 0xAA) (List.replicate 16 0xBB) (by decide) (by decide)
    (by
      intro k hk
      have hk' : k < 12 := by simp at hk; omega
      interval_cases k <;> decide)
    (by decide)

theorem getD_of_getElem? {l : List Byte} {i : Nat} {b : Byte} (h : l[i]? = some b) :
    l.getD i 0 = b := by
  simp [List.getD_eq_getElem?_getD, h]

theorem afterMatch_below (ht : Nat → Nat) (ref ml : Nat) (s : CState) (j : Nat)
    (hj : j < s.op) : (afterMatch ht ref ml s).output[j]? = s.output[j]? := by
  simp only [afterMatch, List.getElem?_set]
  have e1 : ¬ s.op + 1 + (s.ip - s.anchor) + 1 = j := by omega
  have e2 : ¬ s.op + 1 + (s.ip - s.anchor) = j := by omega
  have e3 : ¬ s.op = j := by omega
  simp only [e1, e2, e3, if_false]

/-- The rest of the scan loop keeps the invariant and leaves the output below
the output position as it is. -/
theorem enc_frame (w : Nat) (X : List Byte) (cap : Nat) (Elast : CState) :
    ∀ (fuel : Nat) (E : CState), CInv X cap E →
      loopN (fcl_compress_body w X cap) fuel E = .ok Elast →
      CInv X cap Elast ∧ E.op ≤ Elast.op ∧
      ∀ j, j < E.op → Elast.output[j]? = E.output[j]? := by
  intro fuel
  induction fuel with
  | zero => intro E _ h; simp [loopN] at h
  | succ f ih =>
    intro E hI h
    have hl := hI.2.2
    have hs := fcl_compress_body_sat w X cap E hI
    have hc := fcl_compress_body_cases w X E
    rw [hl] at hc
    rcases hc with ⟨_, e⟩ | ⟨_, _, e⟩ | ⟨_, _, hroom, e⟩ | ⟨_, _, _, e⟩
    · rw [loopN_done _ _ _ _ e] at h
      injection h with h
      subst h
      exact ⟨hI, Nat.le_refl _, fun _ _ => rfl⟩
    · rw [loopN_next _ _ _ _ e] at h
      rw [e] at hs
      exact ih (noMatchStep w X E) hs.1 h
    · rw [loopN_next _ _ _ _ e] at h
      rw [e] at hs
      obtain ⟨h1, h2, h3⟩ := ih (matchStep w X E) hs.1 h
      have hop : (matchStep w X E).op = E.op + 1 + (E.ip - E.anchor) + 2 := rfl
      refine ⟨h1, by omega, fun j hj => ?_⟩
      rw [h3 j (by omega)]
      exact afterMatch_below _ _ _ E j hj
    · simp [loopN, e] at h

/-- Layout of the final record when `fcl_compress_final` succeeds. -/
theorem fcl_compress_final_ok (X : List Byte) (cap : Nat) (s : CState) (out : List Byte)
    (size : Nat) (ha : s.anchor ≤ X.length) (hl : s.output.length = cap)
    (h : fcl_compress_final X cap s = .ok (out, size)) :
    size = s.op + 1 + (X.length - s.anchor) ∧ size ≤ cap ∧ out.length = cap ∧
    out[s.op]? = some (toByte ((X.length - s.anchor) <<< 4)) ∧
    ∀ j, j < s.op → out[j]? = s.output[j]? := by
  by_cases hc : s.op + 1 + (X.length - s.anchor) ≤ cap
  · rw [fcl_compress_final_eq X cap s ha hl hc] at h
    injection h with h
    injection h with h1 h2
    subst h1
    subst h2
    refine ⟨rfl, hc, by simp [hl], ?_, ?_⟩
    · rw [copyN_getElem?_outside _ _ _ _ _ (by simp; omega) (Or.inl (by omega))]
      rw [List.getElem?_set]
      have : s.op < s.output.length := by omega
      simp [this]
    · intro j hj
      rw [copyN_getElem?_outside _ _ _ _ _ (by simp; omega) (Or.inl (by omega))]
      rw [List.getElem?_set]
      have : ¬ s.op = j := by omega
      simp [this]
  · unfold fcl_compress_final at h
    have hc' : s.op + 1 + (X.length - s.anchor) > cap := by omega
    simp only [hc', if_true] at h
    injection h

/-- The decoder's pass over a match record with `lit ≤ 15` literals, match
length `ml` and distance `d`. -/
theorem dec_match_record (stream : List Byte) (dcap : Nat) (D : DState) (lit ml d : Nat)
    (hl : D.output.length = dcap)
    (htok : stream[D.ip]? = some (matchToken lit ml))
    (hlit : lit ≤ 15) (m4 : 4 ≤ ml) (m19 : ml ≤ 19)
    (hlo : stream[D.ip + 1 + lit]? = some (toByte d))
    (hhi : stream[D.ip + 1 + lit + 1]? = some (toByte (d >>> 8)))
    (hd1 : 1 ≤ d) (hd2 : d ≤ 65535) (hd3 : d ≤ D.op + lit)
    (hroom : D.op + lit + ml ≤ dcap)
    (hlen : D.ip + 1 + lit + 2 ≤ stream.length) :
    recLiteralLen stream D = lit ∧ recMatchLen stream D = ml ∧ recOffset stream D = d ∧
    ∃ D' : DState, fcl_decompress_body stream dcap D = .ok (.next D') ∧
      D'.ip = D.ip + 1 + lit + 2 ∧ D'.op = D.op + lit + ml ∧ D'.output.length = dcap := by
  have hn := matchToken_nibbles lit ml m4 m19
  have hL : recLiteralLen stream D = lit := by
    unfold recLiteralLen
    rw [getD_of_getElem? htok, hn.2]
    omega
  have hM : recMatchLen stream D = ml := by
    unfold recMatchLen
    rw [getD_of_getElem? htok]
    have := hn.1
    show ((matchToken lit ml).val &&& 15) + 4 = ml
    omega
  have hO : recOffset stream D = d := by
    unfold recOffset
    rw [hL, getD_of_getElem? hlo, getD_of_getElem? hhi]
    exact (toByte_u16 d hd2).2
  refine ⟨hL, hM, hO, ?_⟩
  rw [fcl_decompress_body_eq stream dcap D (by omega) hl, hL, hM, hO]
  have g1 : ¬ (D.ip + 1 + lit > stream.length ∨ D.op + lit > dcap) := by omega
  have g2 : ¬ (D.ip + 1 + lit ≥ stream.length) := by omega
  have g3 : ¬ (D.ip + 1 + lit + 2 > stream.length) := by omega
  have g4 : ¬ (d = 0 ∨ d > D.op + lit ∨ D.op + lit + ml > dcap) := by omega
  simp only [g1, g2, g3, g4, if_false]
  refine ⟨_, rfl, rfl, rfl, ?_⟩
  simp [recLiterals, hl]

/-- The decoder's pass over the final record with `lit ≤ 15` literals. -/
theorem dec_final_record (stream : List Byte) (dcap : Nat) (D : DState) (lit : Nat)
    (hl : D.output.length = dcap)
    (htok : stream[D.ip]? = some (toByte (lit <<< 4)))
    (hlit : lit ≤ 15) (hroom : D.op + lit ≤ dcap)
    (hlen : D.ip + 1 + lit = stream.length) :
    ∃ Df : DState, fcl_decompress_body stream dcap D = .ok (.done Df) ∧
      Df.ip = stream.length ∧ Df.op = D.op + lit := by
  have hL : recLiteralLen stream D = lit := by
    unfold recLiteralLen
    rw [getD_of_getElem? htok]
    exact (token_nibbles lit).2 hlit
  rw [fcl_decompress_body_eq stream dcap D (by omega) hl, hL]
  have g1 : ¬ (D.ip + 1 + lit > stream.length ∨ D.op + lit > dcap) := by omega
  have g2 : D.ip + 1 + lit ≥ stream.length := by omega
  simp only [g1, g2, if_false, if_true]
  exact ⟨_, rfl, hlen, rfl⟩

/-- The decoder follows the encoder: from a decoder state at the start of the
record the encoder emits next, the decoder's loop reaches the end of the stream
with the output position at the input size. -/
theorem token_sim (w : Nat) (X : List Byte) (cap : Nat) (out : List Byte) (size dcap : Nat)
    (Elast : CState) (hfin : fcl_compress_final X cap Elast = .ok (out, size))
    (hdcap : X.length ≤ dcap) :
    ∀ (fuel : Nat) (E : CState) (D : DState), CInv X cap E →
      litRunsOk w X cap fuel E = true →
      loopN (fcl_compress_body w X cap) fuel E = .ok Elast →
      D.ip = E.op → D.op = E.anchor → D.output.length = dcap →
      ∃ (j : Nat) (Dl Df : DState),
        runN (fcl_decompress_body (out.take size) dcap) j D = some Dl ∧
        fcl_decompress_body (out.take size) dcap Dl = .ok (.done Df) ∧
        Df.op = X.length ∧ Df.ip = size := by
  intro fuel
  induction fuel with
  | zero => intro E D _ _ h; simp [loopN] at h
  | succ f ih =>
    intro E D hI hruns h hD1 hD2 hD3
    obtain ⟨hIl, hfr1, hfr2⟩ := enc_frame w X cap Elast (f + 1) E hI h
    obtain ⟨hsize, hsc, holen, hotok, hobelow⟩ :=
      fcl_compress_final_ok X cap Elast out size (by have := hIl.1; have := hIl.2.1; omega)
        hIl.2.2 hfin
    have hslen : (out.take size).length = size := by
      rw [List.length_take]; omega
    have hsget : ∀ j, j < size → (out.take size)[j]? = out[j]? := by
      intro j hj
      rw [List.getElem?_take]
      simp only [hj, if_true]
    have hl := hI.2.2
    have hs := fcl_compress_body_sat w X cap E hI
    have hc := fcl_compress_body_cases w X E
    rw [hl] at hc
    rcases hc with ⟨h4, e⟩ | ⟨_, hno, e⟩ | ⟨h4, hroot, hroom, e⟩ | ⟨_, _, _, e⟩
    · rw [loopN_done _ _ _ _ e] at h
      injection h with h
      subst h
      simp only [litRunsOk, e, decide_eq_true_eq] at hruns
      obtain ⟨Df, hb, hip, hop⟩ := dec_final_record (out.take size) dcap D
        (X.length - E.anchor) hD3
        (by rw [hD1, hsget _ (by omega)]; exact hotok) hruns
        (by have := hI.1; have := hI.2.1; omega) (by rw [hslen, hD1]; omega)
      refine ⟨0, D, Df, rfl, hb, ?_, ?_⟩
      · have := hI.1; have := hI.2.1; omega
      · rw [hip, hslen]
    · rw [loopN_next _ _ _ _ e] at h
      rw [e] at hs
      simp only [litRunsOk, e, hno, if_false, Bool.true_and] at hruns
      exact ih (noMatchStep w X E) D hs.1 hruns h hD1 hD2 hD3
    · rw [loopN_next _ _ _ _ e] at h
      rw [e] at hs
      simp only [litRunsOk, e, hroot, if_true, Bool.and_eq_true, decide_eq_true_eq] at hruns
      obtain ⟨hlit, hruns'⟩ := hruns
      obtain ⟨_, hfr1', hfr2'⟩ := enc_frame w X cap Elast f (matchStep w X E) hs.1 h
      have hop : (matchStep w X E).op = E.op + 1 + (E.ip - E.anchor) + 2 := rfl
      have hr : candidate w X E < E.ip := hroot.1
      have hd : E.ip - candidate w X E ≤ 65535 := hroot.2.1
      obtain ⟨m4, m19, mn, _⟩ := matchLen_bounds w X E h4 hr
      have hbyte : ∀ j, j < (matchStep w X E).op →
          (out.take size)[j]? = (matchStep w X E).output[j]? := by
        intro j hj
        rw [hsget j (by omega), hobelow j (by omega), hfr2' j hj]
      have hroom' : E.op + 1 + (E.ip - E.anchor) + 2 ≤ E.output.length := by omega
      obtain ⟨_, _, _, D', hb, hip', hop', hlen'⟩ := dec_match_record (out.take size) dcap D
        (E.ip - E.anchor) (matchLen w X E) (E.ip - candidate w X E) hD3
        (by rw [hD1, hbyte _ (by omega)]; exact afterMatch_token _ _ _ E hroom')
        hlit m4 m19
        (by rw [hD1, hbyte _ (by omega)]; exact (afterMatch_distance _ _ _ E hroom').1)
        (by rw [hD1, hbyte _ (by omega)]; exact (afterMatch_distance _ _ _ E hroom').2)
        (by omega) hd (by have := hI.1; omega) (by have := hI.1; omega)
        (by rw [hslen, hD1]; omega)
      obtain ⟨j, Dl, Df, hrun, hdone, hfo, hfi⟩ := ih (matchStep w X E) D' hs.1 hruns' h
        (by rw [hip', hD1, hop])
        (by
          rw [hop', hD2]
          show _ = E.ip + matchLen w X E
          have := hI.1
          omega) hlen'
      refine ⟨j + 1, Dl, Df, ?_, hdone, hfo, hfi⟩
      simp only [runN, hb]
      exact hrun
    · simp [loopN, e] at h

theorem runN_succ_inv {σ : Type} (body : σ → Res (Step σ)) :
    ∀ k s0 s', runN body (k + 1) s0 = some s' →
      ∃ s, runN body k s0 = some s ∧ body s = .ok (.next s') := by
  intro k
  induction k with
  | zero =>
    intro s0 s' h
    unfold runN at h
    cases hb : body s0 with
    | ok st =>
      rw [hb] at h
      cases st with
      | next s1 =>
        simp only [runN] at h
        injection h with h
        subst h
        exact ⟨s0, rfl, hb⟩
      | done s1 => simp at h
    | ret1 o => rw [hb] at h; simp at h
    | oob => rw [hb] at h; simp at h
    | nofuel => rw [hb] at h; simp at h
  | succ k ih =>
    intro s0 s' h
    rw [runN] at h
    cases hb : body s0 with
    | ok st =>
      rw [hb] at h
      cases st with
      | next s1 =>
        obtain ⟨s, h1, h2⟩ := ih s1 s' h
        refine ⟨s, ?_, h2⟩
        rw [runN]
        simp only [hb]
        exact h1
      | done s1 => simp at h
    | ret1 o => rw [hb] at h; simp at h
    | oob => rw [hb] at h; simp at h
    | nofuel => rw [hb] at h; simp at h

theorem litRunsOk_runN (w : Nat) (X : List Byte) (cap : Nat) :
    ∀ (k : Nat) (s0 E : CState) (f : Nat),
      runN (fcl_compress_body w X cap) k s0 = some E →
      litRunsOk w X cap (k + f) s0 = true → litRunsOk w X cap f E = true := by
  intro k
  induction k with
  | zero =>
    intro s0 E f h hr
    simp only [runN] at h
    injection h with h
    subst h
    simpa using hr
  | succ k ih =>
    intro s0 E f h hr
    have e : k + 1 + f = (k + f) + 1 := by omega
    rw [e] at hr
    rw [runN] at h
    cases hb : fcl_compress_body w X cap s0 with
    | ok st =>
      rw [hb] at h
      cases st with
      | next s1 =>
        simp only [litRunsOk, hb, Bool.and_eq_true] at hr
        exact ih s1 E f h hr.2
      | done s1 => simp at h
    | ret1 o => rw [hb] at h; simp at h
    | oob => rw [hb] at h; simp at h
    | nofuel => rw [hb] at h; simp at h

/-- At a state of the encoder's run where a match is taken, a decoder state at
the start of the record reads the record as the encoder wrote it. -/
theorem dec_at_match (w : Nat) (X output dout out : List Byte) (size : Nat) (Elast : CState)
    (hruns : LitRunsOk w X output)
    (hloop : loopN (fcl_compress_body w X output.length) (X.length + 1) (cinit output)
      = .ok Elast)
    (hfin : fcl_compress_final X output.length Elast = .ok (out, size))
    (hd : X.length ≤ dout.length)
    (k : Nat) (E : CState) (D : DState)
    (hrun : runN (fcl_compress_body w X output.length) k (cinit output) = some E)
    (h4 : E.ip + 4 < X.length) (hroot : matchRoot w X E.hash_table E.ip)
    (hD1 : D.ip = E.op) (hD2 : D.op = E.anchor) (hD3 : D.output.length = dout.length) :
    fcl_compress_body w X output.length E = .ok (.next (matchStep w X E)) ∧
    recLiteralLen (out.take size) D = E.ip - E.anchor ∧
    D.op + recLiteralLen (out.take size) D = E.ip ∧
    recMatchLen (out.take size) D = matchLen w X E ∧
    recOffset (out.take size) D = E.ip - candidate w X E ∧
    1 ≤ recOffset (out.take size) D ∧
    recOffset (out.take size) D ≤ D.op + recLiteralLen (out.take size) D ∧
    ∃ D' : DState, fcl_decompress_body (out.take size) dout.length D = .ok (.next D') ∧
      D'.ip = (matchStep w X E).op ∧ D'.op = (matchStep w X E).anchor ∧
      D'.output.length = dout.length := by
  obtain ⟨hI, hk⟩ := fcl_compress_runN w X output k E hrun
  have hl := hI.2.2
  have hn := hI.2.1
  have ha := hI.1
  -- the pass at `E` emits a record
  have hc := fcl_compress_body_cases w X E
  rw [hl] at hc
  have hrk : litRunsOk w X output.length ((X.length - k) + 1) E = true :=
    litRunsOk_runN w X output.length k (cinit output) E _ hrun
      (by
        have e : k + ((X.length - k) + 1) = X.length + 1 := by omega
        rw [e]; exact hruns)
  have hlk : loopN (fcl_compress_body w X output.length) ((X.length - k) + 1) E
      = .ok Elast := by
    rw [← loopN_runN _ k (cinit output) E hrun]
    have e : k + ((X.length - k) + 1) = X.length + 1 := by omega
    rw [e]; exact hloop
  rcases hc with ⟨h4', _⟩ | ⟨_, hno, _⟩ | ⟨_, _, hroom, e⟩ | ⟨_, _, _, e⟩
  · exact absurd h4 h4'
  · exact absurd hroot hno
  · have hs := fcl_compress_body_sat w X output.length E hI
    rw [e] at hs
    rw [loopN_next _ _ _ _ e] at hlk
    simp only [litRunsOk, e, hroot, if_true, Bool.and_eq_true, decide_eq_true_eq] at hrk
    obtain ⟨hIl, hfr1, hfr2⟩ :=
      enc_frame w X output.length Elast _ (matchStep w X E) hs.1 hlk
    obtain ⟨hsize, hsc, holen, _, hobelow⟩ :=
      fcl_compress_final_ok X output.length Elast out size
        (by have := hIl.1; have := hIl.2.1; omega) hIl.2.2 hfin
    have hslen : (out.take size).length = size := by
      rw [List.length_take]; omega
    have hop : (matchStep w X E).op = E.op + 1 + (E.ip - E.anchor) + 2 := rfl
    have hbyte : ∀ j, j < (matchStep w X E).op →
        (out.take size)[j]? = (matchStep w X E).output[j]? := by
      intro j hj
      rw [List.getElem?_take]
      have hj' : j < size := by omega
      simp only [hj', if_true]
      rw [hobelow j (by omega), hfr2 j hj]
    have hr : candidate w X E < E.ip := hroot.1
    have hdist : E.ip - candidate w X E ≤ 65535 := hroot.2.1
    obtain ⟨m4, m19, mn, _⟩ := matchLen_bounds w X E h4 hr
    have hroom' : E.op + 1 + (E.ip - E.anchor) + 2 ≤ E.output.length := by omega
    obtain ⟨hL, hM, hO, D', hb, hip', hop', hlen'⟩ :=
      dec_match_record (out.take size) dout.length D
        (E.ip - E.anchor) (matchLen w X E) (E.ip - candidate w X E) hD3
        (by rw [hD1, hbyte _ (by omega)]; exact afterMatch_token _ _ _ E hroom')
        hrk.1 m4 m19
        (by rw [hD1, hbyte _ (by omega)]; exact (afterMatch_distance _ _ _ E hroom').1)
        (by rw [hD1, hbyte _ (by omega)]; exact (afterMatch_distance _ _ _ E hroom').2)
        (by omega) hdist (by omega) (by omega) (by rw [hslen, hD1]; omega)
    refine ⟨e, hL, by rw [hL, hD2]; omega, hM, hO, by rw [hO]; omega,
      by rw [hO, hL, hD2]; omega, D', hb, by rw [hip', hD1, hop], ?_, hlen'⟩
    rw [hop', hD2]
    show _ = E.ip + matchLen w X E
    omega
  · rw [loopN, e] at hlk
    injection hlk

/-- The decoder's run keeps pace with the encoder's: to every state of the
encoder's scan loop corresponds a state of the decoder's loop whose input
position is the encoder's output position and whose output position is the
encoder's anchor. -/
theorem fwd_sim (w : Nat) (X output dout out : List Byte) (size : Nat) (Elast : CState)
    (hruns : LitRunsOk w X output)
    (hloop : loopN (fcl_compress_body w X output.length) (X.length + 1) (cinit output)
      = .ok Elast)
    (hfin : fcl_compress_final X output.length Elast = .ok (out, size))
    (hd : X.length ≤ dout.length) :
    ∀ (k : Nat) (E : CState),
      runN (fcl_compress_body w X output.length) k (cinit output) = some E →
      ∃ (j : Nat) (D : DState),
        runN (fcl_decompress_body (out.take size) dout.length) j (dinit dout) = some D ∧
        D.ip = E.op ∧ D.op = E.anchor ∧ D.output.length = dout.length := by
  intro k
  induction k with
  | zero =>
    intro E h
    simp only [runN] at h
    injection h with h
    subst h
    exact ⟨0, dinit dout, rfl, rfl, rfl, rfl⟩
  | succ k ih =>
    intro E' h
    obtain ⟨E, hrun, hb⟩ := runN_succ_inv _ k (cinit output) E' h
    obtain ⟨j, D, hdrun, hD1, hD2, hD3⟩ := ih E hrun
    obtain ⟨hI, _⟩ := fcl_compress_runN w X output k E hrun
    obtain ⟨h4, hcase⟩ := fcl_compress_body_next w X output.length E E' hI hb
    rcases hcase with ⟨_, e⟩ | ⟨hroot, _, e⟩
    · subst e
      exact ⟨j, D, hdrun, hD1, hD2, hD3⟩
    · subst e
      obtain ⟨_, _, _, _, _, _, _, D', hdb, h1, h2, h3⟩ :=
        dec_at_match w X output dout out size Elast hruns hloop hfin hd k E D hrun h4 hroot
          hD1 hD2 hD3
      exact ⟨j + 1, D', runN_succ_right _ j _ D D' hdrun hdb, h1, h2, h3⟩

/-- C18: when no literal run of the encoding of `X` is longer than 15 bytes and
`fcl_compress` produced the stream `out[0 .. size)`, `fcl_decompress` of that
stream into a buffer of at least `len(X)` bytes returns 0 with size `len(X)`,
whatever both output buffers held before. At every match the encoder takes, the
decoder stands at the start of the record, its output position after the
literals is the encoder's cursor, and the distance it reads is the encoder's,
between 1 and that position; the decoder's loop ends with its input position at
the end of the stream. -/
theorem fcl_token_accounting (w : Nat) (X output dout out : List Byte) (size : Nat)
    (hruns : LitRunsOk w X output)
    (henc : fcl_compress w X output = .ok (out, size))
    (hd : X.length ≤ dout.length) :
    (∃ dres : List Byte, fcl_decompress (out.take size) dout = .ok (dres, X.length)) ∧
    (∀ (k : Nat) (E : CState),
      runN (fcl_compress_body w X output.length) k (cinit output) = some E →
      E.ip + 4 < X.length → matchRoot w X E.hash_table E.ip →
      ∃ (j : Nat) (D : DState),
        runN (fcl_decompress_body (out.take size) dout.length) j (dinit dout) = some D ∧
        D.ip = E.op ∧
        D.op + recLiteralLen (out.take size) D = E.ip ∧
        recOffset (out.take size) D = E.ip - candidate w X E ∧
        1 ≤ recOffset (out.take size) D ∧
        recOffset (out.take size) D ≤ D.op + recLiteralLen (out.take size) D) ∧
    (∃ (j : Nat) (Dl Df : DState),
      runN (fcl_decompress_body (out.take size) dout.length) j (dinit dout) = some Dl ∧
      fcl_decompress_body (out.take size) dout.length Dl = .ok (.done Df) ∧
      Df.ip = size ∧ (out.take size).length = size ∧ Df.op = X.length) := by
  rw [fcl_compress_unfold] at henc
  cases hloop : loopN (fcl_compress_body w X output.length) (X.length + 1) (cinit output) with
  | ok Elast =>
    rw [hloop] at henc
    simp only [Res.ok_bind] at henc
    obtain ⟨hIl, _, _⟩ := enc_frame w X output.length Elast _ (cinit output)
      (cinit_inv X output) hloop
    obtain ⟨_, hsc, holen, _, _⟩ := fcl_compress_final_ok X output.length Elast out size
      (by have := hIl.1; have := hIl.2.1; omega) hIl.2.2 henc
    have hslen : (out.take size).length = size := by
      rw [List.length_take]; omega
    obtain ⟨j, Dl, Df, hrun, hdone, hfo, hfi⟩ :=
      token_sim w X output.length out size dout.length Elast henc hd (X.length + 1)
        (cinit output) (dinit dout) (cinit_inv X output) hruns hloop rfl rfl rfl
    refine ⟨⟨Df.output, ?_⟩, ?_, ⟨j, Dl, Df, hrun, hdone, hfi, hslen, hfo⟩⟩
    · obtain ⟨hDI, hj⟩ := fcl_decompress_runN (out.take size) dout j Dl hrun
      have hle := hDI.1
      rw [fcl_decompress_unfold]
      have e : (out.take size).length + 1
          = j + (((out.take size).length - j) + 1) := by omega
      rw [e, loopN_runN _ j _ _ hrun, loopN_done _ _ _ _ hdone]
      simp only [Res.ok_bind, Res.pure_eq, hfo]
    · intro k E hrunE h4 hroot
      obtain ⟨j', D, hdrun, hD1, hD2, hD3⟩ :=
        fwd_sim w X output dout out size Elast hruns hloop henc hd k E hrunE
      obtain ⟨_, _, hcur, _, hO, hO1, hO2, _⟩ :=
        dec_at_match w X output dout out size Elast hruns hloop henc hd k E D hrunE h4 hroot
          hD1 hD2 hD3
      exact ⟨j', D, hdrun, hD1, hcur, hO, hO1, hO2⟩
  | ret1 o => rw [hloop] at henc; simp at henc
  | oob => rw [hloop] at henc; simp at henc
  | nofuel => rw [hloop] at henc; simp at henc

/-- Instance of C18: forty bytes `0x07` compressed into a 9-byte buffer of
`0xAA` and decoded into a 40-byte buffer. -/
theorem fcl_token_accounting_witness :
    ∃ dres : List Byte,
      fcl_decompress (List.take 9 [0x1F, 0xAA, 1, 0, 0x0F, 19, 0, 0x10, 7])
        (List.replicate 40 0) = .ok (dres, (List.replicate 40 (7 : Byte)).length) :=
  (fcl_token_accounting 64 (List.replicate 40 7) (List.replicate 9 0xAA)
    (List.replicate 40 0) [0x1F, 0xAA, 1, 0, 0x0F, 19, 0, 0x10, 7] 9
    (by unfold LitRunsOk; decide) (by decide) (by decide)).1

/-- A pass of the scan loop that goes round again stores the cursor, cut to 16
bits, in the slot of the four bytes at the cursor and leaves the other slots
alone. -/
theorem fcl_compress_body_table (w : Nat) (input : List Byte) (cap : Nat) (s s' : CState)
    (hI : CInv input cap s) (h : fcl_compress_body w input cap s = .ok (.next s')) :
    s'.hash_table = tableAfter w input s := by
  obtain ⟨_, hcase⟩ := fcl_compress_body_next w input cap s s' hI h
  rcases hcase with ⟨_, e⟩ | ⟨_, _, e⟩
  · subst e; rfl
  · subst e; rfl

/-- With a capacity of at least `input_size + 1` a pass at a cursor with
`ip + 4 < input_size` goes round again and moves the cursor by at most 19. -/
theorem fcl_compress_progress (w : Nat) (input output : List Byte)
    (hcap : input.length + 1 ≤ output.length) (k : Nat) (s : CState)
    (hrun : runN (fcl_compress_body w input output.length) k (cinit output) = some s)
    (h4 : s.ip + 4 < input.length) :
    ∃ s', fcl_compress_body w input output.length s = .ok (.next s') ∧
      s'.ip ≤ s.ip + 19 ∧
      runN (fcl_compress_body w input output.length) (k + 1) (cinit output) = some s' := by
  obtain ⟨⟨ha, hn, hl⟩, hop⟩ := fcl_compress_runN_op w input output k s hrun
  have hc := fcl_compress_body_cases w input s
  rw [hl] at hc
  rcases hc with ⟨h4', _⟩ | ⟨_, _, e⟩ | ⟨_, hroot, _, e⟩ | ⟨_, _, hroom, _⟩
  · exact absurd h4 h4'
  · exact ⟨_, e, by show s.ip + 1 ≤ s.ip + 19; omega, runN_succ_right _ k _ s _ hrun e⟩
  · have hr : candidate w input s < s.ip := hroot.1
    obtain ⟨_, m19, _, _⟩ := matchLen_bounds w input s h4 hr
    exact ⟨_, e, by show s.ip + matchLen w input s ≤ s.ip + 19; omega,
      runN_succ_right _ k _ s _ hrun e⟩
  · omega

/-- On an input of at least 65559 bytes, with enough capacity, the scan loop
visits a cursor of 65536 or more. -/
theorem exists_far_cursor (w : Nat) (input output : List Byte)
    (hn : 65559 ≤ input.length) (hcap : input.length + 1 ≤ output.length) :
    ∃ (k : Nat) (s s' : CState),
      runN (fcl_compress_body w input output.length) k (cinit output) = some s ∧
      fcl_compress_body w input output.length s = .ok (.next s') ∧ 65536 ≤ s.ip := by
  have key : ∀ m : Nat,
      (∃ (k : Nat) (s s' : CState),
        runN (fcl_compress_body w input output.length) k (cinit output) = some s ∧
        fcl_compress_body w input output.length s = .ok (.next s') ∧ 65536 ≤ s.ip) ∨
      (∃ s : CState,
        runN (fcl_compress_body w input output.length) m (cinit output) = some s ∧
        s.ip ≤ 65535) := by
    intro m
    induction m with
    | zero => exact Or.inr ⟨cinit output, rfl, by simp [cinit]⟩
    | succ m ih =>
      rcases ih with h | ⟨s, hrun, hs⟩
      · exact Or.inl h
      · obtain ⟨s', _, hip, hrun'⟩ :=
          fcl_compress_progress w input output hcap m s hrun (by omega)
        by_cases hfar : s'.ip ≤ 65535
        · exact Or.inr ⟨s', hrun', hfar⟩
        · obtain ⟨s'', hb', _, _⟩ :=
            fcl_compress_progress w input output hcap (m + 1) s' hrun' (by omega)
          exact Or.inl ⟨m + 1, s', s'', hrun', hb', by omega⟩
  rcases key 65536 with h | ⟨s, hrun, hs⟩
  · exact h
  · have := (fcl_compress_runN w input output 65536 s hrun).2
    omega

/-- C20 (as stated, fails): on 65559 zero bytes (capacity 65560) the scan loop
visits a cursor `p ≥ 65536`, and right after that pass the slot of the four
bytes at `p` does not hold `p`. -/
theorem fcl_table_slot_truncated :
    ∃ (k : Nat) (s s' : CState),
      runN (fcl_compress_body 64 (List.replicate 65559 0)
        (List.replicate 65560 (0 : Byte)).length) k (cinit (List.replicate 65560 0)) = some s ∧
      fcl_compress_body 64 (List.replicate 65559 0)
        (List.replicate 65560 (0 : Byte)).length s = .ok (.next s') ∧
      65536 ≤ s.ip ∧
      s'.hash_table (fcl_hash 64 (u32 (List.replicate 65559 0) s.ip)) ≠ s.ip := by
  obtain ⟨k, s, s', hrun, hb, hfar⟩ :=
    exists_far_cursor 64 (List.replicate 65559 0) (List.replicate 65560 0)
      (by rw [List.length_replicate]) (by rw [List.length_replicate, List.length_replicate])
  refine ⟨k, s, s', hrun, hb, hfar, ?_⟩
  have hI := (fcl_compress_runN 64 _ _ k s hrun).1
  rw [fcl_compress_body_table 64 _ _ s s' hI hb]
  simp only [tableAfter, if_true]
  omega

/-- C20 (amended): right after a pass of the scan loop at cursor `p` (match or
not) the slot of the four bytes at `p` holds `p mod 65536`, which is `p` when
`p < 65536`, and the other slots are unchanged; so at every state of the run a
slot holds, modulo 65536, the most recent earlier visited cursor whose four
bytes hashed to it, or 0 when there was none. -/
theorem fcl_table_update (w : Nat) (input output : List Byte) :
    (∀ (k : Nat) (s s' : CState),
      runN (fcl_compress_body w input output.length) k (cinit output) = some s →
      fcl_compress_body w input output.length s = .ok (.next s') →
      s'.hash_table (fcl_hash w (u32 input s.ip)) = s.ip % 65536 ∧
      (s.ip < 65536 → s'.hash_table (fcl_hash w (u32 input s.ip)) = s.ip) ∧
      (∀ h, h ≠ fcl_hash w (u32 input s.ip) → s'.hash_table h = s.hash_table h)) ∧
    (∀ (k : Nat) (s : CState) (h : Nat),
      runN (fcl_compress_body w input output.length) k (cinit output) = some s →
      ((∀ (j : Nat) (sj : CState), j < k →
          runN (fcl_compress_body w input output.length) j (cinit output) = some sj →
          fcl_hash w (u32 input sj.ip) ≠ h) ∧
        s.hash_table h = 0) ∨
      (∃ (j : Nat) (sj : CState), j < k ∧
        runN (fcl_compress_body w input output.length) j (cinit output) = some sj ∧
        fcl_hash w (u32 input sj.ip) = h ∧
        s.hash_table h = sj.ip % 65536 ∧
        ∀ (j' : Nat) (sj' : CState), j < j' → j' < k →
          runN (fcl_compress_body w input output.length) j' (cinit output) = some sj' →
          fcl_hash w (u32 input sj'.ip) ≠ h)) := by
  refine ⟨?_, ?_⟩
  · intro k s s' hrun hb
    have hI := (fcl_compress_runN w input output k s hrun).1
    have ht := fcl_compress_body_table w input output.length s s' hI hb
    rw [ht]
    refine ⟨by simp [tableAfter], ?_, ?_⟩
    · intro hp
      simp only [tableAfter, if_true]
      omega
    · intro h hne
      simp [tableAfter, hne]
  · intro k
    induction k with
    | zero =>
      intro s h hrun
      simp only [runN] at hrun
      injection hrun with hrun
      subst hrun
      exact Or.inl ⟨fun j _ hj _ => absurd hj (Nat.not_lt_zero j), rfl⟩
    | succ k ih =>
      intro s' h hrun'
      obtain ⟨s, hrun, hb⟩ := runN_succ_inv _ k (cinit output) s' hrun'
      have hI := (fcl_compress_runN w input output k s hrun).1
      have ht := fcl_compress_body_table w input output.length s s' hI hb
      by_cases hh : h = fcl_hash w (u32 input s.ip)
      · refine Or.inr ⟨k, s, by omega, hrun, hh.symm, ?_, ?_⟩
        · rw [ht, hh]
          simp [tableAfter]
        · intro j' _ h1 h2
          omega
      · have hslot : s'.hash_table h = s.hash_table h := by
          rw [ht]
          simp [tableAfter, hh]
        rcases ih s h hrun with ⟨hnone, h0⟩ | ⟨j, sj, hj, hrj, hhj, hval, hlater⟩
        · refine Or.inl ⟨?_, by rw [hslot, h0]⟩
          intro j sj hj hrj
          by_cases hjk : j = k
          · subst hjk
            rw [hrun] at hrj
            injection hrj with hrj
            subst hrj
            exact fun e => hh e.symm
          · exact hnone j sj (by omega) hrj
        · refine Or.inr ⟨j, sj, by omega, hrj, hhj, by rw [hslot, hval], ?_⟩
          intro j' sj' h1 h2 hrj'
          by_cases hjk : j' = k
          · subst hjk
            rw [hrun] at hrj'
            injection hrj' with hrj'
            subst hrj'
            exact fun e => hh e.symm
          · exact hlater j' sj' h1 (by omega) hrj'

/-- Instance of C20 (amended): after the pass at cursor 0 of six equal bytes the
slot of the four bytes at 0 holds 0, and after the pass at cursor 1 it holds
1. -/
theorem fcl_table_update_witness :
    ((noMatchStep 64 [7, 7, 7, 7, 7, 7] (cinit [0, 0, 0, 0, 0])).hash_table
        (fcl_hash 64 (u32 [7, 7, 7, 7, 7, 7] 0)) = 0 % 65536) ∧
    ((matchStep 64 [7, 7, 7, 7, 7, 7]
        (noMatchStep 64 [7, 7, 7, 7, 7, 7] (cinit [0, 0, 0, 0, 0]))).hash_table
        (fcl_hash 64 (u32 [7, 7, 7, 7, 7, 7] 1)) = 1) :=
  ⟨((fcl_table_update 64 [7, 7, 7, 7, 7, 7] [0, 0, 0, 0, 0]).1 0 (cinit [0, 0, 0, 0, 0])
      (noMatchStep 64 [7, 7, 7, 7, 7, 7] (cinit [0, 0, 0, 0, 0])) rfl rfl).1,
   ((fcl_table_update 64 [7, 7, 7, 7, 7, 7] [0, 0, 0, 0, 0]).1 1
      (noMatchStep 64 [7, 7, 7, 7, 7, 7] (cinit [0, 0, 0, 0, 0]))
      (matchStep 64 [7, 7, 7, 7, 7, 7]
        (noMatchStep 64 [7, 7, 7, 7, 7, 7] (cinit [0, 0, 0, 0, 0]))) rfl rfl).2.1
      (by decide)⟩

/-! ## Wrapping index arithmetic: agreement with the natural numbers -/


theorem uadd_eq {w a b : Nat} (h : a + b < 2 ^ w) : uadd w a b = a + b :=
  Nat.mod_eq_of_lt h

theorem usub_eq {w a b : Nat} (hb : b ≤ a) (ha : a < 2 ^ w) : usub w a b = a - b := by
  unfold usub
  rw [Nat.mod_eq_of_lt (show b < 2 ^ w by omega)]
  have e : a + (2 ^ w - b) = (a - b) + 2 ^ w := by omega
  rw [e, Nat.add_mod_right]
  exact Nat.mod_eq_of_lt (by omega)

/-- Two loop bodies that agree on every state of an invariant give the same
loop. -/
theorem loopN_congr {σ : Type} (b1 b2 : σ → Res (Step σ)) (Inv : σ → Prop)
    (hagree : ∀ s, Inv s → b1 s = b2 s)
    (hpres : ∀ s s', Inv s → b2 s = .ok (.next s') → Inv s') :
    ∀ (fuel : Nat) (s : σ), Inv s → loopN b1 fuel s = loopN b2 fuel s := by
  intro fuel
  induction fuel with
  | zero => intro s _; rfl
  | succ f ih =>
    intro s hs
    unfold loopN
    rw [hagree s hs]
    cases hb : b2 s with
    | ok st =>
      cases st with
      | next s' => exact ih s' (hpres s s' hs hb)
      | done s' => rfl
    | ret1 o => rfl
    | oob => rfl
    | nofuel => rfl

theorem runN_congr {σ : Type} (b1 b2 : σ → Res (Step σ)) (Inv : σ → Prop)
    (hagree : ∀ s, Inv s → b1 s = b2 s)
    (hpres : ∀ s s', Inv s → b2 s = .ok (.next s') → Inv s') :
    ∀ (k : Nat) (s : σ), Inv s → runN b1 k s = runN b2 k s := by
  intro k
  induction k with
  | zero => intro s _; rfl
  | succ f ih =>
    intro s hs
    unfold runN
    rw [hagree s hs]
    cases hb : b2 s with
    | ok st =>
      cases st with
      | next s' => exact ih s' (hpres s s' hs hb)
      | done s' => rfl
    | ret1 o => rfl
    | oob => rfl
    | nofuel => rfl

theorem wrap_copy_bytes_body4_eq (w : Nat) (src : List Byte → Nat → Res Byte) (dst count : Nat)
    (s : Nat × List Byte) (h : s.1 + 4 < 2 ^ w) :
    Wrap.copy_bytes_body4 w src dst count s = copy_bytes_body4 src dst count s := by
  unfold Wrap.copy_bytes_body4 copy_bytes_body4
  rw [uadd_eq h]

theorem wrap_copy_bytes_body1_eq (w : Nat) (src : List Byte → Nat → Res Byte) (dst count : Nat)
    (s : Nat × List Byte) (h : s.1 + 1 < 2 ^ w) :
    Wrap.copy_bytes_body1 w src dst count s = copy_bytes_body1 src dst count s := by
  unfold Wrap.copy_bytes_body1 copy_bytes_body1
  rw [uadd_eq h]

theorem copy_bytes_body4_next (src : List Byte → Nat → Res Byte) (dst count : Nat)
    (s s' : Nat × List Byte) (h : copy_bytes_body4 src dst count s = .ok (.next s')) :
    s'.1 = s.1 + 4 ∧ s'.1 ≤ count := by
  unfold copy_bytes_body4 at h
  split at h
  · cases hc : FCL_COPY4 src dst s.2 s.1 with
    | ok buf =>
      rw [hc] at h
      simp only [Res.ok_bind, Res.pure_eq] at h
      injection h with h; injection h with h
      subst h
      exact ⟨rfl, by assumption⟩
    | ret1 o => rw [hc] at h; simp at h
    | oob => rw [hc] at h; simp at h
    | nofuel => rw [hc] at h; simp at h
  · simp only [Res.pure_eq] at h
    injection h with h; injection h

theorem copy_bytes_body4_done (src : List Byte → Nat → Res Byte) (dst count : Nat)
    (s s' : Nat × List Byte) (h : copy_bytes_body4 src dst count s = .ok (.done s')) :
    s' = s := by
  unfold copy_bytes_body4 at h
  split at h
  · cases hc : FCL_COPY4 src dst s.2 s.1 with
    | ok buf =>
      rw [hc] at h
      simp only [Res.ok_bind, Res.pure_eq] at h
      injection h with h; injection h
    | ret1 o => rw [hc] at h; simp at h
    | oob => rw [hc] at h; simp at h
    | nofuel => rw [hc] at h; simp at h
  · simp only [Res.pure_eq] at h
    injection h with h; injection h with h
    exact h.symm

theorem copy_bytes_body1_next (src : List Byte → Nat → Res Byte) (dst count : Nat)
    (s s' : Nat × List Byte) (h : copy_bytes_body1 src dst count s = .ok (.next s')) :
    s'.1 = s.1 + 1 ∧ s'.1 ≤ count := by
  unfold copy_bytes_body1 at h
  split at h
  · cases hc : copy_byte src dst s.2 s.1 with
    | ok buf =>
      rw [hc] at h
      simp only [Res.ok_bind, Res.pure_eq] at h
      injection h with h; injection h with h
      subst h
      exact ⟨rfl, by assumption⟩
    | ret1 o => rw [hc] at h; simp at h
    | oob => rw [hc] at h; simp at h
    | nofuel => rw [hc] at h; simp at h
  · simp only [Res.pure_eq] at h
    injection h with h; injection h

/-- A loop that ends leaves a state satisfying what its invariant gives
at the exit. -/
theorem loopN_post {σ : Type} (body : σ → Res (Step σ)) (Inv : σ → Prop)
    (hpres : ∀ s s', Inv s → body s = .ok (.next s') → Inv s')
    (hdone : ∀ s s', Inv s → body s = .ok (.done s') → Inv s') :
    ∀ (fuel : Nat) (s r : σ), Inv s → loopN body fuel s = .ok r → Inv r := by
  intro fuel
  induction fuel with
  | zero => intro s r _ h; simp [loopN] at h
  | succ f ih =>
    intro s r hs h
    unfold loopN at h
    cases hb : body s with
    | ok st =>
      cases st with
      | next s' => rw [hb] at h; exact ih s' r (hpres s s' hs hb) h
      | done s' =>
        rw [hb] at h
        injection h with h
        subst h
        exact hdone s s' hs hb
    | ret1 o => rw [hb] at h; simp at h
    | oob => rw [hb] at h; simp at h
    | nofuel => rw [hb] at h; simp at h

/-- With `count + 4` below `2 ^ w` the index of `FCL_COPY_BYTES` does not
wrap. -/
theorem wrap_FCL_COPY_BYTES_eq (w : Nat) (src : List Byte → Nat → Res Byte) (dst : Nat)
    (buf : List Byte) (count : Nat) (h : count + 4 < 2 ^ w) :
    Wrap.FCL_COPY_BYTES w src dst buf count = FCL_COPY_BYTES src dst buf count := by
  unfold Wrap.FCL_COPY_BYTES FCL_COPY_BYTES
  have e4 : ∀ s : Nat × List Byte, s.1 ≤ count →
      loopN (Wrap.copy_bytes_body4 w src dst count) (count + 1) s =
        loopN (copy_bytes_body4 src dst count) (count + 1) s :=
    loopN_congr _ _ (fun s => s.1 ≤ count)
      (fun s hs => wrap_copy_bytes_body4_eq w src dst count s (by omega))
      (fun s s' _ hb => (copy_bytes_body4_next src dst count s s' hb).2) (count + 1)
  have e1 : ∀ s : Nat × List Byte, s.1 ≤ count →
      loopN (Wrap.copy_bytes_body1 w src dst count) (count + 1) s =
        loopN (copy_bytes_body1 src dst count) (count + 1) s :=
    loopN_congr _ _ (fun s => s.1 ≤ count)
      (fun s hs => wrap_copy_bytes_body1_eq w src dst count s (by omega))
      (fun s s' _ hb => (copy_bytes_body1_next src dst count s s' hb).2) (count + 1)
  rw [e4 (0, buf) (Nat.zero_le _)]
  cases hl : loopN (copy_bytes_body4 src dst count) (count + 1) (0, buf) with
  | ok s1 =>
    have hs1 : s1.1 ≤ count :=
      loopN_post (copy_bytes_body4 src dst count) (fun s => s.1 ≤ count)
        (fun s s' _ hb => (copy_bytes_body4_next src dst count s s' hb).2)
        (fun s s' hs hb => by rw [copy_bytes_body4_done src dst count s s' hb]; exact hs)
        (count + 1) (0, buf) s1 (Nat.zero_le _) hl
    simp only [Res.ok_bind]
    rw [e1 s1 hs1]
  | ret1 o => rfl
  | oob => rfl
  | nofuel => rfl

theorem match_extend_body_next_lt (input : List Byte) (ip mtch ml ml' : Nat)
    (h : match_extend_body input ip mtch ml = .ok (.next ml')) :
    ip + ml < input.length := by
  unfold match_extend_body at h
  split at h
  · assumption
  · simp only [Res.pure_eq] at h
    injection h with h; injection h

theorem wrap_match_extend_body_eq (w : Nat) (input : List Byte) (ip mtch ml : Nat)
    (hm : mtch < ip) (h : ip + ml < 2 ^ w) :
    Wrap.match_extend_body w input ip mtch ml = match_extend_body input ip mtch ml := by
  unfold Wrap.match_extend_body match_extend_body
  rw [uadd_eq h, uadd_eq (show mtch + ml < 2 ^ w by omega),
    uadd_eq (show ml + 1 < 2 ^ w by omega)]

/-- The match-extension loop does not wrap: `ip + match_len` stays at most
`input_size`. -/
theorem wrap_match_extend_loop_eq (w : Nat) (input : List Byte) (ip mtch : Nat)
    (hm : mtch < ip) (hip : ip + 4 ≤ input.length) (hn : input.length < 2 ^ w) :
    loopN (Wrap.match_extend_body w input ip mtch) (FCL_MAX_MATCH - FCL_MIN_MATCH + 1)
        FCL_MIN_MATCH =
      loopN (match_extend_body input ip mtch) (FCL_MAX_MATCH - FCL_MIN_MATCH + 1)
        FCL_MIN_MATCH := by
  apply loopN_congr _ _ (fun ml => ip + ml ≤ input.length)
  · intro ml hml
    exact wrap_match_extend_body_eq w input ip mtch ml hm (by omega)
  · intro ml ml' _ hb
    have h1 := (match_extend_body_next input ip mtch ml ml' hb).1
    have h2 := match_extend_body_next_lt input ip mtch ml ml' hb
    show ip + ml' ≤ input.length
    omega
  · exact hip

/-- The match branch does not wrap when the cursor is at least 4 below the
end of the input and the output position has not passed the anchor. -/
theorem wrap_fcl_compress_match_eq (w : Nat) (input : List Byte) (cap : Nat)
    (ht : Nat → Nat) (ref : Nat) (s : CState) (ha : s.anchor ≤ s.ip)
    (hop : s.op ≤ s.anchor) (h4 : s.ip + 4 < input.length) (hr : ref < s.ip)
    (hn : input.length < 2 ^ w) :
    Wrap.fcl_compress_match w input cap ht ref s = fcl_compress_match input cap ht ref s := by
  unfold Wrap.fcl_compress_match fcl_compress_match
  simp only []
  rw [wrap_match_extend_loop_eq w input s.ip ref hr (by omega) hn]
  have hsp := match_extend_spec input s.ip ref hr (by omega)
  cases hl : loopN (match_extend_body input s.ip ref) (FCL_MAX_MATCH - FCL_MIN_MATCH + 1)
      FCL_MIN_MATCH with
  | ok ml =>
    rw [hl] at hsp
    obtain ⟨m4, m19, mn, _, _⟩ := hsp
    simp only [Res.ok_bind]
    have e1 : usub w s.ip s.anchor = s.ip - s.anchor := usub_eq ha (by omega)
    have e2 : uadd w s.op 1 = s.op + 1 := uadd_eq (by omega)
    have e3 : uadd w (s.op + 1) (s.ip - s.anchor) = s.op + 1 + (s.ip - s.anchor) :=
      uadd_eq (by omega)
    have e4 : uadd w (s.op + 1 + (s.ip - s.anchor)) 2 = s.op + 1 + (s.ip - s.anchor) + 2 :=
      uadd_eq (by omega)
    have e5 : usub w ml FCL_MIN_MATCH = ml - FCL_MIN_MATCH :=
      usub_eq (by unfold FCL_MIN_MATCH; omega) (by omega)
    have e6 : usub w s.ip ref = s.ip - ref := usub_eq (by omega) (by omega)
    have e7 : uadd w s.ip ml = s.ip + ml := uadd_eq (by omega)
    rw [e1, e2, e3, e4, e5, e6, e7]
  | ret1 o => rfl
  | oob => rfl
  | nofuel => rfl

/-- A pass of the scan loop does not wrap when `ip + 4` is below `2 ^ w`. -/
theorem wrap_fcl_compress_body_eq (w : Nat) (input : List Byte) (cap : Nat) (s : CState)
    (ha : s.anchor ≤ s.ip) (hop : s.op ≤ s.anchor) (h4 : s.ip + 4 < 2 ^ w)
    (hn : input.length < 2 ^ w) :
    Wrap.fcl_compress_body w input cap s = fcl_compress_body w input cap s := by
  unfold Wrap.fcl_compress_body fcl_compress_body
  rw [uadd_eq (show s.ip + FCL_MIN_MATCH < 2 ^ w from h4), uadd_eq (show s.ip + 1 < 2 ^ w by omega)]
  by_cases hlt : s.ip + FCL_MIN_MATCH < input.length
  · simp only [hlt, if_true]
    cases hseq : FCL_READ_U32 input s.ip with
    | ok seq =>
      simp only [Res.ok_bind]
      by_cases hr : s.hash_table (fcl_hash w seq) < s.ip
      · rw [usub_eq (Nat.le_of_lt hr) (by omega)]
        by_cases hd : s.ip - s.hash_table (fcl_hash w seq) ≤ FCL_MAX_DISTANCE
        · simp only [hr, hd, and_self, if_true]
          cases hseq2 : FCL_READ_U32 input (s.hash_table (fcl_hash w seq)) with
          | ok seq2 =>
            simp only [Res.ok_bind]
            by_cases he : seq2 = seq
            · simp only [he, if_true]
              exact wrap_fcl_compress_match_eq w input cap _ _ s ha hop hlt hr hn
            · simp only [he, if_false]
          | ret1 o => rfl
          | oob => rfl
          | nofuel => rfl
        · simp only [hd, and_false, if_false]
      · simp only [hr, false_and, if_false]
    | ret1 o => rfl
    | oob => rfl
    | nofuel => rfl
  · simp only [hlt, if_false]

theorem toByte_mod (w v : Nat) (hw : 8 ≤ w) : toByte (v % 2 ^ w) = toByte v := by
  apply Fin.ext
  show v % 2 ^ w % 256 = v % 256
  have e : (2 : Nat) ^ w = 256 * 2 ^ (w - 8) := by
    rw [show (256 : Nat) = 2 ^ 8 by norm_num, ← pow_add]
    congr 1
    omega
  rw [e, Nat.mod_mul_right_mod]

/-- The final record does not wrap when `input_size + 4` is below `2 ^ w`. -/
theorem wrap_fcl_compress_final_eq (w : Nat) (input : List Byte) (cap : Nat) (s : CState)
    (hw : 8 ≤ w) (ha : s.anchor ≤ input.length) (hop : s.op ≤ s.anchor)
    (hn : input.length + 4 < 2 ^ w) :
    Wrap.fcl_compress_final w input cap s = fcl_compress_final input cap s := by
  unfold Wrap.fcl_compress_final fcl_compress_final
  simp only []
  have e1 : usub w input.length s.anchor = input.length - s.anchor := usub_eq ha (by omega)
  have e2 : uadd w s.op 1 = s.op + 1 := uadd_eq (by omega)
  have e3 : uadd w (s.op + 1) (input.length - s.anchor) = s.op + 1 + (input.length - s.anchor) :=
    uadd_eq (by omega)
  have e4 : ∀ out1 : List Byte,
      Wrap.FCL_COPY_BYTES w (fun _ k => rd input (s.anchor + k)) (s.op + 1) out1
          (input.length - s.anchor) =
        FCL_COPY_BYTES (fun _ k => rd input (s.anchor + k)) (s.op + 1) out1
          (input.length - s.anchor) :=
    fun out1 => wrap_FCL_COPY_BYTES_eq w _ _ _ _ (by omega)
  rw [e1, e2, e3, toByte_mod w _ hw]
  simp only [e4]

/-- The encoder does not wrap on an input of at most `2 ^ w - 5` bytes: the
function with wrapping index arithmetic is the function over the natural
numbers. -/
theorem wrap_fcl_compress_eq (w : Nat) (input output : List Byte) (hw : 8 ≤ w)
    (hn : input.length + 4 < 2 ^ w) :
    Wrap.fcl_compress w input output = fcl_compress w input output := by
  unfold Wrap.fcl_compress fcl_compress
  have e : loopN (Wrap.fcl_compress_body w input output.length) (input.length + 1)
        (cinit output) =
      loopN (fcl_compress_body w input output.length) (input.length + 1) (cinit output) := by
    apply loopN_congr _ _ (CInvOp input output.length)
    · intro s ⟨⟨ha, hip, _⟩, hop⟩
      exact wrap_fcl_compress_body_eq w input output.length s ha hop (by omega) (by omega)
    · intro s s' hs hb
      have h := fcl_compress_body_sat_op w input output.length s hs
      rw [hb] at h
      exact h.1
    · exact cinit_inv_op input output
  have h := fcl_compress_loop_sat_op w input output
  show (loopN (Wrap.fcl_compress_body w input output.length) (input.length + 1)
        (cinit output) >>= fun s => Wrap.fcl_compress_final w input output.length s) =
      (loopN (fcl_compress_body w input output.length) (input.length + 1) (cinit output) >>=
        fun s => fcl_compress_final input output.length s)
  rw [e]
  cases hl : loopN (fcl_compress_body w input output.length) (input.length + 1)
      (cinit output) with
  | ok s =>
    rw [hl] at h
    simp only [Res.ok_bind]
    obtain ⟨⟨ha, hip, _⟩, hop⟩ := h
    exact wrap_fcl_compress_final_eq w input output.length s hw (by omega) hop hn
  | ret1 o => rfl
  | oob => rfl
  | nofuel => rfl
theorem two_pow_gt (w : Nat) (h : 19 < 2 ^ w) : 23 < 2 ^ w := by
  have h5 : 5 ≤ w := by
    by_contra hc
    have hw : w ≤ 4 := by omega
    have := Nat.pow_le_pow_right (show 0 < 2 by decide) hw
    omega
  have := Nat.pow_le_pow_right (show 0 < 2 by decide) h5
  omega

theorem match_copy_body_next (src : List Byte → Nat → Res Byte) (dst count : Nat)
    (s s' : Nat × List Byte) (h : match_copy_body src dst count s = .ok (.next s')) :
    s'.1 = s.1 + 1 ∧ s'.1 ≤ count :=
  copy_bytes_body1_next src dst count s s' h

theorem wrap_match_copy_body_eq (w : Nat) (src : List Byte → Nat → Res Byte) (dst count : Nat)
    (s : Nat × List Byte) (h : s.1 + 1 < 2 ^ w) :
    Wrap.match_copy_body w src dst count s = match_copy_body src dst count s := by
  unfold Wrap.match_copy_body match_copy_body
  rw [uadd_eq h]

/-- The match copy does not wrap when the distance is at most the output
position. -/
theorem wrap_fcl_decompress_copy_eq (w : Nat) (output : List Byte) (op offset match_len : Nat)
    (h1 : offset ≤ op) (h2 : op < 2 ^ w) (h3 : match_len + 4 < 2 ^ w) :
    Wrap.fcl_decompress_copy w output op offset match_len =
      fcl_decompress_copy output op offset match_len := by
  unfold Wrap.fcl_decompress_copy fcl_decompress_copy
  simp only []
  have es : (fun (buf : List Byte) (k : Nat) => rd buf (usub w op offset + k)) =
      (fun (buf : List Byte) (k : Nat) => rdInt buf ((op : Int) - offset + k)) := by
    funext buf k
    rw [usub_eq h1 h2, rdInt_sub h1]
  rw [es]
  split
  · exact wrap_FCL_COPY_BYTES_eq w _ _ _ _ h3
  · have e : loopN (Wrap.match_copy_body w
          (fun buf k => rdInt buf ((op : Int) - offset + k)) op match_len)
          (match_len + 1) (0, output) =
        loopN (match_copy_body (fun buf k => rdInt buf ((op : Int) - offset + k)) op match_len)
          (match_len + 1) (0, output) :=
      loopN_congr _ _ (fun s => s.1 ≤ match_len)
        (fun s hs => wrap_match_copy_body_eq w _ op match_len s (by omega))
        (fun s s' _ hb => (match_copy_body_next _ op match_len s s' hb).2) (match_len + 1)
        (0, output) (Nat.zero_le _)
    rw [e]

theorem token_hi_le (b : Byte) : b.val >>> 4 ≤ 15 := by
  have := b.isLt
  rw [Nat.shiftRight_eq_div_pow]
  omega

theorem token_lo_le (b : Byte) : (b.val &&& 0x0F) + FCL_MIN_MATCH ≤ 19 := by
  have h : b.val &&& 15 ≤ 15 := Nat.and_le_right
  unfold FCL_MIN_MATCH
  omega

/-- A pass of the decoder loop does not wrap when the sums of its guards
stay below `2 ^ w`. -/
theorem wrap_fcl_decompress_body_eq (w : Nat) (input : List Byte) (cap : Nat) (s : DState)
    (hn : input.length + 15 < 2 ^ w) (ho : s.op + 15 < 2 ^ w)
    (hc : min cap (s.op + 15) + 19 < 2 ^ w) :
    Wrap.fcl_decompress_body w input cap s = fcl_decompress_body input cap s := by
  have h23 : 23 < 2 ^ w := two_pow_gt w (by omega)
  unfold Wrap.fcl_decompress_body fcl_decompress_body
  by_cases hip : s.ip < input.length
  · simp only [hip, if_true]
    rw [rd_eq hip]
    simp only [Res.ok_bind]
    have hL := token_hi_le input[s.ip]
    have hM := token_lo_le input[s.ip]
    generalize input[s.ip].val >>> 4 = L at hL ⊢
    generalize (input[s.ip].val &&& 0x0F) + FCL_MIN_MATCH = M at hM ⊢
    have e1 : uadd w s.ip 1 = s.ip + 1 := uadd_eq (by omega)
    have e2 : uadd w (s.ip + 1) L = s.ip + 1 + L := uadd_eq (by omega)
    have e3 : uadd w s.op L = s.op + L := uadd_eq (by omega)
    rw [e1, e2, e3]
    by_cases g1 : s.ip + 1 + L > input.length ∨ s.op + L > cap
    · simp only [g1, if_true]
    · simp only [g1, if_false]
      have e4 : Wrap.FCL_COPY_BYTES w (fun _ k => rd input (s.ip + 1 + k)) s.op s.output L =
          FCL_COPY_BYTES (fun _ k => rd input (s.ip + 1 + k)) s.op s.output L :=
        wrap_FCL_COPY_BYTES_eq w _ _ _ _ (by omega)
      rw [e4]
      cases hcp : FCL_COPY_BYTES (fun _ k => rd input (s.ip + 1 + k)) s.op s.output L with
      | ok out1 =>
        simp only [Res.ok_bind]
        have e5 : uadd w (s.ip + 1 + L) 2 = s.ip + 1 + L + 2 := uadd_eq (by omega)
        have e6 : uadd w (s.ip + 1 + L) 1 = s.ip + 1 + L + 1 := uadd_eq (by omega)
        have e7 : uadd w (s.op + L) M = s.op + L + M := uadd_eq (by omega)
        rw [e5, e6, e7]
        by_cases g2 : s.ip + 1 + L ≥ input.length
        · simp only [g2, if_true]
        · simp only [g2, if_false]
          by_cases g3 : s.ip + 1 + L + 2 > input.length
          · simp only [g3, if_true]
          · simp only [g3, if_false]
            cases hlo : rd input (s.ip + 1 + L) with
            | ok lo =>
              cases hhi : rd input (s.ip + 1 + L + 1) with
              | ok hi =>
                simp only [Res.ok_bind]
                generalize lo.val ||| (hi.val <<< 8) = D
                by_cases g4 : D = 0 ∨ D > s.op + L ∨ s.op + L + M > cap
                · simp only [g4, if_true]
                · simp only [g4, if_false]
                  rw [wrap_fcl_decompress_copy_eq w out1 (s.op + L) D M (by omega) (by omega)
                    (by omega)]
              | ret1 o => rfl
              | oob => rfl
              | nofuel => rfl
            | ret1 o => rfl
            | oob => rfl
            | nofuel => rfl
      | ret1 o => rfl
      | oob => rfl
      | nofuel => rfl
  · simp only [hip, if_false]

/-- The decoder does not wrap on a stream of at most `2 ^ w - 16` bytes and a
capacity of at most `2 ^ w - 20`: the function with wrapping index arithmetic
is the function over the natural numbers. -/
theorem wrap_fcl_decompress_eq (w : Nat) (input output : List Byte)
    (hn : input.length + 15 < 2 ^ w) (hc : output.length + 19 < 2 ^ w) :
    Wrap.fcl_decompress w input output = fcl_decompress input output := by
  unfold Wrap.fcl_decompress fcl_decompress
  have e : loopN (Wrap.fcl_decompress_body w input output.length) (input.length + 1)
        (dinit output) =
      loopN (fcl_decompress_body input output.length) (input.length + 1) (dinit output) := by
    apply loopN_congr _ _ (DInv input output.length)
    · intro s ⟨_, hop, _⟩
      exact wrap_fcl_decompress_body_eq w input output.length s hn (by omega) (by omega)
    · intro s s' hs hb
      have h := fcl_decompress_body_sat input output.length s hs
      rw [hb] at h
      exact h.1
    · exact dinit_inv input output
  show (loopN (Wrap.fcl_decompress_body w input output.length) (input.length + 1)
        (dinit output) >>= fun s => pure (s.output, s.op)) =
      (loopN (fcl_decompress_body input output.length) (input.length + 1) (dinit output) >>=
        fun s => pure (s.output, s.op))
  rw [e]

/-! ## Wrapping index arithmetic: runs at the `unsigned long` limit -/

theorem wrap_fcl_compress_loop_eq (w : Nat) (input output : List Byte)
    (hn : input.length + 4 < 2 ^ w) (fuel : Nat) :
    loopN (Wrap.fcl_compress_body w input output.length) fuel (cinit output) =
      loopN (fcl_compress_body w input output.length) fuel (cinit output) := by
  apply loopN_congr _ _ (CInvOp input output.length)
  · intro s ⟨⟨ha, hip, _⟩, hop⟩
    exact wrap_fcl_compress_body_eq w input output.length s ha hop (by omega) (by omega)
  · intro s s' hs hb
    have h := fcl_compress_body_sat_op w input output.length s hs
    rw [hb] at h
    exact h.1
  · exact cinit_inv_op input output

theorem wrap_fcl_compress_runN_eq (w : Nat) (input output : List Byte)
    (hn : input.length + 4 < 2 ^ w) (k : Nat) :
    runN (Wrap.fcl_compress_body w input output.length) k (cinit output) =
      runN (fcl_compress_body w input output.length) k (cinit output) := by
  apply runN_congr _ _ (CInvOp input output.length)
  · intro s ⟨⟨ha, hip, _⟩, hop⟩
    exact wrap_fcl_compress_body_eq w input output.length s ha hop (by omega) (by omega)
  · intro s s' hs hb
    have h := fcl_compress_body_sat_op w input output.length s hs
    rw [hb] at h
    exact h.1
  · exact cinit_inv_op input output

theorem wrap_fcl_decompress_runN_eq (w : Nat) (input output : List Byte)
    (hn : input.length + 15 < 2 ^ w) (hc : output.length + 19 < 2 ^ w) (k : Nat) :
    runN (Wrap.fcl_decompress_body w input output.length) k (dinit output) =
      runN (fcl_decompress_body input output.length) k (dinit output) := by
  apply runN_congr _ _ (DInv input output.length)
  · intro s ⟨_, hop, _⟩
    exact wrap_fcl_decompress_body_eq w input output.length s hn (by omega) (by omega)
  · intro s s' hs hb
    have h := fcl_decompress_body_sat input output.length s hs
    rw [hb] at h
    exact h.1
  · exact dinit_inv input output

theorem wrap_match_extend_body_next (w : Nat) (input : List Byte) (ip mtch ml ml' : Nat)
    (h : Wrap.match_extend_body w input ip mtch ml = .ok (.next ml')) :
    ml' = uadd w ml 1 ∧ ml' ≠ FCL_MAX_MATCH := by
  unfold Wrap.match_extend_body at h
  split at h
  · cases h1 : rd input (uadd w mtch ml) with
    | ok a =>
      cases h2 : rd input (uadd w ip ml) with
      | ok b =>
        simp only [h1, h2, Res.ok_bind, Res.pure_eq] at h
        split at h
        · split at h
          · injection h with h; injection h
          · rename_i hne
            injection h with h; injection h with h
            subst h
            exact ⟨rfl, hne⟩
        · injection h with h; injection h
      | ret1 o => simp [h1, h2] at h
      | oob => simp [h1, h2] at h
      | nofuel => simp [h1, h2] at h
    | ret1 o => simp [h1] at h
    | oob => simp [h1] at h
    | nofuel => simp [h1] at h
  · simp only [Res.pure_eq] at h
    injection h with h; injection h

/-- In a run of the match-extension loop from `FCL_MIN_MATCH`, the length after
`j` passes is `4 + j`, and at most 18. -/
theorem wrap_match_extend_runN (w : Nat) (input : List Byte) (ip mtch : Nat)
    (hw : 19 < 2 ^ w) :
    ∀ (j ml : Nat), runN (Wrap.match_extend_body w input ip mtch) j FCL_MIN_MATCH = some ml →
      ml = 4 + j ∧ ml ≤ 18 := by
  intro j
  induction j with
  | zero =>
    intro ml h
    simp only [runN] at h
    injection h with h
    subst h
    exact ⟨rfl, by decide⟩
  | succ j ih =>
    intro ml h
    obtain ⟨m, hm, hb⟩ := runN_succ_inv _ j FCL_MIN_MATCH ml h
    obtain ⟨e, h18⟩ := ih m hm
    obtain ⟨e', hne⟩ := wrap_match_extend_body_next w input ip mtch m ml hb
    rw [uadd_eq (by omega)] at e'
    unfold FCL_MAX_MATCH at hne
    omega

theorem counterBytes_length (n : Nat) : (counterBytes n).length = n := by
  unfold counterBytes
  rw [List.length_map, List.length_range]

theorem counterBytes_getElem? (n i : Nat) (h : i < n) :
    (counterBytes n)[i]? = some (toByte (if i % 2 = 0 then i / 2 else i / 512)) := by
  unfold counterBytes
  rw [List.getElem?_map, List.getElem?_range h]
  rfl

/-- A table slot holds a value below 65536. -/
theorem scanTable_lt (w : Nat) (input : List Byte) : ∀ k h, scanTable w input k h < 65536 := by
  intro k
  induction k with
  | zero => intro h; simp [scanTable]
  | succ k ih =>
    intro h
    unfold scanTable
    split
    · exact Nat.mod_lt _ (by decide)
    · exact ih h

theorem succ_mod256 (x : Nat) :
    (x + 1) % 256 = if x % 256 = 255 then 0 else x % 256 + 1 := by
  split <;> omega

theorem succ_div256 (x : Nat) :
    (x + 1) / 256 = if x % 256 = 255 then x / 256 + 1 else x / 256 := by
  split <;> omega

theorem counter_even_odd (p q : Nat)
    (h0 : p % 256 = q / 256) (h1 : p / 256 = (q + 1) % 256)
    (h2 : (p + 1) % 256 = (q + 1) / 256) (h3 : (p + 1) / 256 = (q + 1 + 1) % 256) : False := by
  have e1 := succ_mod256 q
  have e2 := succ_div256 q
  have e3 := succ_mod256 (q + 1)
  have e4 := succ_mod256 p
  have e5 := succ_div256 p
  by_cases hd : q % 256 = 255
  · simp only [hd, if_true] at e1 e2
    rw [e1] at e3
    simp only [show ¬ (0 = 255) by decide, if_false] at e3
    by_cases hb : p % 256 = 255
    · simp only [hb, if_true] at e4 e5
      omega
    · simp only [hb, if_false] at e4 e5
      omega
  · simp only [hd, if_false] at e1 e2
    by_cases hb : p % 256 = 255
    · simp only [hb, if_true] at e4 e5
      omega
    · simp only [hb, if_false] at e4 e5
      omega

theorem counter_odd_even (p q : Nat) (hpq : p < q) (hq : q ≤ 65535)
    (h0 : p / 256 = q % 256) (h1 : (p + 1) % 256 = q / 256)
    (h2 : (p + 1) / 256 = (q + 1) % 256) : False := by
  rw [succ_div256 p, succ_mod256 q] at h2
  rw [succ_mod256 p] at h1
  split_ifs at h1 h2 <;> omega

/-- Two 4-byte windows of the counter bytes that start below position 131071
differ. -/
theorem counter_window_ne (r k : Nat) (hr : r < k) (hk : k < 131071)
    (h : ∀ t, t < 4 →
      (if (r + t) % 2 = 0 then (r + t) / 2 else (r + t) / 512) % 256 =
        (if (k + t) % 2 = 0 then (k + t) / 2 else (k + t) / 512) % 256) : False := by
  rcases Nat.mod_two_eq_zero_or_one r with er | er <;>
    rcases Nat.mod_two_eq_zero_or_one k with ek | ek
  · have a1 : (r + 1) % 2 ≠ 0 := by omega
    have a2 : (r + 2) % 2 = 0 := by omega
    have a3 : (r + 3) % 2 ≠ 0 := by omega
    have b1 : (k + 1) % 2 ≠ 0 := by omega
    have b2 : (k + 2) % 2 = 0 := by omega
    have b3 : (k + 3) % 2 ≠ 0 := by omega
    have h0 := h 0 (by decide)
    have h1 := h 1 (by decide)
    have h2 := h 2 (by decide)
    have h3 := h 3 (by decide)
    simp only [Nat.add_zero] at h0
    simp only [er, ek, a1, a2, a3, b1, b2, b3, if_true, if_false] at h0 h1 h2 h3
    omega
  · have a1 : (r + 1) % 2 ≠ 0 := by omega
    have a2 : (r + 2) % 2 = 0 := by omega
    have a3 : (r + 3) % 2 ≠ 0 := by omega
    have b0 : k % 2 ≠ 0 := by omega
    have b1 : (k + 1) % 2 = 0 := by omega
    have b2 : (k + 2) % 2 ≠ 0 := by omega
    have b3 : (k + 3) % 2 = 0 := by omega
    have f1 : (r + 1) / 512 = r / 2 / 256 := by omega
    have f2 : (r + 2) / 2 = r / 2 + 1 := by omega
    have f3 : (r + 3) / 512 = (r / 2 + 1) / 256 := by omega
    have f4 : k / 512 = k / 2 / 256 := by omega
    have f5 : (k + 1) / 2 = k / 2 + 1 := by omega
    have f6 : (k + 2) / 512 = (k / 2 + 1) / 256 := by omega
    have f7 : (k + 3) / 2 = k / 2 + 1 + 1 := by omega
    have c1 : r / 2 / 256 < 256 := by omega
    have c2 : (r / 2 + 1) / 256 < 256 := by omega
    have c3 : k / 2 / 256 < 256 := by omega
    have c4 : (k / 2 + 1) / 256 < 256 := by omega
    have h0 := h 0 (by decide)
    have h1 := h 1 (by decide)
    have h2 := h 2 (by decide)
    have h3 := h 3 (by decide)
    simp only [Nat.add_zero] at h0
    simp only [er, b0, a1, a2, a3, b1, b2, b3, if_true, if_false] at h0 h1 h2 h3
    rw [f4, Nat.mod_eq_of_lt c3] at h0
    rw [f1, f5, Nat.mod_eq_of_lt c1] at h1
    rw [f2, f6, Nat.mod_eq_of_lt c4] at h2
    rw [f3, f7, Nat.mod_eq_of_lt c2] at h3
    exact counter_even_odd (r / 2) (k / 2) h0 h1 h2 h3
  · have a0 : r % 2 ≠ 0 := by omega
    have a1 : (r + 1) % 2 = 0 := by omega
    have a2 : (r + 2) % 2 ≠ 0 := by omega
    have a3 : (r + 3) % 2 = 0 := by omega
    have b1 : (k + 1) % 2 ≠ 0 := by omega
    have b2 : (k + 2) % 2 = 0 := by omega
    have b3 : (k + 3) % 2 ≠ 0 := by omega
    have f1 : r / 512 = r / 2 / 256 := by omega
    have f2 : (r + 1) / 2 = r / 2 + 1 := by omega
    have f3 : (r + 2) / 512 = (r / 2 + 1) / 256 := by omega
    have f5 : (k + 1) / 512 = k / 2 / 256 := by omega
    have f6 : (k + 2) / 2 = k / 2 + 1 := by omega
    have c1 : r / 2 / 256 < 256 := by omega
    have c2 : (r / 2 + 1) / 256 < 256 := by omega
    have c3 : k / 2 / 256 < 256 := by omega
    have h0 := h 0 (by decide)
    have h1 := h 1 (by decide)
    have h2 := h 2 (by decide)
    simp only [Nat.add_zero] at h0
    simp only [ek, a0, a1, a2, b1, b2, if_true, if_false] at h0 h1 h2
    rw [f1, Nat.mod_eq_of_lt c1] at h0
    rw [f2, f5, Nat.mod_eq_of_lt c3] at h1
    rw [f3, f6, Nat.mod_eq_of_lt c2] at h2
    exact counter_odd_even (r / 2) (k / 2) (by omega) (by omega) h0 h1 h2
  · have a0 : r % 2 ≠ 0 := by omega
    have a1 : (r + 1) % 2 = 0 := by omega
    have a2 : (r + 2) % 2 ≠ 0 := by omega
    have a3 : (r + 3) % 2 = 0 := by omega
    have b0 : k % 2 ≠ 0 := by omega
    have b1 : (k + 1) % 2 = 0 := by omega
    have b2 : (k + 2) % 2 ≠ 0 := by omega
    have b3 : (k + 3) % 2 = 0 := by omega
    have h0 := h 0 (by decide)
    have h1 := h 1 (by decide)
    have h2 := h 2 (by decide)
    have h3 := h 3 (by decide)
    simp only [Nat.add_zero] at h0
    simp only [a0, b0, a1, a2, a3, b1, b2, b3, if_true, if_false] at h0 h1 h2 h3
    omega

/-- The encoder finds no match on the counter bytes: a candidate within the
window holds other bytes, and beyond position 131070 the table value, which is
below 65536, is out of the window. -/
theorem noMatch_counterBytes (w n : Nat) : NoMatch w (counterBytes n) := by
  intro k hk hroot
  rw [counterBytes_length] at hk
  obtain ⟨h1, h2, h3⟩ := hroot
  have hlt := scanTable_lt w (counterBytes n) k (fcl_hash w (u32 (counterBytes n) k))
  generalize scanTable w (counterBytes n) k (fcl_hash w (u32 (counterBytes n) k)) = r
    at h1 h2 h3 hlt
  unfold FCL_MAX_DISTANCE at h2
  have hw := u32_inj (counterBytes n) r k (by rw [counterBytes_length]; omega)
    (by rw [counterBytes_length]; omega) h3
  apply counter_window_ne r k h1 (by omega)
  intro t ht
  have e := hw t ht
  rw [counterBytes_getElem? n (r + t) (by omega),
    counterBytes_getElem? n (k + t) (by omega)] at e
  injection e with e
  exact congrArg Fin.val e

/-- On an input of fewer than `2 ^ w` bytes with no match below cursor `m`, the
scan loop with wrapping index arithmetic reaches cursor `m` without a match. -/
theorem wrap_scan_run (w : Nat) (input output : List Byte) (hn : input.length < 2 ^ w) :
    ∀ m, NoMatchBelow w input m → m ≤ input.length - 4 →
      runN (Wrap.fcl_compress_body w input output.length) m (cinit output)
        = some (scanState w input output m) := by
  intro m
  induction m with
  | zero => intro _ _; rfl
  | succ m ih =>
    intro hno hm
    have hrun := ih (fun k hk => hno k (by omega)) (by omega)
    apply runN_succ_right _ m _ _ _ hrun
    rw [wrap_fcl_compress_body_eq w input output.length (scanState w input output m)
      (Nat.zero_le _) (Nat.le_refl _) (show m + 4 < 2 ^ w by omega) hn]
    rw [fcl_compress_body_nomatch w input output.length (scanState w input output m)
      (show m + 4 < input.length by omega) (hno m (by omega))]
    rfl

/-- On an input of at least 4 and fewer than `2 ^ w` bytes on which the encoder
finds no match, the scan loop with wrapping index arithmetic ends at cursor
`input_size - 4` with anchor and output position 0. -/
theorem wrap_scan_loop (w : Nat) (input output : List Byte) (hn : input.length < 2 ^ w)
    (h4 : 4 ≤ input.length) (hno : NoMatch w input) :
    loopN (Wrap.fcl_compress_body w input output.length) (input.length + 1) (cinit output) =
      .ok (scanState w input output (input.length - 4)) := by
  have hrun := wrap_scan_run w input output hn (input.length - 4)
    (fun k hk => hno k (by omega)) (Nat.le_refl _)
  have e : input.length + 1 = (input.length - 4) + 5 := by omega
  rw [e, loopN_runN _ _ _ _ hrun 5]
  apply loopN_done
  rw [wrap_fcl_compress_body_eq w input output.length _ (Nat.zero_le _) (Nat.le_refl _)
    (show input.length - 4 + 4 < 2 ^ w by omega) hn]
  exact fcl_compress_body_exit w input output.length _
    (show ¬ input.length - 4 + 4 < input.length by omega)

theorem wrap_fcl_compress_unfold (w : Nat) (input output : List Byte) :
    Wrap.fcl_compress w input output =
      (loopN (Wrap.fcl_compress_body w input output.length) (input.length + 1) (cinit output)
        >>= fun s => Wrap.fcl_compress_final w input output.length s) := rfl

/-- The sum `op + 1 + literal_len` of the final guard wraps to 0 when the
whole input of `2 ^ w - 1` bytes is the final literal run. -/
theorem wrap_final_guard (w n : Nat) (hn : n + 1 = 2 ^ w) (h4 : 4 ≤ n) :
    usub w n 0 = n ∧ uadd w (uadd w 0 1) n = 0 := by
  have h1 : 1 < 2 ^ w := by omega
  refine ⟨usub_eq (Nat.zero_le n) (show n < 2 ^ w by omega), ?_⟩
  rw [uadd_eq (show 0 + 1 < 2 ^ w by omega)]
  unfold uadd
  rw [show 0 + 1 + n = 2 ^ w by omega, Nat.mod_self]

/-- An input of `2 ^ w - 1` bytes on which the encoder finds no match, with
capacity 0: the final guard `op + 1 + literal_len > output_capacity` wraps to
`0 > 0`, and the token is stored at `output[0]`, outside the buffer. -/
theorem wrap_fcl_compress_oob_cap0 (w : Nat) (input : List Byte)
    (hn : input.length + 1 = 2 ^ w) (h4 : 4 ≤ input.length) (hno : NoMatch w input) :
    Wrap.fcl_compress w input [] = .oob := by
  rw [wrap_fcl_compress_unfold, wrap_scan_loop w input [] (by omega) h4 hno]
  simp only [Res.ok_bind]
  obtain ⟨e1, e2⟩ := wrap_final_guard w input.length hn h4
  unfold Wrap.fcl_compress_final
  simp only [scanState]
  rw [e1, e2]
  rfl

/-- The same input with capacity 1: the guard wraps to `0 > 1`, the token is
stored at `output[0]` and the first literal at `output[1]`, outside the
buffer. -/
theorem wrap_fcl_compress_oob_cap1 (w : Nat) (input : List Byte) (b : Byte)
    (hn : input.length + 1 = 2 ^ w) (h4 : 4 ≤ input.length) (hno : NoMatch w input) :
    Wrap.fcl_compress w input [b] = .oob := by
  rw [wrap_fcl_compress_unfold, wrap_scan_loop w input [b] (by omega) h4 hno]
  simp only [Res.ok_bind]
  obtain ⟨e1, e2⟩ := wrap_final_guard w input.length hn h4
  unfold Wrap.fcl_compress_final
  simp only [scanState]
  rw [e1, e2]
  have e3 : uadd w 0 1 = 1 := uadd_eq (by omega)
  have e4 : uadd w 0 4 = 4 := uadd_eq (by omega)
  have hrd : rd input 0 = .ok (input[0]) := rd_eq (by omega)
  simp only [List.length_singleton, show ¬ (0 > 1) by decide, if_false, wr,
    show (0 : Nat) < 1 by decide, if_true, Res.ok_bind, e3]
  unfold Wrap.FCL_COPY_BYTES
  rw [loopN]
  simp only [Wrap.copy_bytes_body4, e4, h4, if_true, FCL_COPY4, copy_byte, Nat.add_zero,
    hrd, Res.ok_bind, wr, List.length_set, List.length_singleton,
    show ¬ (1 < 1) by decide, if_false, Res.oob_bind]

theorem loopN_oob_at {σ : Type} (body : σ → Res (Step σ)) (k fuel : Nat) (s0 s : σ)
    (hrun : runN body k s0 = some s) (hk : k < fuel) (hb : body s = .oob) :
    loopN body fuel s0 = .oob := by
  obtain ⟨f, rfl⟩ : ∃ f, fuel = k + (f + 1) := ⟨fuel - k - 1, by omega⟩
  rw [loopN_runN body k s0 s hrun (f + 1)]
  simp [loopN, hb]

theorem recordBytes_length (n : Nat) : (recordBytes n).length = n := by
  unfold recordBytes
  rw [List.length_map, List.length_range]

theorem recordBytes_getD (n i : Nat) (h : i < n) :
    (recordBytes n).getD i 0 =
      if i % 4 = 0 then (0x1F : Byte) else if i % 4 = 1 then 0x07 else if i % 4 = 2 then 0x01
      else 0x00 := by
  unfold recordBytes
  rw [List.getD_eq_getElem?_getD, List.getElem?_map, List.getElem?_range h]
  rfl

/-- The record at input position `4 * j` of the record bytes announces one
literal, a match of length 19 and the distance 1. -/
theorem recordBytes_record (n j : Nat) (D : DState) (hip : D.ip = 4 * j) (hn : 4 * j + 4 ≤ n) :
    recLiteralLen (recordBytes n) D = 1 ∧ recMatchLen (recordBytes n) D = 19 ∧
      recOffset (recordBytes n) D = 1 := by
  have e0 : (recordBytes n).getD (4 * j) 0 = 0x1F := by
    rw [recordBytes_getD n _ (by omega)]
    simp only [show (4 * j) % 4 = 0 by omega, if_true]
  have e2 : (recordBytes n).getD (4 * j + 1 + 1) 0 = 0x01 := by
    rw [recordBytes_getD n _ (by omega)]
    simp only [show (4 * j + 1 + 1) % 4 = 2 by omega, if_true, if_false,
      show ¬ (2 = 0) by decide, show ¬ (2 = 1) by decide]
  have e3 : (recordBytes n).getD (4 * j + 1 + 1 + 1) 0 = 0x00 := by
    rw [recordBytes_getD n _ (by omega)]
    simp only [show (4 * j + 1 + 1 + 1) % 4 = 3 by omega, if_false,
      show ¬ (3 = 0) by decide, show ¬ (3 = 1) by decide, show ¬ (3 = 2) by decide]
  have hL : recLiteralLen (recordBytes n) D = 1 := by
    unfold recLiteralLen
    rw [hip, e0]
    rfl
  refine ⟨hL, ?_, ?_⟩
  · unfold recMatchLen
    rw [hip, e0]
    rfl
  · unfold recOffset
    rw [hL, hip, e2, e3]
    rfl

/-- The byte-by-byte match copy runs out of the output buffer when the match
does not fit. -/
theorem match_copy_oob (output : List Byte) (op offset ml : Nat) (h0 : 0 < offset)
    (h1 : offset ≤ op) (h2 : op ≤ output.length) (h3 : output.length < op + ml) :
    ∀ fuel i, i ≤ output.length - op → output.length - op < fuel + i →
      loopN (match_copy_body (fun buf k => rdInt buf ((op : Int) - offset + k)) op ml) fuel
        (i, copyN (selfSrc op offset) op output i) = .oob := by
  have hs := srcOk_self op offset output.length (output.length - op) h0 h1 (by omega)
  intro fuel
  induction fuel with
  | zero => intro i h4 h5; omega
  | succ f ih =>
    intro i h4 h5
    by_cases h : i < output.length - op
    · have hb : match_copy_body (fun buf k => rdInt buf ((op : Int) - offset + k)) op ml
          (i, copyN (selfSrc op offset) op output i) =
          .ok (.next (i + 1, copyN (selfSrc op offset) op output (i + 1))) := by
        have hi : i < ml := by omega
        simp only [match_copy_body, hi, if_true]
        rw [copy_byte_eq hs (by omega) i h]
        rfl
      rw [loopN_next _ f _ _ hb]
      exact ih (i + 1) (by omega) (by omega)
    · have hi : i = output.length - op := by omega
      have hb : match_copy_body (fun buf k => rdInt buf ((op : Int) - offset + k)) op ml
          (i, copyN (selfSrc op offset) op output i) = .oob := by
        have hi' : i < ml := by omega
        simp only [match_copy_body, hi', if_true, copy_byte]
        rw [rdInt_sub h1, rd_eq (by rw [copyN_length]; omega)]
        simp only [Res.ok_bind, wr, copyN_length]
        rw [if_neg (by omega)]
        rfl
      simp [loopN, hb]

/-- The match copy of a match that does not fit the output buffer, at a
distance below the match length, ends outside the buffer. -/
theorem fcl_decompress_copy_oob (output : List Byte) (op offset ml : Nat) (h0 : 0 < offset)
    (h1 : offset ≤ op) (h2 : op ≤ output.length) (h3 : output.length < op + ml)
    (h4 : offset < ml) :
    fcl_decompress_copy output op offset ml = .oob := by
  unfold fcl_decompress_copy
  simp only []
  rw [if_neg (by omega)]
  have := match_copy_oob output op offset ml h0 h1 h2 h3 (ml + 1) 0 (by omega) (by omega)
  simp only [copyN] at this
  rw [this]
  rfl

/-- On the record bytes, with `2 ^ w = 20 * K + 16` and a larger capacity, the
decoder with wrapping index arithmetic stands after `j ≤ K` records at input
position `4 * j` and output position `20 * j`. -/
theorem wrap_dec_run (w K : Nat) (out : List Byte) (hM : 2 ^ w = 20 * K + 16)
    (hcap : 20 * K ≤ out.length) :
    ∀ j, j ≤ K →
      ∃ D, runN (Wrap.fcl_decompress_body w (recordBytes (4 * (K + 1))) out.length) j
          (dinit out) = some D ∧
        D.ip = 4 * j ∧ D.op = 20 * j ∧ D.output.length = out.length := by
  intro j
  induction j with
  | zero => intro _; exact ⟨dinit out, rfl, rfl, rfl, rfl⟩
  | succ j ih =>
    intro hj
    obtain ⟨D, hrun, hip, hop, hlen⟩ := ih (by omega)
    have hS : (recordBytes (4 * (K + 1))).length = 4 * (K + 1) := recordBytes_length _
    obtain ⟨hL, hMl, hO⟩ := recordBytes_record (4 * (K + 1)) j D hip (by omega)
    have hb : Wrap.fcl_decompress_body w (recordBytes (4 * (K + 1))) out.length D =
        .ok (.next { ip := D.ip + 1 + 1 + 2, op := D.op + 1 + 19,
                     output := copyN (selfSrc (D.op + 1) 1) (D.op + 1)
                       (recLiterals (recordBytes (4 * (K + 1))) D) 19 }) := by
      rw [wrap_fcl_decompress_body_eq w _ out.length D (by rw [hS]; omega) (by omega)
        (by omega)]
      rw [fcl_decompress_body_eq _ out.length D (by rw [hS]; omega) hlen, hL, hMl, hO, hS]
      rw [if_neg (by omega), if_neg (by omega), if_neg (by omega), if_neg (by omega)]
    refine ⟨_, runN_succ_right _ j _ _ _ hrun hb, ?_, ?_, ?_⟩
    · show D.ip + 1 + 1 + 2 = 4 * (j + 1)
      omega
    · show D.op + 1 + 19 = 20 * (j + 1)
      omega
    · simp only [copyN_length, recLiterals_length, hlen]

/-- At output position `2 ^ w - 16` the record `1F 07 01 00` passes the guard
`op + match_len > output_capacity`, whose sum wraps to 4, and its match copy
leaves the output buffer. -/
theorem wrap_dec_overflow (w K : Nat) (D : DState) (cap : Nat) (hK : 1 ≤ K)
    (hM : 2 ^ w = 20 * K + 16)
    (hcap : cap + 1 = 2 ^ w) (hip : D.ip = 4 * K) (hop : D.op = 20 * K)
    (hlen : D.output.length = cap) :
    Wrap.fcl_decompress_body w (recordBytes (4 * (K + 1))) cap D = .oob := by
  have hS : (recordBytes (4 * (K + 1))).length = 4 * (K + 1) := recordBytes_length _
  have g0 : (recordBytes (4 * (K + 1))).getD (4 * K) 0 = 0x1F := by
    rw [recordBytes_getD _ _ (by omega)]
    simp only [show (4 * K) % 4 = 0 by omega, if_true]
  have g2 : (recordBytes (4 * (K + 1))).getD (4 * K + 1 + 1) 0 = 0x01 := by
    rw [recordBytes_getD _ _ (by omega)]
    simp only [show (4 * K + 1 + 1) % 4 = 2 by omega, if_true, if_false,
      show ¬ (2 = 0) by decide, show ¬ (2 = 1) by decide]
  have g3 : (recordBytes (4 * (K + 1))).getD (4 * K + 1 + 1 + 1) 0 = 0x00 := by
    rw [recordBytes_getD _ _ (by omega)]
    simp only [show (4 * K + 1 + 1 + 1) % 4 = 3 by omega, if_false,
      show ¬ (3 = 0) by decide, show ¬ (3 = 1) by decide, show ¬ (3 = 2) by decide]
  have tL : (0x1F : Byte).val >>> 4 = 1 := rfl
  have tM : ((0x1F : Byte).val &&& 0x0F) + FCL_MIN_MATCH = 19 := rfl
  have tO : (0x01 : Byte).val ||| ((0x00 : Byte).val <<< 8) = 1 := rfl
  have e1 : uadd w (4 * K) 1 = 4 * K + 1 := uadd_eq (by omega)
  have e2 : uadd w (4 * K + 1) 1 = 4 * K + 1 + 1 := uadd_eq (by omega)
  have e3 : uadd w (20 * K) 1 = 20 * K + 1 := uadd_eq (by omega)
  have e4 : uadd w (4 * K + 1 + 1) 2 = 4 * K + 1 + 1 + 2 := uadd_eq (by omega)
  have e5 : uadd w (4 * K + 1 + 1) 1 = 4 * K + 1 + 1 + 1 := uadd_eq (by omega)
  have e6 : uadd w (20 * K + 1) 19 = 4 := by
    unfold uadd
    rw [hM, show 20 * K + 1 + 19 = 4 + (20 * K + 16) by omega, Nat.add_mod_right]
    exact Nat.mod_eq_of_lt (by omega)
  unfold Wrap.fcl_decompress_body
  rw [hip, hop, hS, if_pos (by omega), rd_eq_getD (by rw [hS]; omega), g0]
  simp only [Res.ok_bind, tL, tM, e1, e2, e3]
  rw [if_neg (by omega)]
  rw [wrap_FCL_COPY_BYTES_eq w _ _ _ _ (by omega),
    FCL_COPY_BYTES_eq (srcOk_input _ (4 * K + 1) _ 1 (by rw [hS]; omega)) (by omega)]
  simp only [Res.ok_bind, e4, e5, e6]
  rw [if_neg (by omega), if_neg (by omega), rd_eq_getD (by rw [hS]; omega), g2,
    rd_eq_getD (by rw [hS]; omega), g3]
  simp only [Res.ok_bind, tO]
  rw [if_neg (by omega)]
  rw [wrap_fcl_decompress_copy_eq w _ _ _ _ (by omega) (by omega) (by omega),
    fcl_decompress_copy_oob _ _ _ _ (by decide) (by omega) (by rw [copyN_length]; omega)
      (by rw [copyN_length]; omega) (by decide)]
  rfl

theorem wrap_fcl_decompress_unfold (w : Nat) (input output : List Byte) :
    Wrap.fcl_decompress w input output =
      (loopN (Wrap.fcl_decompress_body w input output.length) (input.length + 1)
        (dinit output) >>= fun s => pure (s.output, s.op)) := rfl

/-- With `2 ^ w = 20 * K + 16`, the stream of `K + 1` records `1F 07 01 00` and
a capacity of `2 ^ w - 1` make the decoder with wrapping index arithmetic store
outside the output buffer. -/
theorem wrap_fcl_decompress_oob (w K n : Nat) (out : List Byte) (hK : 1 ≤ K)
    (hn : n = 4 * (K + 1)) (hM : 2 ^ w = 20 * K + 16) (hcap : out.length + 1 = 2 ^ w) :
    Wrap.fcl_decompress w (recordBytes n) out = .oob := by
  subst hn
  obtain ⟨D, hrun, hip, hop, hlen⟩ := wrap_dec_run w K out hM (by omega) K (Nat.le_refl _)
  have hb := wrap_dec_overflow w K D out.length hK hM hcap hip hop hlen
  rw [wrap_fcl_decompress_unfold,
    loopN_oob_at _ K _ (dinit out) D hrun (by rw [recordBytes_length]; omega) hb]
  rfl

/-- On an input of at least 4 bytes on which the encoder finds no match, the
scan loop over the natural numbers ends at cursor `input_size - 4` with anchor
and output position 0. -/
theorem scan_loop (w : Nat) (input output : List Byte) (h4 : 4 ≤ input.length)
    (hno : NoMatch w input) :
    loopN (fcl_compress_body w input output.length) (input.length + 1) (cinit output) =
      .ok (scanState w input output (input.length - 4)) := by
  have hrun := scan_run w input output (input.length - 4)
    (fun k hk => hno k (by omega)) (Nat.le_refl _)
  have e : input.length + 1 = (input.length - 4) + 5 := by omega
  rw [e, loopN_runN _ _ _ _ hrun 5]
  apply loopN_done
  exact fcl_compress_body_exit w input output.length _
    (show ¬ input.length - 4 + 4 < input.length by omega)

/-- Over the natural numbers an input on which the encoder finds no match does
not fit a capacity of at most its size: the call returns 1 and leaves the
buffer as it was. -/
theorem fcl_compress_nomatch_ret1 (w : Nat) (input output : List Byte)
    (h4 : 4 ≤ input.length) (hno : NoMatch w input) (hc : output.length ≤ input.length) :
    fcl_compress w input output = .ret1 output := by
  rw [fcl_compress_unfold, scan_loop w input output h4 hno]
  simp only [Res.ok_bind]
  unfold fcl_compress_final
  simp only [scanState]
  rw [if_pos (by omega)]

theorem FCL_COPY4_const (b : Byte) (dst i : Nat) (buf : List Byte)
    (h : dst + i + 3 < buf.length) :
    ∃ buf', FCL_COPY4 (fun _ _ => .ok b) dst buf i = .ok buf' := by
  unfold FCL_COPY4 copy_byte
  simp only [Res.ok_bind]
  rw [wr_eq _ (by omega)]
  simp only [Res.ok_bind]
  rw [wr_eq _ (by rw [List.length_set]; omega)]
  simp only [Res.ok_bind]
  rw [wr_eq _ (by rw [List.length_set, List.length_set]; omega)]
  simp only [Res.ok_bind]
  rw [wr_eq _ (by rw [List.length_set, List.length_set, List.length_set]; omega)]
  exact ⟨_, rfl⟩

/-! ## C2, C3, C12 with wrapping index arithmetic -/

/-- C2 fails at the `unsigned long` limit. With 32-bit `unsigned long`, the
input of `2 ^ 32 - 1` counter bytes (on which the encoder finds no match) and
capacity 0: the sum of the final guard `op + 1 + literal_len > output_capacity`
is `2 ^ 32`, which wraps to 0, so the call does not return 1 and stores the
token at `output[0]`, an index that is not below the capacity. With the sum
taken in the natural numbers the guard holds and the call returns 1. -/
theorem fcl_compress_guard_wraps :
    (counterBytes 4294967295).length = 4294967295 ∧
    Wrap.fcl_compress 32 (counterBytes 4294967295) [] = .oob ∧
    fcl_compress 32 (counterBytes 4294967295) [] = .ret1 [] :=
  ⟨counterBytes_length 4294967295,
   wrap_fcl_compress_oob_cap0 32 (counterBytes 4294967295)
     (by rw [counterBytes_length]; norm_num) (by rw [counterBytes_length]; norm_num)
     (noMatch_counterBytes 32 4294967295),
   fcl_compress_nomatch_ret1 32 (counterBytes 4294967295) []
     (by rw [counterBytes_length]; norm_num) (noMatch_counterBytes 32 4294967295)
     (Nat.zero_le _)⟩

/-- C2: with `unsigned long` of `w ≥ 8` bits and every sum of the source taken
modulo `2 ^ w`, on every input of at most `2 ^ w - 5` bytes and for every
capacity `fcl_compress` stays inside both buffers and within its fuel; a
success reports a size of at most the capacity; a match record that does not
fit, and a final record that does not fit, make the call return 1 with the
output buffer as it was before that record. -/
theorem fcl_compress_within_capacity (w : Nat) (input output : List Byte) (hw : 8 ≤ w)
    (hn : input.length + 4 < 2 ^ w) :
    (match Wrap.fcl_compress w input output with
      | .ok r => r.1.length = output.length ∧ r.2 ≤ output.length
      | .ret1 o => o.length = output.length
      | .oob => False
      | .nofuel => False) ∧
    (∀ (k : Nat) (s : CState),
      runN (Wrap.fcl_compress_body w input output.length) k (cinit output) = some s →
      s.ip + 4 < input.length →
      s.hash_table (fcl_hash w (u32 input s.ip)) < s.ip →
      s.ip - s.hash_table (fcl_hash w (u32 input s.ip)) ≤ 65535 →
      u32 input (s.hash_table (fcl_hash w (u32 input s.ip))) = u32 input s.ip →
      s.op + 1 + (s.ip - s.anchor) + 2 > output.length →
      Wrap.fcl_compress w input output = .ret1 s.output) ∧
    (∀ s : CState,
      loopN (Wrap.fcl_compress_body w input output.length) (input.length + 1) (cinit output)
        = .ok s →
      s.op + 1 + (input.length - s.anchor) > output.length →
      Wrap.fcl_compress w input output = .ret1 s.output) := by
  rw [wrap_fcl_compress_eq w input output hw hn, wrap_fcl_compress_loop_eq w input output hn]
  have h := fcl_compress_guards w input output
  refine ⟨h.1, ?_, h.2.2⟩
  intro k s hrun
  rw [wrap_fcl_compress_runN_eq w input output hn] at hrun
  exact h.2.1 k s hrun

/-- Instances of C2 with 64-bit `unsigned long`: a match record and a final
record that do not fit. -/
theorem fcl_compress_within_capacity_witness :
    Wrap.fcl_compress 64 (List.replicate 6 7) (List.replicate 3 0) =
      .ret1 (List.replicate 3 0) ∧
    Wrap.fcl_compress 64 [1, 2, 3] [0, 0, 0] = .ret1 [0, 0, 0] :=
  ⟨(fcl_compress_within_capacity 64 (List.replicate 6 7) (List.replicate 3 0) (by decide)
      (by decide)).2.1 1
      { hash_table := fun h =>
          if h = fcl_hash 64 (u32 (List.replicate 6 7) 0) then 0 % 65536 else 0,
        ip := 1, anchor := 0, op := 0, output := List.replicate 3 0 }
      rfl (by decide) (by decide) (by decide) (by decide) (by decide),
   (fcl_compress_within_capacity 64 [1, 2, 3] [0, 0, 0] (by decide) (by decide)).2.2
      (cinit [0, 0, 0]) rfl (by decide)⟩

/-- C3 fails at the `unsigned long` limit. With 32-bit `unsigned long`, the
stream of 214748365 records `1F 07 01 00` (858993460 bytes) and a capacity of
`2 ^ 32 - 1`: after 214748364 records the output position is `2 ^ 32 - 16`;
the next record copies one literal, the sum of the guard
`op + match_len > output_capacity` is `2 ^ 32 + 4`, which wraps to 4, and the
match copy stores at `output[2 ^ 32 - 1]`, an index that is not below the
capacity. -/
theorem fcl_decompress_guard_wraps :
    (recordBytes 858993460).length = 858993460 ∧
    (List.replicate 4294967295 (0 : Byte)).length = 4294967295 ∧
    Wrap.fcl_decompress 32 (recordBytes 858993460) (List.replicate 4294967295 0) = .oob :=
  ⟨recordBytes_length 858993460, List.length_replicate _ _,
   wrap_fcl_decompress_oob 32 214748364 858993460 (List.replicate 4294967295 0)
     (by norm_num) (by norm_num) (by norm_num)
     (by rw [List.length_replicate]; norm_num)⟩

/-- C3: with `unsigned long` of `w` bits and every sum of the source taken
modulo `2 ^ w`, on every stream of at most `2 ^ w - 16` bytes and every
capacity of at most `2 ^ w - 20`, `fcl_decompress` stays inside both buffers
(and within its fuel), a success reports a size of at most the capacity, and a
record whose literals do not fit the input or the output, whose distance field
is cut, whose distance reaches below the start of the output or whose match
does not fit the output makes the call return 1 with the buffer as it is before
the offending copy. -/
theorem fcl_decompress_in_bounds (w : Nat) (input output : List Byte)
    (hn : input.length + 15 < 2 ^ w) (hc : output.length + 19 < 2 ^ w) :
    (match Wrap.fcl_decompress w input output with
      | .ok r => r.1.length = output.length ∧ r.2 ≤ output.length
      | .ret1 o => o.length = output.length
      | .oob => False
      | .nofuel => False) ∧
    (∀ (k : Nat) (s : DState),
      runN (Wrap.fcl_decompress_body w input output.length) k (dinit output) = some s →
      s.ip < input.length →
      (s.ip + 1 + recLiteralLen input s > input.length ∨
          s.op + recLiteralLen input s > output.length →
        Wrap.fcl_decompress w input output = .ret1 s.output) ∧
      (s.ip + 1 + recLiteralLen input s < input.length →
        s.op + recLiteralLen input s ≤ output.length →
        (s.ip + 1 + recLiteralLen input s + 2 > input.length ∨
          recOffset input s > s.op + recLiteralLen input s ∨
          s.op + recLiteralLen input s + recMatchLen input s > output.length) →
        Wrap.fcl_decompress w input output = .ret1 (recLiterals input s))) := by
  rw [wrap_fcl_decompress_eq w input output hn hc]
  have h := fcl_decompress_guards input output
  refine ⟨h.1, ?_⟩
  intro k s hrun
  rw [wrap_fcl_decompress_runN_eq w input output hn hc] at hrun
  exact h.2 k s hrun

/-- Instances of C3 with 64-bit `unsigned long`: literals beyond the input, a
distance below the start of the output, a match beyond the capacity. -/
theorem fcl_decompress_in_bounds_witness :
    Wrap.fcl_decompress 64 [0x20, 7] [0, 0, 0] = .ret1 [0, 0, 0] ∧
    Wrap.fcl_decompress 64 [0x10, 7, 9, 0] [0, 0, 0, 0, 0, 0] = .ret1 [7, 0, 0, 0, 0, 0] ∧
    Wrap.fcl_decompress 64 [0x1F, 7, 1, 0] [0, 0, 0, 0, 0, 0] = .ret1 [7, 0, 0, 0, 0, 0] :=
  ⟨((fcl_decompress_in_bounds 64 [0x20, 7] [0, 0, 0] (by decide) (by decide)).2 0
      (dinit [0, 0, 0]) rfl (by decide)).1 (by decide),
   ((fcl_decompress_in_bounds 64 [0x10, 7, 9, 0] [0, 0, 0, 0, 0, 0] (by decide)
      (by decide)).2 0
      (dinit [0, 0, 0, 0, 0, 0]) rfl (by decide)).2 (by decide) (by decide) (by decide),
   ((fcl_decompress_in_bounds 64 [0x1F, 7, 1, 0] [0, 0, 0, 0, 0, 0] (by decide)
      (by decide)).2 0
      (dinit [0, 0, 0, 0, 0, 0]) rfl (by decide)).2 (by decide) (by decide) (by decide)⟩

/-- C12 fails at the `unsigned long` limit. With 32-bit `unsigned long`, the
input of `2 ^ 32 - 1` counter bytes and capacity 1: the call ends neither with
`return 0` nor with `return 1`, the final guard wraps and the copy loop of
`FCL_COPY_BYTES` runs out of the output buffer. That loop has no bound: its
pass at index `2 ^ 32 - 4` with count `2 ^ 32 - 1` tests `_i + 4 <= count`
with the sum wrapped to 0 and goes round again with index 0 (shown on a memory
large enough for the four stores). -/
theorem fcl_copy_index_wraps :
    Wrap.fcl_compress 32 (counterBytes 4294967295) [0] = .oob ∧
    ∃ buf, Wrap.copy_bytes_body4 32 (fun _ _ => .ok 0) 0 4294967295
      (4294967292, List.replicate 4294967296 0) = .ok (.next (0, buf)) := by
  refine ⟨wrap_fcl_compress_oob_cap1 32 (counterBytes 4294967295) 0
     (by rw [counterBytes_length]; norm_num) (by rw [counterBytes_length]; norm_num)
     (noMatch_counterBytes 32 4294967295), ?_⟩
  have e : uadd 32 4294967292 4 = 0 := by norm_num [uadd]
  obtain ⟨buf, hbuf⟩ := FCL_COPY4_const 0 0 4294967292 (List.replicate 4294967296 0)
    (by rw [List.length_replicate]; norm_num)
  refine ⟨buf, ?_⟩
  unfold Wrap.copy_bytes_body4
  rw [e, if_pos (Nat.zero_le _), hbuf]
  rfl

/-- C12: with `unsigned long` of `w ≥ 8` bits and every sum of the source taken
modulo `2 ^ w`. On an input of at most `2 ^ w - 5` bytes `fcl_compress` ends
within the fuel `input_size + 1` with `return 0` or `return 1`; in a run of its
scan loop the pass number `k` is at most the cursor, hence below `input_size`
for a pass that goes round again, and such a pass moves the cursor by 1 or by a
match length between 4 and 19; in a run of the match-extension loop a pass that
goes round again adds 1 to `match_len` and does not reach 19, and the loop ends
with a length of at most 19. On a stream of at most `2 ^ w - 16` bytes and a
capacity of at most `2 ^ w - 20`, `fcl_decompress` ends within the fuel
`input_size + 1` with `return 0` or `return 1`, and a pass of its loop that
goes round again has a pass number of at most the input position and moves the
input position by at least 3. -/
theorem fcl_terminates (w : Nat) (input output : List Byte) (hw : 8 ≤ w) :
    (input.length + 4 < 2 ^ w →
      ((∃ r, Wrap.fcl_compress w input output = .ok r) ∨
        (∃ o, Wrap.fcl_compress w input output = .ret1 o)) ∧
      (∀ (k : Nat) (s s' : CState),
        runN (Wrap.fcl_compress_body w input output.length) k (cinit output) = some s →
        Wrap.fcl_compress_body w input output.length s = .ok (.next s') →
        k ≤ s.ip ∧ k < input.length ∧
        (s'.ip = s.ip + 1 ∨ (s.ip + 4 ≤ s'.ip ∧ s'.ip ≤ s.ip + 19))) ∧
      (∀ (ip mtch j ml ml' : Nat),
        runN (Wrap.match_extend_body w input ip mtch) j FCL_MIN_MATCH = some ml →
        Wrap.match_extend_body w input ip mtch ml = .ok (.next ml') →
        ml' = ml + 1 ∧ ml' ≠ FCL_MAX_MATCH) ∧
      (∀ (ip mtch : Nat), mtch < ip → ip + 4 ≤ input.length →
        ∃ ml, loopN (Wrap.match_extend_body w input ip mtch)
            (FCL_MAX_MATCH - FCL_MIN_MATCH + 1) FCL_MIN_MATCH = .ok ml ∧
          4 ≤ ml ∧ ml ≤ 19)) ∧
    (input.length + 15 < 2 ^ w → output.length + 19 < 2 ^ w →
      ((∃ r, Wrap.fcl_decompress w input output = .ok r) ∨
        (∃ o, Wrap.fcl_decompress w input output = .ret1 o)) ∧
      (∀ (k : Nat) (s s' : DState),
        runN (Wrap.fcl_decompress_body w input output.length) k (dinit output) = some s →
        Wrap.fcl_decompress_body w input output.length s = .ok (.next s') →
        k ≤ s.ip ∧ k < input.length ∧ s.ip + 3 ≤ s'.ip)) := by
  have h := fcl_progress w input output
  have h256 : 256 ≤ 2 ^ w := Nat.pow_le_pow_right (show 0 < 2 by decide) hw
  refine ⟨?_, ?_⟩
  · intro hn4
    rw [wrap_fcl_compress_eq w input output hw hn4]
    refine ⟨h.1, ?_, ?_, ?_⟩
    · intro k s s' hrun hb
      rw [wrap_fcl_compress_runN_eq w input output hn4] at hrun
      obtain ⟨⟨ha, hip, _⟩, hop⟩ := fcl_compress_runN_op w input output k s hrun
      rw [wrap_fcl_compress_body_eq w input output.length s ha hop (by omega) (by omega)] at hb
      exact h.2.2.1 k s s' hrun hb
    · intro ip mtch j ml ml' hrun hb
      obtain ⟨_, h18⟩ := wrap_match_extend_runN w input ip mtch (by omega) j ml hrun
      obtain ⟨e, hne⟩ := wrap_match_extend_body_next w input ip mtch ml ml' hb
      rw [uadd_eq (by omega)] at e
      exact ⟨e, hne⟩
    · intro ip mtch hm hip
      rw [wrap_match_extend_loop_eq w input ip mtch hm hip (by omega)]
      exact h.2.2.2.2.1 ip mtch hm hip
  · intro hn hc
    rw [wrap_fcl_decompress_eq w input output hn hc]
    refine ⟨h.2.1, ?_⟩
    intro k s s' hrun hb
    rw [wrap_fcl_decompress_runN_eq w input output hn hc] at hrun
    obtain ⟨⟨_, hop, _⟩, _⟩ := fcl_decompress_runN input output k s hrun
    rw [wrap_fcl_decompress_body_eq w input output.length s hn (by omega) (by omega)] at hb
    exact h.2.2.2.2.2 k s s' hrun hb

/-- Instance of C12 with 64-bit `unsigned long`: the pass at cursor 1 of six
equal bytes moves the cursor to 6, and the decoder's pass over the record
`11 00 01 00` moves its input position to 4. -/
theorem fcl_terminates_witness :
    (1 ≤ 1 ∧ 1 < 6 ∧ ((6 : Nat) = 1 + 1 ∨ (1 + 4 ≤ 6 ∧ 6 ≤ 1 + 19))) ∧
    (0 ≤ 0 ∧ 0 < 5 ∧ 0 + 3 ≤ 4) :=
  ⟨((fcl_terminates 64 [7, 7, 7, 7, 7, 7] [0, 0, 0, 0, 0] (by decide)).1 (by decide)).2.1 1
      (noMatchStep 64 [7, 7, 7, 7, 7, 7] (cinit [0, 0, 0, 0, 0]))
      (matchStep 64 [7, 7, 7, 7, 7, 7]
        (noMatchStep 64 [7, 7, 7, 7, 7, 7] (cinit [0, 0, 0, 0, 0]))) rfl rfl,
   ((fcl_terminates 64 [0x11, 0, 1, 0, 0] [0, 0, 0, 0, 0, 0] (by decide)).2 (by decide)
      (by decide)).2 0
      (dinit [0, 0, 0, 0, 0, 0]) { ip := 4, op := 6, output := [0, 0, 0, 0, 0, 0] }
      rfl (by decide)⟩

end Fcl
